import Mathlib

/-! # tiny-ecs: the presence index, the component table, the store and the query pass

Shallow embedding of `src/ecs.hpp`.

* `uint64_t` values are natural numbers; every place where the source can
  wrap is reduced modulo `u64 = 2 ^ 64`.
* `std::vector<T>` is `List T`; `resize` truncates or pads with the
  value-initialised element.
* An unchecked access (`v[i]`, `*(v.data() + i)`) outside the vector and
  `__builtin_ctzl(0)` are undefined behaviour; a function that can reach one
  returns `Option`, and `none` stands for the undefined run.
-/

namespace urtela

/-- Modulus of `uint64_t` arithmetic. -/
def u64 : Nat := 2 ^ 64

/-- The constant `table_index::npos = ~uint64_t(0)`. -/
def npos : Nat := u64 - 1

/-- The complement `~x` of a 64-bit word. -/
def not64 (x : Nat) : Nat := u64 - 1 - x % u64

/-- The method `std::vector::resize(n)` with fill value `fill`. -/
def resize {α : Type} (v : List α) (n : Nat) (fill : α) : List α :=
  v.take n ++ List.replicate (n - v.length) fill

/-- Count of trailing zero bits of `x`, looking at `fuel` bit positions from `i` on. -/
def ctz : Nat → Nat → Nat → Nat
  | 0, _, i => i
  | fuel + 1, x, i => if x % 2 = 1 then i else ctz fuel (x / 2) (i + 1)

/-- The function `findFirstSetBit` (`__builtin_ctzl`): index of the lowest set
bit of a 64-bit word; undefined for `0`. -/
def findFirstSetBit (source : Nat) : Option Nat :=
  if source = 0 then none else some (ctz 64 source 0)

/-- The enum `table_index::data_view`. -/
inductive data_view where
  | PassThrough
  | Invert
deriving DecidableEq

/-- How `merge<view>` reads a word of the other index. -/
def data_view.read : data_view → Nat → Nat
  | .PassThrough, w => w
  | .Invert, w => not64 w

/-- The class `ecs::table_index`: the words of the presence bitset. -/
structure table_index where
  m_index_data : List Nat
deriving DecidableEq

namespace table_index

/-- A default-constructed index (no words). -/
def empty : table_index := ⟨[]⟩

/-- Membership as the data model defines it: bit `id % 64` of word `id / 64`. -/
def contains (self : table_index) (id : Nat) : Bool :=
  (self.m_index_data.getD (id / 64) 0).testBit (id % 64)

/-- The words are 64-bit words and every member is a `uint64_t` other than `npos`. -/
def valid (self : table_index) : Prop :=
  (∀ w ∈ self.m_index_data, w < u64) ∧ ∀ id, self.contains id = true → id < npos

/-- The method `table_index::set`. -/
def set (self : table_index) (id : Nat) : Option table_index :=
  let block := id >>> 6
  let bit := id &&& 63
  let data :=
    if block ≥ self.m_index_data.length then
      resize self.m_index_data ((((3 * block) % u64) >>> 1) + 1) 0
    else self.m_index_data
  if block < data.length then
    some ⟨data.set block (data.getD block 0 ||| (1 <<< bit) % u64)⟩
  else none

/-- The method `table_index::reset`. -/
def reset (self : table_index) (id : Nat) : Option table_index :=
  let block := id >>> 6
  let bit := id &&& 63
  if block < self.m_index_data.length then
    some ⟨self.m_index_data.set block
      (self.m_index_data.getD block 0 &&& not64 ((1 <<< bit) % u64))⟩
  else none

/-- The loop `for (i = lo; i < lo + count; ++i) data[i] = f i data[i]`. -/
def for_words (lo count : Nat) (f : Nat → Nat → Nat) (data : List Nat) : List Nat :=
  (List.range' lo count).foldl (fun d i => d.set i (f i (d.getD i 0))) data

/-- The method `table_index::merge<view>`. -/
def merge (view : data_view) (self other : table_index) : table_index :=
  let mySize := self.m_index_data.length
  let otherSize := other.m_index_data.length
  if mySize > otherSize then
    let data := for_words 0 otherSize
      (fun i w => w &&& view.read (other.m_index_data.getD i 0)) self.m_index_data
    ⟨for_words otherSize (mySize - otherSize) (fun _ _ => 0) data⟩
  else
    ⟨for_words 0 mySize
      (fun i w => w &&& view.read (other.m_index_data.getD i 0)) self.m_index_data⟩

/-- The loop `while (++block < size)` of `next`; `rest` holds the words after
the current block and `block` is the already incremented counter. -/
def next_scan : List Nat → Nat → Option Nat
  | [], _ => some npos
  | blockData :: rest, block =>
    if blockData ≠ 0 then
      (findFirstSetBit blockData).map fun firstSetBit => ((block <<< 6) % u64 + firstSetBit) % u64
    else next_scan rest (block + 1)

/-- The method `table_index::next`. -/
def next (self : table_index) (firstAllowed : Nat) : Option Nat :=
  let block := firstAllowed >>> 6
  let bit := firstAllowed &&& 63
  if block ≥ self.m_index_data.length then some npos
  else
    let blockData := self.m_index_data.getD block 0 &&& not64 ((1 <<< bit) % u64 - 1)
    if blockData ≠ 0 then
      (findFirstSetBit blockData).map fun firstSetBit => ((block <<< 6) % u64 + firstSetBit) % u64
    else next_scan (self.m_index_data.drop (block + 1)) (block + 1)

/-- The sequence `n0 = next(0)`, `n(k+1) = next(n(k) + 1)` up to the first
`npos`, started at `cursor`; `none` when `fuel` steps do not reach `npos`. -/
def enumerate (self : table_index) : Nat → Nat → Option (List Nat)
  | 0, _ => none
  | fuel + 1, cursor =>
    match self.next cursor with
    | none => none
    | some n =>
      if n = npos then some []
      else (enumerate self fuel ((n + 1) % u64)).map fun l => n :: l

/-- What one `merge<view>(index)` asks of a member `id` for it to stay, as the
code computes it: for `PassThrough` membership in `index`; for `Invert`
absence from `index` in a word that `index` has. -/
def passes (view : data_view) (index : table_index) (id : Nat) : Prop :=
  match view with
  | .PassThrough => index.contains id = true
  | .Invert => index.contains id = false ∧ id / 64 < index.m_index_data.length

/-- Calling `set(id)` for each id of `S`, in list order. -/
def set_all (self : table_index) (S : List Nat) : Option table_index :=
  S.foldlM (fun t id => t.set id) self

end table_index

/-! ## The component table -/

/-- The class `ecs::component_table<T>`: the sparse array and its presence index. -/
structure component_table (T : Type) where
  m_data : List T
  m_index : table_index
deriving DecidableEq

namespace component_table

/-- A default-constructed table. -/
def empty {T : Type} : component_table T := ⟨[], table_index.empty⟩

/-- The method `component_table::insert`; the write `*(m_data.data() + id) = t`
is undefined outside the array. -/
def insert {T : Type} [Inhabited T] (self : component_table T) (id : Nat) (t : T) :
    Option (component_table T) :=
  let data :=
    if id ≥ self.m_data.length then
      resize self.m_data ((((3 * id) % u64) >>> 1) + 1) default
    else self.m_data
  if id < data.length then
    (self.m_index.set id).map fun index => ⟨data.set id t, index⟩
  else none

/-- The method `component_table::erase`. -/
def erase {T : Type} (self : component_table T) (id : Nat) : Option (component_table T) :=
  (self.m_index.reset id).map fun index => ⟨self.m_data, index⟩

/-- The method `component_table::index`. -/
def index {T : Type} (self : component_table T) : table_index := self.m_index

/-- The method `component_table::operator[]`: `*(m_data.data() + id)`, undefined
outside the array. -/
def get {T : Type} (self : component_table T) (id : Nat) : Option T := self.m_data[id]?

/-- The write through the reference that `operator[]` returns. -/
def put {T : Type} (self : component_table T) (id : Nat) (t : T) : component_table T :=
  ⟨self.m_data.set id t, self.m_index⟩

/-- The invariant of the data model: the index is valid, every present id has
an allocated slot, and the length of the array is a `size_t` below `npos`. -/
def valid {T : Type} (self : component_table T) : Prop :=
  self.m_index.valid ∧ (∀ id, self.m_index.contains id = true → id < self.m_data.length) ∧
    self.m_data.length ≤ npos

end component_table

/-! ## The store -/

/-- The constant `type_index::no_type`. -/
def no_type : Nat := u64 - 1

/-- The class `ecs::type_index`. -/
structure type_index where
  runningTypeIndex : Nat
deriving DecidableEq

/-- The method `type_index::id<T>()`. Component types are named by numbers;
`statics T` is the function-local `static uint64_t result` of the instantiation
for `T`, which belongs to the process and not to the `type_index` object. -/
def type_index.id (self : type_index) (statics : Nat → Nat) (T : Nat) :
    Nat × type_index × (Nat → Nat) :=
  if statics T ≠ no_type then (statics T, self, statics)
  else
    (self.runningTypeIndex, ⟨(self.runningTypeIndex + 1) % u64⟩,
      Function.update statics T self.runningTypeIndex)

/-- The statics of a process in which no `id<T>()` has run yet. -/
def fresh_statics : Nat → Nat := fun _ => no_type

/-- The class `ecs::entity_index`. -/
structure entity_index where
  m_nextId : Nat
deriving DecidableEq

/-- The method `entity_index::generateOne`: `++m_nextId`. -/
def entity_index.generateOne (self : entity_index) : Nat × entity_index :=
  ((self.m_nextId + 1) % u64, ⟨(self.m_nextId + 1) % u64⟩)

/-- The class `urtela::ecs`. `T` is the universe of component values; slot `i`
of `m_components` is `none` for `nullptr` and otherwise the table it points to. -/
structure ecs (T : Type) where
  m_components : List (Option (component_table T))
  types : type_index
  entities : entity_index
deriving DecidableEq

namespace ecs

/-- A newly constructed store. -/
def new {T : Type} : ecs T := ⟨[], ⟨0⟩, ⟨0⟩⟩

/-- The method `ecs::table<U>()`: returns the slot of the table of `U` (the
reference it yields points to that heap object), creating it on first use. -/
def table {T : Type} (self : ecs T) (statics : Nat → Nat) (U : Nat) :
    Option (Nat × ecs T × (Nat → Nat)) :=
  match self.types.id statics U with
  | (typeIndex, types, statics) =>
    let components :=
      if typeIndex ≥ self.m_components.length then
        resize self.m_components ((((3 * typeIndex) % u64) >>> 1) + 1) none
      else self.m_components
    if typeIndex < components.length then
      let components :=
        if (components.getD typeIndex none).isNone then
          components.set typeIndex (some component_table.empty)
        else components
      some (typeIndex, ⟨components, types, self.entities⟩, statics)
    else none

/-- The method `ecs::addComponent`. -/
def addComponent {T : Type} [Inhabited T] (self : ecs T) (statics : Nat → Nat) (id : Nat)
    (U : Nat) (component : T) : Option (ecs T × (Nat → Nat)) :=
  match self.table statics U with
  | none => none
  | some (typeIndex, db, statics) =>
    match db.m_components.getD typeIndex none with
    | none => none
    | some componentTable =>
      match componentTable.insert id component with
      | none => none
      | some componentTable =>
        some (⟨db.m_components.set typeIndex (some componentTable), db.types, db.entities⟩,
          statics)

/-- The method `ecs::removeComponent`. -/
def removeComponent {T : Type} (self : ecs T) (statics : Nat → Nat) (id : Nat) (U : Nat) :
    Option (ecs T × (Nat → Nat)) :=
  match self.table statics U with
  | none => none
  | some (typeIndex, db, statics) =>
    match db.m_components.getD typeIndex none with
    | none => none
    | some componentTable =>
      match componentTable.erase id with
      | none => none
      | some componentTable =>
        some (⟨db.m_components.set typeIndex (some componentTable), db.types, db.entities⟩,
          statics)

/-- The calls `addComponent(id, components)...` of a pack expansion, in the
order in which the list gives them (the language leaves the order open). -/
def addComponents {T : Type} [Inhabited T] (id : Nat) :
    List (Nat × T) → ecs T → (Nat → Nat) → Option (ecs T × (Nat → Nat))
  | [], db, statics => some (db, statics)
  | (U, component) :: rest, db, statics =>
    match db.addComponent statics id U component with
    | none => none
    | some (db, statics) => addComponents id rest db statics

/-- The calls `removeComponent<Components>(id)...` of a pack expansion. -/
def removeComponents {T : Type} (id : Nat) :
    List Nat → ecs T → (Nat → Nat) → Option (ecs T × (Nat → Nat))
  | [], db, statics => some (db, statics)
  | U :: rest, db, statics =>
    match db.removeComponent statics id U with
    | none => none
    | some (db, statics) => removeComponents id rest db statics

/-- The method `ecs::create`. -/
def create {T : Type} [Inhabited T] (self : ecs T) (statics : Nat → Nat)
    (components : List (Nat × T)) : Option (Nat × ecs T × (Nat → Nat)) :=
  match self.entities.generateOne with
  | (id, entities) =>
    (addComponents id components ⟨self.m_components, self.types, entities⟩ statics).map
      fun r => (id, r.1, r.2)

/-- The method `ecs::attachToEntity`. -/
def attachToEntity {T : Type} [Inhabited T] (self : ecs T) (statics : Nat → Nat) (id : Nat)
    (components : List (Nat × T)) : Option (ecs T × (Nat → Nat)) :=
  addComponents id components self statics

/-- The method `ecs::removeFromEntity`. -/
def removeFromEntity {T : Type} (self : ecs T) (statics : Nat → Nat) (id : Nat)
    (Components : List Nat) : Option (ecs T × (Nat → Nat)) :=
  removeComponents id Components self statics

/-- The table that `table<U>()` would return, when it already exists (a read
that creates nothing). -/
def find {T : Type} (self : ecs T) (statics : Nat → Nat) (U : Nat) :
    Option (component_table T) :=
  if statics U ≠ no_type then self.m_components.getD (statics U) none else none

/-- Entity `id` is present in the table of type `U`. -/
def has {T : Type} (self : ecs T) (statics : Nat → Nat) (U : Nat) (id : Nat) : Bool :=
  match self.find statics U with
  | some t => t.m_index.contains id
  | none => false

/-- The value read at `id` from the table of type `U`. -/
def value {T : Type} (self : ecs T) (statics : Nat → Nat) (U : Nat) (id : Nat) : Option T :=
  (self.find statics U).bind fun t => t.get id

/-- The type registry as one store sees it when it is the only store of the
process: every registered type has an index below `runningTypeIndex`, two
types never share an index, and no table sits at an index not yet issued. -/
def registry_ok {T : Type} (self : ecs T) (statics : Nat → Nat) : Prop :=
  (∀ U, statics U ≠ no_type → statics U < self.types.runningTypeIndex) ∧
  (∀ U V, statics U ≠ no_type → statics U = statics V → U = V) ∧
  (∀ i, self.types.runningTypeIndex ≤ i → self.m_components.getD i none = none)

/-- Every table of the store satisfies the table invariant. -/
def tables_ok {T : Type} (self : ecs T) : Prop :=
  ∀ i t, self.m_components.getD i none = some t → t.valid

end ecs

/-! ## The query iterator -/

/-- A `table_index*` held by an iterator: the index of the store's own table
in slot `typeIndex`, or an index object outside the store, given by its value
at the time of the pass. -/
inductive index_ptr where
  | own (typeIndex : Nat)
  | ext (index : table_index)

/-- The class `ecs::iterator<Ret(Cls::*)(Args...) const>`: the two pointer
vectors (the reference `m_ecs` is passed to the methods). -/
structure iterator where
  indices : List index_ptr
  not_in : List index_ptr

namespace iterator

/-- The constructor `iterator(ecs&)`. -/
def new : iterator := ⟨[], []⟩

/-- The private methods `unpack(ts...)` for index or table arguments: each
argument pushes the address of its index to `indices`, left to right. -/
def unpack (self : iterator) (ts : List index_ptr) : iterator :=
  ⟨self.indices ++ ts, self.not_in⟩

/-- The private methods `unpack_exclude(ts...)`: each argument pushes the
address of its index to `not_in`, left to right. -/
def unpack_exclude (self : iterator) (ts : List index_ptr) : iterator :=
  ⟨self.indices, self.not_in ++ ts⟩

/-- The method `include`, declared `iterator&`: its body is the statement
`unpack(ts...)` and no `return`, so control flows off the end of a function
that has to return a value and every call is undefined. -/
def include_ (self : iterator) (ts : List index_ptr) : Option iterator :=
  let _after := self.unpack ts
  none

/-- The method `exclude`, declared `iterator&`: its body is the statement
`unpack_exclude(ts...)` and no `return`, so every call is undefined. -/
def exclude (self : iterator) (ts : List index_ptr) : Option iterator :=
  let _after := self.unpack_exclude ts
  none

/-- Reading `*p` for a pointer of the iterator. -/
def deref {T : Type} (db : ecs T) : index_ptr → Option table_index
  | .own typeIndex => (db.m_components.getD typeIndex none).map fun t => t.index
  | .ext index => some index

/-- The method `unpack_types<Args...>()`: one `table<Type>()` per parameter
type, left to right, each pushing the address of that table's index. -/
def unpack_types {T : Type} :
    List Nat → ecs T → (Nat → Nat) → List index_ptr →
      Option (ecs T × (Nat → Nat) × List index_ptr)
  | [], db, statics, indices => some (db, statics, indices)
  | U :: Ts, db, statics, indices =>
    match db.table statics U with
    | none => none
    | some (typeIndex, db, statics) =>
      unpack_types Ts db statics (indices ++ [index_ptr.own typeIndex])

/-- The loop `for (i = 1; ...) res.merge<PassThrough>(*indices[i])` and the loop
`for (ind : not_in) res.merge<Invert>(*ind)`, for one view. -/
def merge_all {T : Type} (db : ecs T) (view : data_view) :
    List index_ptr → table_index → Option table_index
  | [], res => some res
  | p :: ps, res =>
    match deref db p with
    | none => none
    | some index => merge_all db view ps (res.merge view index)

/-- The precalculated constraint result `res` of `for_each`; `*indices[0]` is
undefined for an empty vector. -/
def resolve {T : Type} (db : ecs T) (indices not_in : List index_ptr) : Option table_index :=
  match indices with
  | [] => none
  | p :: ps =>
    match deref db p with
    | none => none
    | some first =>
      match merge_all db data_view.PassThrough ps first with
      | none => none
      | some res => merge_all db data_view.Invert not_in res

/-- The tuple `std::make_tuple(&m_ecs.table<Args>()...)`, as table slots. -/
def tables {T : Type} :
    List Nat → ecs T → (Nat → Nat) → Option (List Nat × ecs T × (Nat → Nat))
  | [], db, statics => some ([], db, statics)
  | U :: Ts, db, statics =>
    match db.table statics U with
    | none => none
    | some (typeIndex, db, statics) =>
      match tables Ts db statics with
      | none => none
      | some (rest, db, statics) => some (typeIndex :: rest, db, statics)

/-- The value `tables[typeIndex]->operator[](n)`: slot `n` of the table in slot
`typeIndex` of the store. -/
def slot_value {T : Type} (components : List (Option (component_table T)))
    (typeIndex n : Nat) : Option T :=
  (components.getD typeIndex none).bind fun t => t.get n

/-- The length of the sparse array of the table in slot `typeIndex`. -/
def slot_length {T : Type} (components : List (Option (component_table T)))
    (typeIndex : Nat) : Option Nat :=
  (components.getD typeIndex none).map fun t => t.m_data.length

/-- The presence index and the array length of the table in slot `typeIndex`. -/
def slot_shape {T : Type} (components : List (Option (component_table T)))
    (typeIndex : Nat) : Option (table_index × Nat) :=
  (components.getD typeIndex none).map fun t => (t.m_index, t.m_data.length)

/-- The references `std::get<Is>(tuple)->operator[](n)...` passed to `op`. -/
def read_args {T : Type} (db : ecs T) (n : Nat) : List Nat → Option (List T)
  | [] => some []
  | typeIndex :: rest =>
    match (db.m_components.getD typeIndex none).bind (fun t => t.get n) with
    | none => none
    | some v =>
      match read_args db n rest with
      | none => none
      | some vs => some (v :: vs)

/-- Storing what `op` left in its reference arguments. -/
def write_args {T : Type} (n : Nat) :
    List Nat → List T → List (Option (component_table T)) → List (Option (component_table T))
  | typeIndex :: rest, v :: vs, components =>
    write_args n rest vs
      (components.set typeIndex ((components.getD typeIndex none).map fun t => t.put n v))
  | _, _, components => components

/-- The method `make_indexed_call`: `op` receives the values at `n` of the
bound tables by reference; `op args` lists the values it leaves in them.
Returns the store after the call and the argument values of the call. -/
def make_indexed_call {T : Type} (op : List T → List T) (n : Nat) (tuple : List Nat)
    (db : ecs T) : Option (ecs T × List T) :=
  match read_args db n tuple with
  | none => none
  | some args =>
    some (⟨write_args n tuple (op args) db.m_components, db.types, db.entities⟩, args)

/-- The loop `while (n != npos) { make_indexed_call(op, n, ...); n = res.next(++n); }`;
`calls` collects the id and the arguments of every call made; `none` when
`fuel` rounds do not reach `npos`. -/
def for_each_loop {T : Type} (res : table_index) (op : List T → List T) (tuple : List Nat) :
    Nat → Nat → ecs T → List (Nat × List T) → Option (ecs T × List (Nat × List T))
  | 0, _, _, _ => none
  | fuel + 1, n, db, calls =>
    if n = npos then some (db, calls)
    else
      match make_indexed_call op n tuple db with
      | none => none
      | some (db, args) =>
        match res.next ((n + 1) % u64) with
        | none => none
        | some following => for_each_loop res op tuple fuel following db (calls ++ [(n, args)])

/-- The method `iterator::for_each` for an operation with parameter types
`Args` (type names, `const` and references stripped). The operation is given
by `op`, which maps the values it receives to the values it leaves in its
reference arguments. The loop gets one round per bit of `res` and one more.
Returns the store, the statics and the calls made. -/
def for_each {T : Type} (self : iterator) (db : ecs T) (statics : Nat → Nat) (Args : List Nat)
    (op : List T → List T) : Option (ecs T × (Nat → Nat) × List (Nat × List T)) :=
  match unpack_types Args db statics self.indices with
  | none => none
  | some (db, statics, indices) =>
    match resolve db indices self.not_in with
    | none => none
    | some res =>
      match tables Args db statics with
      | none => none
      | some (tuple, db, statics) =>
        match res.next 0 with
        | none => none
        | some n =>
          (for_each_loop res op tuple (64 * res.m_index_data.length + 1) n db []).map
            fun r => (r.1, statics, r.2)

end iterator

/-- The method `ecs::for_each`: a new iterator and its `for_each`. -/
def ecs.for_each {T : Type} (self : ecs T) (statics : Nat → Nat) (Args : List Nat)
    (op : List T → List T) : Option (ecs T × (Nat → Nat) × List (Nat × List T)) :=
  iterator.new.for_each self statics Args op

/-! ## Runs of calls on a store -/

/-- A call on the public interface of a store; `for_each` is made through an
iterator, which for `ecs::for_each` is a new one. -/
inductive call (T : Type) where
  | create (components : List (Nat × T))
  | attachToEntity (id : Nat) (components : List (Nat × T))
  | removeFromEntity (id : Nat) (Components : List Nat)
  | for_each (it : iterator) (Args : List Nat) (op : List T → List T)

/-- One call; the result lists the id when the call is a `create`. -/
def ecs.step {T : Type} [Inhabited T] (self : ecs T) (statics : Nat → Nat) :
    call T → Option (ecs T × (Nat → Nat) × List Nat)
  | .create components =>
    (self.create statics components).map fun r => (r.2.1, r.2.2, [r.1])
  | .attachToEntity id components =>
    (self.attachToEntity statics id components).map fun r => (r.1, r.2, [])
  | .removeFromEntity id Components =>
    (self.removeFromEntity statics id Components).map fun r => (r.1, r.2, [])
  | .for_each it Args op =>
    (it.for_each self statics Args op).map fun r => (r.1, r.2.1, [])

/-- A sequence of calls; the result lists the ids the `create` calls returned,
in call order. -/
def ecs.run {T : Type} [Inhabited T] :
    List (call T) → ecs T → (Nat → Nat) → Option (ecs T × (Nat → Nat) × List Nat)
  | [], db, statics => some (db, statics, [])
  | c :: rest, db, statics =>
    match db.step statics c with
    | none => none
    | some (db, statics, ids) =>
      (ecs.run rest db statics).map fun r => (r.1, r.2.1, ids ++ r.2.2)

/-- The number of component types a call names, one `table<U>()` lookup each. -/
def call.arity {T : Type} : call T → Nat
  | .create components => components.length
  | .attachToEntity _ components => components.length
  | .removeFromEntity _ Components => Components.length
  | .for_each _ Args _ => Args.length

/-- The number of `create` calls in a sequence. -/
def creates {T : Type} : List (call T) → Nat
  | [] => 0
  | .create _ :: rest => creates rest + 1
  | _ :: rest => creates rest

/-! ## The scenario of the specification -/

/-- The calls that build `e1{pos}, e2{pos, motion}, e3{}, e4{pos, motion},
e5{motion}`; `position` is type 0, `motion` is type 1, values are numbers. -/
def scenario_calls : List (call Nat) :=
  [.create [(0, 10)], .create [(0, 20), (1, 21)], .create [], .create [(0, 40), (1, 41)],
    .create [(1, 51)]]

/-- The store that `scenario_calls` builds from a new store. -/
def scenario_db : ecs Nat :=
  ⟨[some ⟨[0, 10, 20, 0, 40, 0, 0], ⟨[22]⟩⟩, some ⟨[0, 0, 21, 0, 41, 51, 0], ⟨[52]⟩⟩], ⟨2⟩, ⟨5⟩⟩

/-- The statics after `scenario_calls` in a process that started fresh. -/
def scenario_statics : Nat → Nat :=
  fun U => if U = 0 then 0 else if U = 1 then 1 else no_type

/-! ## Runs of calls on a component table -/

/-- A call that changes a component table. -/
inductive table_call (T : Type) where
  | insert (id : Nat) (t : T)
  | erase (id : Nat)

/-- One call on a component table. -/
def component_table.step {T : Type} [Inhabited T] (self : component_table T) :
    table_call T → Option (component_table T)
  | .insert id t => self.insert id t
  | .erase id => self.erase id

/-- A sequence of calls on a component table, in list order. -/
def component_table.run {T : Type} [Inhabited T] :
    List (table_call T) → component_table T → Option (component_table T)
  | [], t => some t
  | c :: rest, t =>
    match t.step c with
    | none => none
    | some t => component_table.run rest t

/-- The value of the last `insert(id, v)` of a sequence of calls, if any. -/
def last_insert {T : Type} : List (table_call T) → Nat → Option T
  | [], _ => none
  | c :: rest, id =>
    match last_insert rest id with
    | some v => some v
    | none =>
      match c with
      | .insert j v => if j = id then some v else none
      | .erase _ => none

/-- In a sequence of calls on a store that has issued `issued` ids, every
`attachToEntity` uses an id that a `create` returned before it. -/
def attaches_issued {T : Type} : List (call T) → Nat → Prop
  | [], _ => True
  | .create _ :: rest, issued => attaches_issued rest (issued + 1)
  | .attachToEntity id _ :: rest, issued =>
    1 ≤ id ∧ id ≤ issued ∧ attaches_issued rest issued
  | .removeFromEntity _ _ :: rest, issued => attaches_issued rest issued
  | .for_each _ _ _ :: rest, issued => attaches_issued rest issued

/-! # Properties -/

/-! ## Words and bits -/

theorem shr6 (id : Nat) : id >>> 6 = id / 64 := by
  rw [Nat.shiftRight_eq_div_pow]

theorem and63 (id : Nat) : id &&& 63 = id % 64 := by
  have h := Nat.and_pow_two_sub_one_eq_mod id 6
  simpa using h

theorem shl6 (block : Nat) : block <<< 6 = 64 * block := by
  rw [Nat.shiftLeft_eq]; omega

theorem one_shl (bit : Nat) : 1 <<< bit = 2 ^ bit := by
  rw [Nat.shiftLeft_eq]; omega

theorem two_pow_lt_u64 {bit : Nat} (h : bit < 64) : 2 ^ bit < u64 := by
  unfold u64
  exact Nat.pow_lt_pow_right (by decide) h

theorem testBit_not64 (x j : Nat) :
    (not64 x).testBit j = (decide (j < 64) && !(x % u64).testBit j) := by
  unfold not64
  have hx : x % u64 < 2 ^ 64 := Nat.mod_lt _ (by decide)
  have h := Nat.testBit_two_pow_sub_succ hx j
  have e : u64 - 1 - x % u64 = 2 ^ 64 - (x % u64 + 1) := by
    unfold u64; omega
  rw [e, h]

theorem testBit_mod_u64 (x j : Nat) : (x % u64).testBit j = (decide (j < 64) && x.testBit j) := by
  unfold u64
  rw [Nat.testBit_mod_two_pow]

theorem not64_lt (x : Nat) : not64 x < u64 := by
  unfold not64 u64; omega

theorem ctz_spec (fuel : Nat) : ∀ (x i : Nat), x ≠ 0 → x < 2 ^ fuel →
    i ≤ ctz fuel x i ∧ ctz fuel x i - i < fuel ∧ x.testBit (ctz fuel x i - i) = true ∧
      ∀ j, j < ctz fuel x i - i → x.testBit j = false := by
  induction fuel with
  | zero => intro x i h0 hlt; simp at hlt; exact absurd hlt h0
  | succ fuel ih =>
    intro x i h0 hlt
    unfold ctz
    by_cases hodd : x % 2 = 1
    · simp only [hodd, if_true]
      refine ⟨le_refl _, by omega, ?_, ?_⟩
      · simp [Nat.testBit_zero, hodd]
      · intro j hj; omega
    · simp only [hodd, if_false]
      have h2 : x / 2 ≠ 0 := by omega
      have h3 : x / 2 < 2 ^ fuel := by
        rw [Nat.pow_succ] at hlt; omega
      obtain ⟨a, b, c, d⟩ := ih (x / 2) (i + 1) h2 h3
      have e : ctz fuel (x / 2) (i + 1) - i = (ctz fuel (x / 2) (i + 1) - (i + 1)) + 1 := by omega
      refine ⟨by omega, by omega, ?_, ?_⟩
      · rw [e, Nat.testBit_succ]; exact c
      · intro j hj
        cases j with
        | zero => simp [Nat.testBit_zero, hodd]
        | succ j => rw [Nat.testBit_succ]; exact d j (by omega)

theorem findFirstSetBit_spec (x : Nat) (h0 : x ≠ 0) (hlt : x < u64) :
    ∃ k, findFirstSetBit x = some k ∧ k < 64 ∧ x.testBit k = true ∧
      ∀ j, j < k → x.testBit j = false := by
  obtain ⟨_, b, c, d⟩ := ctz_spec 64 x 0 h0 hlt
  refine ⟨ctz 64 x 0, by simp [findFirstSetBit, h0], by simpa using b, by simpa using c, ?_⟩
  intro j hj; exact d j (by simpa using hj)

/-! ## Vectors -/

theorem getD_set_gen {α : Type} (l : List α) (i j : Nat) (a d : α) :
    (l.set i a).getD j d = if i = j ∧ i < l.length then a else l.getD j d := by
  rw [List.getD_eq_getElem?_getD, List.getD_eq_getElem?_getD, List.getElem?_set]
  by_cases h : i = j
  · subst h
    by_cases h2 : i < l.length
    · simp [h2]
    · have : l[i]? = none := by simp; omega
      simp [h2, this]
  · simp [h]

theorem getD_resize_gen {α : Type} (l : List α) (n j : Nat) (d : α) :
    (resize l n d).getD j d = if j < n then l.getD j d else d := by
  unfold resize
  rw [List.getD_eq_getElem?_getD, List.getD_eq_getElem?_getD, List.getElem?_append]
  simp only [List.length_take, List.getElem?_take]
  by_cases h : j < n
  · by_cases h2 : j < l.length
    · simp [h, h2]
    · have : ¬ j < min n l.length := by omega
      have h3 : l[j]? = none := by simp; omega
      simp only [h, this, List.getElem?_replicate, h3, if_true, if_false]
      split <;> rfl
  · have : ¬ j < min n l.length := by omega
    simp only [h, this, List.getElem?_replicate, if_false]
    split <;> rfl

theorem getD_set (l : List Nat) (i j a : Nat) :
    (l.set i a).getD j 0 = if i = j ∧ i < l.length then a else l.getD j 0 :=
  getD_set_gen l i j a 0

theorem getD_resize (l : List Nat) (n j : Nat) :
    (resize l n 0).getD j 0 = if j < n then l.getD j 0 else 0 :=
  getD_resize_gen l n j 0

theorem getD_none_of_length_le {α : Type} (l : List (Option α)) (j : Nat)
    (h : l.length ≤ j) : l.getD j none = none := by
  rw [List.getD_eq_getElem?_getD]
  have : l[j]? = none := by simp; omega
  simp [this]

theorem length_resize {α : Type} (l : List α) (n : Nat) (fill : α) :
    (resize l n fill).length = n := by
  unfold resize
  simp only [List.length_append, List.length_take, List.length_replicate]
  omega

theorem getD_of_length_le (l : List Nat) (j : Nat) (h : l.length ≤ j) : l.getD j 0 = 0 := by
  rw [List.getD_eq_getElem?_getD]
  have : l[j]? = none := by simp; omega
  simp [this]

theorem getD_lt_of_forall (l : List Nat) (b : Nat) (j : Nat) (hb : 0 < b)
    (h : ∀ w ∈ l, w < b) : l.getD j 0 < b := by
  by_cases hj : j < l.length
  · rw [List.getD_eq_getElem?_getD, List.getElem?_eq_getElem hj]
    exact h _ (List.getElem_mem hj)
  · rw [getD_of_length_le l j (by omega)]; exact hb

theorem forall_lt_of_getD (l : List Nat) (b : Nat) (h : ∀ j, l.getD j 0 < b) :
    ∀ w ∈ l, w < b := by
  intro w hw
  obtain ⟨j, hj, rfl⟩ := List.getElem_of_mem hw
  have := h j
  rwa [List.getD_eq_getElem?_getD, List.getElem?_eq_getElem hj] at this

/-! ## The presence index: `set` -/

namespace table_index

theorem contains_mk (data : List Nat) (id : Nat) :
    (table_index.mk data).contains id = (data.getD (id / 64) 0).testBit (id % 64) := rfl

theorem contains_lt (self : table_index) (id : Nat) (h : self.contains id = true) :
    id < 64 * self.m_index_data.length := by
  by_contra hc
  have : self.m_index_data.length ≤ id / 64 := by omega
  rw [contains, getD_of_length_le _ _ this] at h
  simp at h

theorem valid_of_short (self : table_index) (hw : ∀ w ∈ self.m_index_data, w < u64)
    (hl : self.m_index_data.length < 2 ^ 58) : self.valid := by
  refine ⟨hw, fun id h => ?_⟩
  have := contains_lt self id h
  unfold npos u64
  omega

theorem valid_empty : empty.valid := by
  refine ⟨by simp [empty], fun id h => ?_⟩
  simp [contains, empty] at h

/-- What `set` does on a 64-bit id: it is defined, and it yields the word
vector `set_words` described here. -/
theorem set_eq (self : table_index) (id : Nat) (hid : id < u64) :
    ∃ data, self.set id = some ⟨data⟩ ∧
      (∀ j, data.getD j 0 =
        if j = id / 64 then self.m_index_data.getD j 0 ||| 2 ^ (id % 64)
        else self.m_index_data.getD j 0) ∧
      (id / 64 < self.m_index_data.length → data.length = self.m_index_data.length) ∧
      self.m_index_data.length ≤ data.length := by
  have hb : id / 64 < 2 ^ 58 := by unfold u64 at hid; omega
  have hmod : (3 * (id / 64)) % u64 = 3 * (id / 64) := Nat.mod_eq_of_lt (by unfold u64; omega)
  have hbit : (2 ^ (id % 64)) % u64 = 2 ^ (id % 64) :=
    Nat.mod_eq_of_lt (two_pow_lt_u64 (Nat.mod_lt _ (by decide)))
  unfold set
  simp only [shr6, and63, one_shl, hmod, hbit, Nat.shiftRight_eq_div_pow, pow_one]
  by_cases hlen : id / 64 ≥ self.m_index_data.length
  · simp only [hlen, if_true, length_resize]
    have hlt : id / 64 < 3 * (id / 64) / 2 + 1 := by omega
    simp only [hlt, if_true]
    refine ⟨_, rfl, ?_, ?_, ?_⟩
    · intro j
      rw [getD_set, length_resize, getD_resize, getD_resize]
      by_cases hj : j = id / 64
      · subst hj
        simp [hlt]
      · have : ¬ (id / 64 = j ∧ id / 64 < 3 * (id / 64) / 2 + 1) := by
          intro h; exact hj h.1.symm
        simp only [this, if_false, hj]
        by_cases hj2 : j < 3 * (id / 64) / 2 + 1
        · simp [hj2]
        · simp only [hj2, if_false]
          rw [getD_of_length_le]; omega
    · intro h; omega
    · rw [List.length_set, length_resize]; omega
  · simp only [hlen, if_false]
    have hlt : id / 64 < self.m_index_data.length := by omega
    simp only [hlt, if_true]
    refine ⟨_, rfl, ?_, ?_, ?_⟩
    · intro j
      rw [getD_set]
      by_cases hj : j = id / 64
      · subst hj
        simp [hlt]
      · have : ¬ (id / 64 = j ∧ id / 64 < self.m_index_data.length) := by
          intro h; exact hj h.1.symm
        simp only [this, if_false, hj]
    · intro _; rw [List.length_set]
    · rw [List.length_set]

theorem div_mod_eq_iff (j id : Nat) : (j / 64 = id / 64 ∧ j % 64 = id % 64) ↔ j = id := by
  constructor
  · intro h; omega
  · intro h; subst h; exact ⟨rfl, rfl⟩

/-- After `set(id)` the members are the old members and `id`; validity is kept
for an id other than `npos`. -/
theorem set_spec (self : table_index) (id : Nat) (hid : id < u64) :
    ∃ t, self.set id = some t ∧
      (∀ j, t.contains j = (self.contains j || decide (j = id))) ∧
      (self.valid → id < npos → t.valid) := by
  obtain ⟨data, hset, hget, -, -⟩ := set_eq self id hid
  have hmem : ∀ j, (table_index.mk data).contains j = (self.contains j || decide (j = id)) := by
    intro j
    rw [contains_mk, hget, contains]
    by_cases hj : j / 64 = id / 64
    · simp only [hj, if_true, Nat.testBit_or, Nat.testBit_two_pow]
      by_cases hb : id % 64 = j % 64
      · have : j = id := (div_mod_eq_iff j id).1 ⟨hj, hb.symm⟩
        simp [hb, this]
      · have : j ≠ id := fun h => hb (by rw [h])
        simp [hb, this]
    · have : j ≠ id := fun h => hj (by rw [h])
      simp [hj, this]
  refine ⟨⟨data⟩, hset, hmem, ?_⟩
  intro hv hne
  refine ⟨?_, ?_⟩
  · apply forall_lt_of_getD
    intro j
    rw [hget]
    have hw := getD_lt_of_forall self.m_index_data u64 j (by decide) hv.1
    split
    · exact Nat.or_lt_two_pow hw (two_pow_lt_u64 (Nat.mod_lt _ (by decide)))
    · exact hw
  · intro j hj
    rw [hmem] at hj
    simp only [Bool.or_eq_true, decide_eq_true_eq] at hj
    rcases hj with hj | hj
    · exact hv.2 j hj
    · rw [hj]; exact hne

/-! ## The presence index: `next` -/

/-- A non-zero masked word of block `b` gives the least member at or after
bit `lo` of that block. -/
theorem next_hit (self : table_index) (hv : self.valid) (b lo x : Nat)
    (hx0 : x ≠ 0) (hxlt : x < u64)
    (hbits : ∀ j, x.testBit j = ((self.m_index_data.getD b 0).testBit j && decide (lo ≤ j))) :
    ∃ r, (findFirstSetBit x).map (fun f => ((b <<< 6) % u64 + f) % u64) = some r ∧
      r ≠ npos ∧ self.contains r = true ∧ 64 * b + lo ≤ r ∧
      ∀ id, self.contains id = true → 64 * b + lo ≤ id → r ≤ id := by
  obtain ⟨k, hk, hk64, hkbit, hkmin⟩ := findFirstSetBit_spec x hx0 hxlt
  rw [hbits] at hkbit
  simp only [Bool.and_eq_true, decide_eq_true_eq] at hkbit
  have hc : self.contains (64 * b + k) = true := by
    unfold contains
    have e1 : (64 * b + k) / 64 = b := by omega
    have e2 : (64 * b + k) % 64 = k := by omega
    rw [e1, e2]; exact hkbit.1
  have hlt := hv.2 _ hc
  have hr : ((b <<< 6) % u64 + k) % u64 = 64 * b + k := by
    rw [shl6]
    have h1 : 64 * b + k < u64 := by unfold npos at hlt; omega
    rw [Nat.mod_eq_of_lt (lt_of_le_of_lt (Nat.le_add_right _ _) h1), Nat.mod_eq_of_lt h1]
  refine ⟨64 * b + k, by rw [hk, Option.map_some', hr], by omega, hc, by omega, ?_⟩
  intro id hid hge
  by_contra hcon
  have e1 : id / 64 = b := by omega
  have hlow : id % 64 < k := by omega
  have := hkmin _ hlow
  rw [hbits] at this
  unfold contains at hid
  rw [e1] at hid
  rw [hid] at this
  simp at this
  omega

/-- A zero masked word of block `b` means no member at or after bit `lo` of that block. -/
theorem next_miss (self : table_index) (b lo x : Nat)
    (hx0 : x = 0)
    (hbits : ∀ j, x.testBit j = ((self.m_index_data.getD b 0).testBit j && decide (lo ≤ j)))
    (id : Nat) (hid : self.contains id = true) (hge : 64 * b + lo ≤ id) : 64 * (b + 1) ≤ id := by
  by_contra hcon
  have e1 : id / 64 = b := by omega
  have := hbits (id % 64)
  unfold contains at hid
  rw [e1] at hid
  rw [hx0, hid] at this
  simp at this
  omega

theorem next_scan_spec (self : table_index) (hv : self.valid) :
    ∀ (n b : Nat), self.m_index_data.length - b = n →
      ∃ r, next_scan (self.m_index_data.drop b) b = some r ∧
        ((r = npos ∧ ∀ id, 64 * b ≤ id → self.contains id = false) ∨
         (r ≠ npos ∧ self.contains r = true ∧ 64 * b ≤ r ∧
            ∀ id, self.contains id = true → 64 * b ≤ id → r ≤ id)) := by
  intro n
  induction n with
  | zero =>
    intro b hb
    have hle : self.m_index_data.length ≤ b := by omega
    rw [List.drop_eq_nil_of_le hle]
    refine ⟨npos, rfl, Or.inl ⟨rfl, ?_⟩⟩
    intro id hid
    by_contra hc
    have := contains_lt self id (by simpa using hc)
    omega
  | succ n ih =>
    intro b hb
    have hlt : b < self.m_index_data.length := by omega
    rw [List.drop_eq_getElem_cons hlt]
    have hw : self.m_index_data[b] = self.m_index_data.getD b 0 := by
      rw [List.getD_eq_getElem?_getD, List.getElem?_eq_getElem hlt]; rfl
    rw [hw]
    unfold next_scan
    have hbits : ∀ j, (self.m_index_data.getD b 0).testBit j =
        ((self.m_index_data.getD b 0).testBit j && decide (0 ≤ j)) := by
      intro j; simp
    by_cases h0 : self.m_index_data.getD b 0 ≠ 0
    · simp only [h0, if_true, ne_eq, not_false_eq_true]
      obtain ⟨r, h1, h2, h3, h4, h5⟩ := next_hit self hv b 0 _ h0
        (getD_lt_of_forall _ _ _ (by decide) hv.1) hbits
      exact ⟨r, h1, Or.inr ⟨h2, h3, by omega, fun id a c => h5 id a (by omega)⟩⟩
    · simp only [h0, if_false]
      have h0 : self.m_index_data.getD b 0 = 0 := by simpa using h0
      have hm := next_miss self b 0 _ h0 hbits
      obtain ⟨r, h1, h2⟩ := ih (b + 1) (by omega)
      refine ⟨r, h1, ?_⟩
      rcases h2 with ⟨ha, hb2⟩ | ⟨ha, hb2, hc, hd⟩
      · left
        refine ⟨ha, fun id hge => ?_⟩
        by_contra hcon
        have hcon : self.contains id = true := by simpa using hcon
        have := hm id hcon (by omega)
        rw [hb2 id this] at hcon
        exact absurd hcon (by simp)
      · right
        refine ⟨ha, hb2, by omega, fun id hid hge => hd id hid (hm id hid (by omega))⟩

/-- The method `next` is defined on a valid index and returns the least member
at or after `firstAllowed`, or `npos` when there is none. -/
theorem next_spec (self : table_index) (hv : self.valid) (firstAllowed : Nat) :
    ∃ r, self.next firstAllowed = some r ∧
      ((r = npos ∧ ∀ id, firstAllowed ≤ id → self.contains id = false) ∨
       (r ≠ npos ∧ self.contains r = true ∧ firstAllowed ≤ r ∧
          ∀ id, self.contains id = true → firstAllowed ≤ id → r ≤ id)) := by
  unfold next
  simp only [shr6, and63, one_shl]
  by_cases hlen : firstAllowed / 64 ≥ self.m_index_data.length
  · simp only [hlen, if_true]
    refine ⟨npos, rfl, Or.inl ⟨rfl, fun id hge => ?_⟩⟩
    by_contra hc
    have := contains_lt self id (by simpa using hc)
    omega
  · simp only [hlen, if_false]
    have hbitlt : firstAllowed % 64 < 64 := Nat.mod_lt _ (by decide)
    have hpow : 2 ^ (firstAllowed % 64) % u64 = 2 ^ (firstAllowed % 64) :=
      Nat.mod_eq_of_lt (two_pow_lt_u64 hbitlt)
    rw [hpow]
    have hwlt := getD_lt_of_forall self.m_index_data u64 (firstAllowed / 64) (by decide) hv.1
    have hbits : ∀ j, (self.m_index_data.getD (firstAllowed / 64) 0 &&&
          not64 (2 ^ (firstAllowed % 64) - 1)).testBit j =
        ((self.m_index_data.getD (firstAllowed / 64) 0).testBit j &&
          decide (firstAllowed % 64 ≤ j)) := by
      intro j
      rw [Nat.testBit_and, testBit_not64, testBit_mod_u64, Nat.testBit_two_pow_sub_one]
      by_cases hj : j < 64
      · by_cases hj2 : j < firstAllowed % 64
        · have : ¬ firstAllowed % 64 ≤ j := by omega
          simp [hj, hj2, this]
        · have : firstAllowed % 64 ≤ j := by omega
          simp [hj, hj2, this]
      · have : (self.m_index_data.getD (firstAllowed / 64) 0).testBit j = false := by
          apply Nat.testBit_lt_two_pow
          calc self.m_index_data.getD (firstAllowed / 64) 0 < 2 ^ 64 := hwlt
            _ ≤ 2 ^ j := Nat.pow_le_pow_right (by decide) (by omega)
        rw [this]; simp
    have hfa : 64 * (firstAllowed / 64) + firstAllowed % 64 = firstAllowed := by omega
    by_cases h0 : self.m_index_data.getD (firstAllowed / 64) 0 &&&
        not64 (2 ^ (firstAllowed % 64) - 1) ≠ 0
    · simp only [h0, if_true, ne_eq, not_false_eq_true]
      obtain ⟨r, h1, h2, h3, h4, h5⟩ := next_hit self hv (firstAllowed / 64)
        (firstAllowed % 64) _ h0 (lt_of_le_of_lt Nat.and_le_left hwlt) hbits
      exact ⟨r, h1, Or.inr ⟨h2, h3, by omega, fun id a c => h5 id a (by omega)⟩⟩
    · simp only [h0, if_false]
      have h0 : self.m_index_data.getD (firstAllowed / 64) 0 &&&
        not64 (2 ^ (firstAllowed % 64) - 1) = 0 := by simpa using h0
      have hm := next_miss self (firstAllowed / 64) (firstAllowed % 64) _ h0 hbits
      obtain ⟨r, h1, h2⟩ := next_scan_spec self hv _ (firstAllowed / 64 + 1) rfl
      refine ⟨r, h1, ?_⟩
      rcases h2 with ⟨ha, hb2⟩ | ⟨ha, hb2, hc, hd⟩
      · left
        refine ⟨ha, fun id hge => ?_⟩
        by_contra hcon
        have hcon : self.contains id = true := by simpa using hcon
        have := hm id hcon (by omega)
        rw [hb2 id this] at hcon
        exact absurd hcon (by simp)
      · right
        refine ⟨ha, hb2, by omega, fun id hid hge => hd id hid (hm id hid (by omega))⟩

/-! ## The presence index: enumeration by `next` -/

theorem enumerate_spec (self : table_index) (hv : self.valid) :
    ∀ (fuel cursor : Nat), 0 < fuel → 64 * self.m_index_data.length < fuel + cursor →
      ∃ l, self.enumerate fuel cursor = some l ∧ l.Sorted (· < ·) ∧
        ∀ id, id ∈ l ↔ (self.contains id = true ∧ cursor ≤ id) := by
  intro fuel
  induction fuel with
  | zero =>
    intro cursor h0 hf
    omega
  | succ fuel ih =>
    intro cursor _ hf
    obtain ⟨r, hr, h⟩ := next_spec self hv cursor
    unfold enumerate
    rw [hr]
    rcases h with ⟨hn, hnone⟩ | ⟨hn, hc, hge, hmin⟩
    · simp only [hn, if_true]
      refine ⟨[], rfl, List.sorted_nil, fun id => ?_⟩
      constructor
      · intro h; simp at h
      · rintro ⟨h1, h2⟩; rw [hnone id h2] at h1; exact absurd h1 (by simp)
    · simp only [hn, if_false]
      have hlt := contains_lt self r hc
      have hnp := hv.2 r hc
      have hmod : (r + 1) % u64 = r + 1 := Nat.mod_eq_of_lt (by unfold npos at hnp; omega)
      rw [hmod]
      obtain ⟨l, hl, hs, hm⟩ := ih (r + 1) (by omega) (by omega)
      refine ⟨r :: l, by rw [hl]; rfl, ?_, fun id => ?_⟩
      · rw [List.sorted_cons]
        exact ⟨fun b hb => by have := ((hm b).1 hb).2; omega, hs⟩
      · rw [List.mem_cons, hm]
        constructor
        · rintro (h | ⟨h1, h2⟩)
          · subst h; exact ⟨hc, hge⟩
          · exact ⟨h1, by omega⟩
        · rintro ⟨h1, h2⟩
          have := hmin id h1 h2
          by_cases he : id = r
          · exact Or.inl he
          · exact Or.inr ⟨h1, by omega⟩

theorem set_all_spec (S : List Nat) (hS : ∀ id ∈ S, id < npos) :
    ∀ (self : table_index), self.valid →
      ∃ t, self.set_all S = some t ∧ t.valid ∧
        ∀ j, t.contains j = true ↔ (self.contains j = true ∨ j ∈ S) := by
  induction S with
  | nil =>
    intro self hv
    exact ⟨self, rfl, hv, fun j => by simp⟩
  | cons id S ih =>
    intro self hv
    have hid : id < npos := hS id (List.mem_cons_self _ _)
    obtain ⟨t, ht, hmem, hval⟩ := set_spec self id (by unfold npos at hid; omega)
    obtain ⟨t2, ht2, hv2, hm2⟩ := ih (fun x hx => hS x (List.mem_cons_of_mem _ hx)) t
      (hval hv hid)
    refine ⟨t2, ?_, hv2, fun j => ?_⟩
    · unfold set_all at ht2 ⊢
      rw [List.foldlM_cons, ht]
      exact ht2
    · rw [hm2, hmem]
      simp only [Bool.or_eq_true, decide_eq_true_eq, List.mem_cons]
      tauto

end table_index

/-! ## The presence index: `merge` -/

namespace table_index

theorem for_words_spec (f : Nat → Nat → Nat) :
    ∀ (count lo : Nat) (data : List Nat),
      (for_words lo count f data).length = data.length ∧
      ∀ j, (for_words lo count f data).getD j 0 =
        if lo ≤ j ∧ j < lo + count ∧ j < data.length then f j (data.getD j 0)
        else data.getD j 0 := by
  intro count
  induction count with
  | zero =>
    intro lo data
    refine ⟨rfl, fun j => ?_⟩
    have : ¬ (lo ≤ j ∧ j < lo + 0 ∧ j < data.length) := by omega
    simp only [this, if_false]
    rfl
  | succ count ih =>
    intro lo data
    have e : for_words lo (count + 1) f data =
        for_words (lo + 1) count f (data.set lo (f lo (data.getD lo 0))) := by
      unfold for_words
      rw [List.range'_succ, List.foldl_cons]
    obtain ⟨hl, hg⟩ := ih (lo + 1) (data.set lo (f lo (data.getD lo 0)))
    rw [e]
    refine ⟨by rw [hl, List.length_set], fun j => ?_⟩
    rw [hg, List.length_set, getD_set]
    by_cases h1 : lo = j
    · subst h1
      have : ¬ (lo + 1 ≤ lo ∧ lo < lo + 1 + count ∧ lo < data.length) := by omega
      rw [if_neg this]
      by_cases h2 : lo < data.length
      · have h3 : lo ≤ lo ∧ lo < lo + (count + 1) ∧ lo < data.length := by omega
        rw [if_pos ⟨rfl, h2⟩, if_pos h3]
      · have h3 : ¬ (lo ≤ lo ∧ lo < lo + (count + 1) ∧ lo < data.length) := by omega
        rw [if_neg (fun h => h2 h.2), if_neg h3]
    · have h0 : ¬ (lo = j ∧ lo < data.length) := fun h => h1 h.1
      by_cases h2 : lo + 1 ≤ j ∧ j < lo + 1 + count ∧ j < data.length
      · have h3 : lo ≤ j ∧ j < lo + (count + 1) ∧ j < data.length := by omega
        rw [if_pos h2, if_neg h0, if_pos h3]
      · have h3 : ¬ (lo ≤ j ∧ j < lo + (count + 1) ∧ j < data.length) := by omega
        rw [if_neg h2, if_neg h0, if_neg h3]

/-- The words `merge<view>` leaves in `self`: inside the length of `other` the
conjunction with the viewed word, beyond it zero, for both views. -/
theorem merge_spec (view : data_view) (self other : table_index) :
    (merge view self other).m_index_data.length = self.m_index_data.length ∧
    ∀ j, (merge view self other).m_index_data.getD j 0 =
      if j < other.m_index_data.length then
        self.m_index_data.getD j 0 &&& view.read (other.m_index_data.getD j 0)
      else 0 := by
  unfold merge
  by_cases hsz : self.m_index_data.length > other.m_index_data.length
  · simp only [hsz, if_true]
    obtain ⟨l1, g1⟩ := for_words_spec
      (fun i w => w &&& view.read (other.m_index_data.getD i 0)) other.m_index_data.length 0
      self.m_index_data
    obtain ⟨l2, g2⟩ := for_words_spec (fun _ _ => 0)
      (self.m_index_data.length - other.m_index_data.length) other.m_index_data.length
      (for_words 0 other.m_index_data.length
        (fun i w => w &&& view.read (other.m_index_data.getD i 0)) self.m_index_data)
    refine ⟨by rw [l2, l1], fun j => ?_⟩
    rw [g2, l1, g1]
    by_cases hj : j < other.m_index_data.length
    · have a1 : ¬ (other.m_index_data.length ≤ j ∧
          j < other.m_index_data.length +
            (self.m_index_data.length - other.m_index_data.length) ∧
          j < self.m_index_data.length) := by omega
      have a2 : 0 ≤ j ∧ j < 0 + other.m_index_data.length ∧ j < self.m_index_data.length := by
        omega
      rw [if_neg a1, if_pos a2, if_pos hj]
    · by_cases hj2 : j < self.m_index_data.length
      · have a1 : other.m_index_data.length ≤ j ∧
          j < other.m_index_data.length +
            (self.m_index_data.length - other.m_index_data.length) ∧
          j < self.m_index_data.length := by omega
        rw [if_pos a1, if_neg hj]
      · have a1 : ¬ (other.m_index_data.length ≤ j ∧
          j < other.m_index_data.length +
            (self.m_index_data.length - other.m_index_data.length) ∧
          j < self.m_index_data.length) := by omega
        have a2 : ¬ (0 ≤ j ∧ j < 0 + other.m_index_data.length ∧
          j < self.m_index_data.length) := by omega
        rw [if_neg a1, if_neg a2, if_neg hj]
        exact getD_of_length_le _ _ (by omega)
  · simp only [hsz, if_false]
    obtain ⟨l1, g1⟩ := for_words_spec
      (fun i w => w &&& view.read (other.m_index_data.getD i 0)) self.m_index_data.length 0
      self.m_index_data
    refine ⟨l1, fun j => ?_⟩
    rw [g1]
    by_cases hj2 : j < self.m_index_data.length
    · have a1 : 0 ≤ j ∧ j < 0 + self.m_index_data.length ∧ j < self.m_index_data.length := by
        omega
      have a2 : j < other.m_index_data.length := by omega
      rw [if_pos a1, if_pos a2]
    · have a1 : ¬ (0 ≤ j ∧ j < 0 + self.m_index_data.length ∧
          j < self.m_index_data.length) := by omega
      rw [if_neg a1, getD_of_length_le _ _ (by omega)]
      simp

theorem contains_merge_PassThrough (self other : table_index) (id : Nat) :
    (merge .PassThrough self other).contains id = (self.contains id && other.contains id) := by
  unfold contains
  rw [(merge_spec .PassThrough self other).2]
  by_cases hj : id / 64 < other.m_index_data.length
  · simp only [hj, if_true, data_view.read, Nat.testBit_and]
  · simp only [hj, if_false]
    rw [getD_of_length_le other.m_index_data _ (by omega)]
    simp

/-- What `merge<Invert>` keeps: the members of `self` that are not in `other`
and whose word lies inside the length of `other`. -/
theorem contains_merge_Invert (self other : table_index) (id : Nat) :
    (merge .Invert self other).contains id =
      (self.contains id && !other.contains id &&
        decide (id / 64 < other.m_index_data.length)) := by
  unfold contains
  rw [(merge_spec .Invert self other).2]
  have hb : id % 64 < 64 := Nat.mod_lt _ (by decide)
  by_cases hj : id / 64 < other.m_index_data.length
  · simp only [hj, if_true, data_view.read, Nat.testBit_and, testBit_not64, testBit_mod_u64,
      hb, decide_True, Bool.true_and, Bool.and_true]
  · simp [hj]

theorem merge_valid (view : data_view) (self other : table_index) (hv : self.valid) :
    (merge view self other).valid := by
  have hsub : ∀ id, (merge view self other).contains id = true → self.contains id = true := by
    intro id h
    cases view with
    | PassThrough =>
      rw [contains_merge_PassThrough] at h
      simp only [Bool.and_eq_true] at h
      exact h.1
    | Invert =>
      rw [contains_merge_Invert] at h
      simp only [Bool.and_eq_true] at h
      exact h.1.1
  refine ⟨?_, fun id h => hv.2 id (hsub id h)⟩
  apply forall_lt_of_getD
  intro j
  rw [(merge_spec view self other).2]
  split
  · exact lt_of_le_of_lt Nat.and_le_left (getD_lt_of_forall _ _ _ (by decide) hv.1)
  · decide

end table_index

namespace table_index

/-! ## The presence index: `reset` -/

theorem reset_spec (self : table_index) (id : Nat) (h : id / 64 < self.m_index_data.length) :
    ∃ t, self.reset id = some t ∧
      t.m_index_data.length = self.m_index_data.length ∧
      (∀ j, t.contains j = (self.contains j && !decide (j = id))) ∧
      (self.valid → t.valid) := by
  have hbit : (2 ^ (id % 64)) % u64 = 2 ^ (id % 64) :=
    Nat.mod_eq_of_lt (two_pow_lt_u64 (Nat.mod_lt _ (by decide)))
  have hmem : ∀ j, (table_index.mk (self.m_index_data.set (id / 64)
      (self.m_index_data.getD (id / 64) 0 &&& not64 (2 ^ (id % 64))))).contains j =
      (self.contains j && !decide (j = id)) := by
    intro j
    rw [contains_mk, getD_set, contains]
    have hb : j % 64 < 64 := Nat.mod_lt _ (by decide)
    by_cases hj : id / 64 = j / 64
    · rw [if_pos ⟨hj, h⟩, Nat.testBit_and, testBit_not64, hbit, Nat.testBit_two_pow, hj]
      by_cases hb2 : id % 64 = j % 64
      · have : j = id := (div_mod_eq_iff j id).1 ⟨hj.symm, hb2.symm⟩
        simp [hb2, this]
      · have : j ≠ id := fun e => hb2 (by rw [e])
        simp [hb2, this, hb]
    · have : j ≠ id := fun e => hj (by rw [e])
      rw [if_neg (fun e => hj e.1)]
      simp [this]
  refine ⟨_, ?_, ?_, hmem, ?_⟩
  · unfold reset
    simp only [shr6, and63, one_shl, hbit, h, if_true]
  · simp
  · intro hv
    refine ⟨?_, fun j hj => ?_⟩
    · apply forall_lt_of_getD
      intro j
      rw [getD_set]
      have hw := getD_lt_of_forall self.m_index_data u64 j (by decide) hv.1
      split
      · exact lt_of_le_of_lt Nat.and_le_right (not64_lt _)
      · exact hw
    · rw [hmem] at hj
      simp only [Bool.and_eq_true] at hj
      exact hv.2 j hj.1

end table_index

/-! ## The component table -/

namespace component_table

theorem getElem?_resize {T : Type} (l : List T) (n j : Nat) (fill : T) (hn : l.length ≤ n)
    (hj : j < l.length) : (resize l n fill)[j]? = l[j]? := by
  unfold resize
  rw [List.take_of_length_le hn, List.getElem?_append_left hj]

/-- What `insert` does when the slot exists or the new length does not wrap:
it is defined, `id` becomes present with value `t`, and nothing else changes. -/
theorem insert_core {T : Type} [Inhabited T] (self : component_table T) (id : Nat) (t : T)
    (hid64 : id < u64) (hok : id < self.m_data.length ∨ 3 * id < u64) :
    ∃ r, self.insert id t = some r ∧
      r.get id = some t ∧
      (∀ j, r.m_index.contains j = (self.m_index.contains j || decide (j = id))) ∧
      (∀ j, j ≠ id → j < self.m_data.length → r.get j = self.get j) ∧
      self.m_data.length ≤ r.m_data.length ∧ id < r.m_data.length ∧
      (self.valid → r.valid) := by
  obtain ⟨ix, hix, hmem, hval⟩ := table_index.set_spec self.m_index id hid64
  unfold insert
  by_cases hlen : id ≥ self.m_data.length
  · have hid : 3 * id < u64 := by
      rcases hok with h | h
      · omega
      · exact h
    have hmod : (3 * id) % u64 = 3 * id := Nat.mod_eq_of_lt hid
    have hnp : id < npos := by unfold npos u64; unfold u64 at hid; omega
    have hlt : id < 3 * id / 2 + 1 := by omega
    simp only [hmod, Nat.shiftRight_eq_div_pow, pow_one, hlen, if_true, length_resize, hlt,
      hix, Option.map_some']
    refine ⟨_, rfl, ?_, hmem, ?_, ?_, ?_, ?_⟩
    · simp only [get]
      rw [List.getElem?_set_self (by rw [length_resize]; exact hlt)]
    · intro j hj hjl
      simp only [get]
      rw [List.getElem?_set_ne (fun e => hj e.symm), getElem?_resize _ _ _ _ (by omega) hjl]
    · simp only [List.length_set, length_resize]; omega
    · simp only [List.length_set, length_resize]; omega
    · intro hv
      refine ⟨hval hv.1 hnp, fun j hj => ?_, ?_⟩
      · simp only [List.length_set, length_resize]
        rw [hmem] at hj
        simp only [Bool.or_eq_true, decide_eq_true_eq] at hj
        rcases hj with hj | hj
        · have := hv.2.1 j hj; omega
        · omega
      · simp only [List.length_set, length_resize]
        unfold npos u64; unfold u64 at hid; omega
  · have hlt : id < self.m_data.length := by omega
    simp only [hlen, if_false, hlt, if_true, hix, Option.map_some']
    refine ⟨_, rfl, ?_, hmem, ?_, ?_, ?_, ?_⟩
    · simp only [get]
      rw [List.getElem?_set_self hlt]
    · intro j hj _
      simp only [get]
      rw [List.getElem?_set_ne (fun e => hj e.symm)]
    · simp only [List.length_set]; exact le_refl _
    · simp only [List.length_set]; exact hlt
    · intro hv
      have hnp : id < npos := lt_of_lt_of_le hlt hv.2.2
      refine ⟨hval hv.1 hnp, fun j hj => ?_, ?_⟩
      · simp only [List.length_set]
        rw [hmem] at hj
        simp only [Bool.or_eq_true, decide_eq_true_eq] at hj
        rcases hj with hj | hj
        · exact hv.2.1 j hj
        · omega
      · simp only [List.length_set]; exact hv.2.2

/-- What `insert` does when the new length does not wrap. -/
theorem insert_spec {T : Type} [Inhabited T] (self : component_table T) (id : Nat) (t : T)
    (hid : 3 * id < u64) :
    ∃ r, self.insert id t = some r ∧
      r.get id = some t ∧
      (∀ j, r.m_index.contains j = (self.m_index.contains j || decide (j = id))) ∧
      (∀ j, j ≠ id → j < self.m_data.length → r.get j = self.get j) ∧
      self.m_data.length ≤ r.m_data.length ∧ id < r.m_data.length ∧
      (self.valid → r.valid) :=
  insert_core self id t (by omega) (Or.inr hid)

/-- A defined `insert` on a table that satisfies the invariant found the slot
or grew the array without wrapping. -/
theorem insert_some_ok {T : Type} [Inhabited T] (self : component_table T) (id : Nat) (t : T)
    (r : component_table T) (h : self.insert id t = some r) (hv : self.valid) :
    id < u64 ∧ (id < self.m_data.length ∨ 3 * id < u64) := by
  unfold insert at h
  by_cases hlen : id ≥ self.m_data.length
  · simp only [hlen, if_true, length_resize] at h
    by_cases hlt : id < (((3 * id) % u64) >>> 1) + 1
    · rw [Nat.shiftRight_eq_div_pow] at hlt
      have h3 : 3 * id < u64 := by
        unfold u64 at hlt ⊢
        have hm : 3 * id % 2 ^ 64 < 2 ^ 64 := Nat.mod_lt _ (by decide)
        have hsmall : id < 2 ^ 63 := by omega
        by_contra hc
        have e : 3 * id % 2 ^ 64 = 3 * id - 2 ^ 64 := by
          rw [Nat.mod_eq_sub_mod (by omega), Nat.mod_eq_of_lt (by omega)]
        omega
      exact ⟨by omega, Or.inr h3⟩
    · rw [if_neg hlt] at h
      exact absurd h (by simp)
  · have hlt : id < self.m_data.length := by omega
    have := hv.2.2
    exact ⟨by unfold npos at this; omega, Or.inl hlt⟩

/-- A defined `insert` keeps the table invariant. -/
theorem insert_some_valid {T : Type} [Inhabited T] (self : component_table T) (id : Nat)
    (t : T) (r : component_table T) (h : self.insert id t = some r) (hv : self.valid) :
    r.valid := by
  obtain ⟨h1, h2⟩ := insert_some_ok self id t r h hv
  obtain ⟨r2, hr2, -, -, -, -, -, hval⟩ := insert_core self id t h1 h2
  rw [h] at hr2
  cases hr2
  exact hval hv

/-- A defined `erase` keeps the table invariant. -/
theorem erase_some_valid {T : Type} (self : component_table T) (id : Nat)
    (r : component_table T) (h : self.erase id = some r) (hv : self.valid) : r.valid := by
  unfold erase at h
  by_cases hlt : id / 64 < self.m_index.m_index_data.length
  · obtain ⟨ix, hix, -, hmem, hval⟩ := table_index.reset_spec self.m_index id hlt
    rw [hix] at h
    simp only [Option.map_some', Option.some.injEq] at h
    rw [← h]
    refine ⟨hval hv.1, fun j hj => ?_, hv.2.2⟩
    have hj2 : ix.contains j = true := hj
    rw [hmem] at hj2
    simp only [Bool.and_eq_true] at hj2
    exact hv.2.1 j hj2.1
  · have : self.m_index.reset id = none := by
      unfold table_index.reset
      rw [shr6, if_neg hlt]
    rw [this] at h
    exact absurd h (by simp)

end component_table

/-- C3: for every finite list `S` of ids other than `npos`, calling `set(id)`
for each id of `S` on an empty index is defined, and the sequence
`next(0)`, `next(n + 1)`, ... then reaches `npos` (within `64 * words + 1`
calls) and lists exactly the elements of `S`, each once, strictly ascending. -/
theorem table_index_enumerates_set_ids (S : List Nat) (hS : ∀ id ∈ S, id < npos) :
    ∃ t l, table_index.empty.set_all S = some t ∧
      (∀ fuel, 64 * t.m_index_data.length < fuel → t.enumerate fuel 0 = some l) ∧
      l.Sorted (· < ·) ∧ l.Nodup ∧ ∀ id, id ∈ l ↔ id ∈ S := by
  obtain ⟨t, ht, hv, hm⟩ := table_index.set_all_spec S hS _ table_index.valid_empty
  obtain ⟨l, hl, hs, hml⟩ := table_index.enumerate_spec t hv (64 * t.m_index_data.length + 1) 0
    (by omega) (by omega)
  refine ⟨t, l, ht, ?_, hs, hs.nodup, fun id => ?_⟩
  · intro fuel hf
    obtain ⟨l2, hl2, hs2, hml2⟩ := table_index.enumerate_spec t hv fuel 0 (by omega) (by omega)
    rw [hl2]
    congr 1
    apply List.eq_of_perm_of_sorted (r := (· < ·)) _ hs2 hs
    rw [List.perm_ext_iff_of_nodup hs2.nodup hs.nodup]
    intro a; rw [hml, hml2]
  · rw [hml, hm]
    simp [table_index.contains, table_index.empty]

theorem table_index_enumerates_set_ids_witness :
    (∀ id ∈ [70, 1, 64, 1], id < npos) ∧
    ∃ t l, table_index.empty.set_all [70, 1, 64, 1] = some t ∧
      (∀ fuel, 64 * t.m_index_data.length < fuel → t.enumerate fuel 0 = some l) ∧
      l.Sorted (· < ·) ∧ l.Nodup ∧ ∀ id, id ∈ l ↔ id ∈ [70, 1, 64, 1] :=
  ⟨by decide, table_index_enumerates_set_ids [70, 1, 64, 1] (by decide)⟩

/-! ## The store: `table` -/

namespace ecs

theorem slot_spec {T : Type} (components : List (Option (component_table T))) (ti : Nat)
    (h3 : 3 * ti < u64) :
    ti < (if ti ≥ components.length then
        resize components ((((3 * ti) % u64) >>> 1) + 1) none else components).length ∧
    ∀ i, (if ((if ti ≥ components.length then
            resize components ((((3 * ti) % u64) >>> 1) + 1) none
            else components).getD ti none).isNone then
          (if ti ≥ components.length then
            resize components ((((3 * ti) % u64) >>> 1) + 1) none
            else components).set ti (some component_table.empty)
        else (if ti ≥ components.length then
            resize components ((((3 * ti) % u64) >>> 1) + 1) none
            else components)).getD i none =
      if i = ti then some ((components.getD ti none).getD component_table.empty)
      else components.getD i none := by
  have hmod : (3 * ti) % u64 = 3 * ti := Nat.mod_eq_of_lt h3
  simp only [hmod, Nat.shiftRight_eq_div_pow, pow_one]
  have key : ∀ (c : List (Option (component_table T))), ti < c.length →
      ∀ i, (if (c.getD ti none).isNone then c.set ti (some component_table.empty)
        else c).getD i none =
      if i = ti then some ((c.getD ti none).getD component_table.empty)
      else c.getD i none := by
    intro c hc i
    cases hs : c.getD ti none with
    | none =>
      simp only [Option.isNone_none, if_true, Option.getD_none]
      rw [getD_set_gen]
      by_cases hi : i = ti
      · subst hi; simp [hc]
      · have : ¬ (ti = i ∧ ti < c.length) := fun h => hi h.1.symm
        rw [if_neg this, if_neg hi]
    | some t =>
      simp only [Option.isNone_some, Option.getD_some]
      by_cases hi : i = ti
      · rw [if_pos hi, hi]; exact hs
      · rw [if_neg hi]; rfl
  by_cases hlen : ti ≥ components.length
  · simp only [hlen, if_true]
    have hl : ti < (resize components (3 * ti / 2 + 1) none).length := by
      rw [length_resize]; omega
    refine ⟨hl, fun i => ?_⟩
    rw [key _ hl i, getD_resize_gen, getD_resize_gen]
    have h1 : ti < 3 * ti / 2 + 1 := by omega
    rw [if_pos h1]
    by_cases hi : i = ti
    · rw [if_pos hi, if_pos hi]
    · rw [if_neg hi, if_neg hi]
      by_cases hi2 : i < 3 * ti / 2 + 1
      · rw [if_pos hi2]
      · rw [if_neg hi2, getD_none_of_length_le _ _ (by omega)]
  · simp only [hlen, if_false]
    have hl : ti < components.length := by omega
    exact ⟨hl, key _ hl⟩

theorem table_eq {T : Type} (self : ecs T) (statics : Nat → Nat) (U : Nat) (ti : Nat)
    (ty : type_index) (st : Nat → Nat) (hid : self.types.id statics U = (ti, ty, st))
    (h3 : 3 * ti < u64) :
    ∃ components, self.table statics U = some (ti, ⟨components, ty, self.entities⟩, st) ∧
      ∀ i, components.getD i none =
        if i = ti then some ((self.m_components.getD ti none).getD component_table.empty)
        else self.m_components.getD i none := by
  obtain ⟨hl, hg⟩ := slot_spec self.m_components ti h3
  refine ⟨_, ?_, hg⟩
  unfold table
  rw [hid]
  simp only
  rw [if_pos hl]

/-- What `table<U>()` does in a single-store process: it is defined, `U` gets
(or keeps) its index, the table of `U` is the old one or a new empty one, and
every other slot is as before. -/
theorem table_spec {T : Type} (self : ecs T) (statics : Nat → Nat) (U : Nat)
    (hreg : self.registry_ok statics) (hb : 3 * self.types.runningTypeIndex < u64) :
    ∃ ti db st, self.table statics U = some (ti, db, st) ∧
      st U = ti ∧ ti ≠ no_type ∧
      (∀ V, V ≠ U → st V = statics V) ∧
      (statics U ≠ no_type → st = statics ∧ db.types = self.types) ∧
      db.entities = self.entities ∧
      self.types.runningTypeIndex ≤ db.types.runningTypeIndex ∧
      db.types.runningTypeIndex ≤ self.types.runningTypeIndex + 1 ∧
      (∀ i, db.m_components.getD i none =
        if i = ti then some ((self.find statics U).getD component_table.empty)
        else self.m_components.getD i none) ∧
      db.registry_ok st ∧
      (statics U ≠ no_type ∨ ti = self.types.runningTypeIndex) := by
  obtain ⟨hr1, hr2, hr3⟩ := hreg
  have hnt : self.types.runningTypeIndex < no_type := by
    unfold no_type; unfold u64 at hb ⊢; omega
  by_cases hU : statics U ≠ no_type
  · have hti := hr1 U hU
    have hid : self.types.id statics U = (statics U, self.types, statics) := by
      unfold type_index.id; rw [if_pos hU]
    obtain ⟨comps, hc, hg⟩ := table_eq self statics U _ _ _ hid (by omega)
    refine ⟨statics U, ⟨comps, self.types, self.entities⟩, statics, hc, rfl, hU,
      fun _ _ => rfl, fun _ => ⟨rfl, rfl⟩, rfl, le_refl _, by simp, ?_, ?_, Or.inl hU⟩
    · intro i
      rw [find, if_pos hU]
      exact hg i
    · refine ⟨hr1, hr2, fun i hi => ?_⟩
      have hi2 : self.types.runningTypeIndex ≤ i := hi
      show comps.getD i none = none
      rw [hg i, if_neg (by omega)]
      exact hr3 i hi
  · have hU : statics U = no_type := by simpa using hU
    have hmod : (self.types.runningTypeIndex + 1) % u64 = self.types.runningTypeIndex + 1 :=
      Nat.mod_eq_of_lt (by unfold no_type at hnt; omega)
    have hid : self.types.id statics U = (self.types.runningTypeIndex,
        ⟨self.types.runningTypeIndex + 1⟩,
        Function.update statics U self.types.runningTypeIndex) := by
      unfold type_index.id; rw [if_neg (by simpa using hU), hmod]
    obtain ⟨comps, hc, hg⟩ := table_eq self statics U _ _ _ hid hb
    refine ⟨self.types.runningTypeIndex,
      ⟨comps, ⟨self.types.runningTypeIndex + 1⟩, self.entities⟩,
      Function.update statics U self.types.runningTypeIndex, hc, by simp, by omega,
      fun V hV => by simp [Function.update, hV], fun h => absurd hU h, rfl,
      Nat.le_succ _, le_refl _, ?_, ?_, Or.inr rfl⟩
    · intro i
      have hf : self.find statics U = none := by rw [find, if_neg (by simpa using hU)]
      show comps.getD i none = _
      rw [hg i, hf, hr3 _ (le_refl _)]
    · refine ⟨fun V hV => ?_, fun V W hV hVW => ?_, fun i hi => ?_⟩
      · show Function.update statics U self.types.runningTypeIndex V <
          self.types.runningTypeIndex + 1
        by_cases e : V = U
        · subst e; simp
        · rw [Function.update_noteq e] at hV ⊢
          have := hr1 V hV; omega
      · by_cases e : V = U
        · subst e
          by_cases e2 : W = V
          · exact e2.symm
          · rw [Function.update_same, Function.update_noteq e2] at hVW
            have hW : statics W ≠ no_type := by rw [← hVW]; omega
            have := hr1 W hW
            omega
        · rw [Function.update_noteq e] at hV hVW
          by_cases e2 : W = U
          · subst e2
            rw [Function.update_same] at hVW
            have := hr1 V hV
            omega
          · rw [Function.update_noteq e2] at hVW
            exact hr2 V W hV hVW
      · have hi2 : self.types.runningTypeIndex + 1 ≤ i := hi
        show comps.getD i none = none
        rw [hg i, if_neg (by omega)]
        exact hr3 i (by omega)

theorem registry_ok_new {T : Type} : (ecs.new : ecs T).registry_ok fresh_statics := by
  refine ⟨fun U h => absurd rfl h, fun U V h => absurd rfl h, fun i _ => rfl⟩

theorem lt_length_of_getD_some {α : Type} (l : List (Option α)) (i : Nat) (a : α)
    (h : l.getD i none = some a) : i < l.length := by
  by_contra hc
  rw [getD_none_of_length_le l i (by omega)] at h
  exact absurd h (by simp)

/-- The tables after `table<U>()`, seen through `find`. -/
theorem table_find {T : Type} (self : ecs T) (statics : Nat → Nat) (U : Nat)
    (hreg : self.registry_ok statics) (hb : 3 * self.types.runningTypeIndex < u64) :
    ∃ ti db st, self.table statics U = some (ti, db, st) ∧ st U = ti ∧ ti ≠ no_type ∧
      db.m_components.getD ti none = some ((self.find statics U).getD component_table.empty) ∧
      (∀ V, db.find st V =
        if V = U then some ((self.find statics U).getD component_table.empty)
        else self.find statics V) ∧
      (∀ V, V ≠ U → st V = statics V) ∧
      (statics U ≠ no_type → st = statics ∧ db.types = self.types) ∧
      db.entities = self.entities ∧
      self.types.runningTypeIndex ≤ db.types.runningTypeIndex ∧
      db.types.runningTypeIndex ≤ self.types.runningTypeIndex + 1 ∧
      (∀ i, i ≠ ti → db.m_components.getD i none = self.m_components.getD i none) ∧
      db.registry_ok st ∧
      (∀ i t, self.m_components.getD i none = some t →
        db.m_components.getD i none = some t) := by
  obtain ⟨ti, db, st, h1, h2, h3, h4, h5, h6, h7, h8, h9, h10, h11⟩ :=
    table_spec self statics U hreg hb
  refine ⟨ti, db, st, h1, h2, h3, by rw [h9 ti, if_pos rfl], ?_, h4, h5, h6, h7, h8,
    fun i hi => by rw [h9 i, if_neg hi], h10, ?_⟩
  swap
  · intro i t hit
    rw [h9 i]
    by_cases hi : i = ti
    · rw [if_pos hi]
      rcases h11 with hU | hU
      · have e : st = statics := (h5 hU).1
        rw [find, if_pos hU, ← e, h2, ← hi, hit]
        rfl
      · rw [hi, hU, hreg.2.2 _ (le_refl _)] at hit
        exact absurd hit (by simp)
    · rw [if_neg hi]; exact hit
  intro V
  by_cases hV : V = U
  · subst hV
    rw [if_pos rfl, find, h2, if_pos h3, h9 ti, if_pos rfl]
  · rw [if_neg hV, find, find, h4 V hV]
    by_cases hn : statics V ≠ no_type
    · rw [if_pos hn, if_pos hn, h9]
      have hne : statics V ≠ ti := by
        intro e
        have e2 : st V = st U := by rw [h4 V hV, e, h2]
        exact hV (h10.2.1 V U (by rw [h4 V hV]; exact hn) e2)
      rw [if_neg hne]
    · rw [if_neg hn, if_neg hn]

theorem valid_empty_table {T : Type} : (component_table.empty : component_table T).valid := by
  refine ⟨table_index.valid_empty, fun id h => ?_, Nat.zero_le _⟩
  simp [component_table.empty, table_index.contains, table_index.empty] at h

/-- A second `table<U>()` for a type whose table exists changes nothing. -/
theorem table_existing {T : Type} (db : ecs T) (st : Nat → Nat) (U : Nat)
    (t : component_table T) (h : st U ≠ no_type)
    (ht : db.m_components.getD (st U) none = some t) :
    db.table st U = some (st U, db, st) := by
  have hlen := lt_length_of_getD_some _ _ _ ht
  have hge : ¬ (st U ≥ db.m_components.length) := by omega
  unfold table type_index.id
  rw [if_pos h]
  simp only [hge, if_false, hlen, if_true, ht, Option.isNone_some]
  rfl

theorem table_tables_ok {T : Type} (self : ecs T) (statics : Nat → Nat) (U : Nat)
    (hreg : self.registry_ok statics) (hb : 3 * self.types.runningTypeIndex < u64)
    (htab : self.tables_ok) (ti : Nat) (db : ecs T) (st : Nat → Nat)
    (h : self.table statics U = some (ti, db, st)) : db.tables_ok := by
  obtain ⟨ti2, db2, st2, h1, -, -, -, -, -, -, -, h9, -, -⟩ :=
    table_spec self statics U hreg hb
  rw [h] at h1
  simp only [Option.some.injEq, Prod.mk.injEq] at h1
  obtain ⟨e1, e2, -⟩ := h1
  subst e1 e2
  intro i t hit
  rw [h9 i] at hit
  by_cases hi : i = ti
  · rw [if_pos hi] at hit
    simp only [Option.some.injEq] at hit
    rw [← hit]
    cases hf : self.find statics U with
    | none => exact valid_empty_table
    | some t0 =>
      simp only [Option.getD_some]
      unfold find at hf
      split at hf
      · exact htab _ _ hf
      · exact absurd hf (by simp)
  · rw [if_neg hi] at hit
    exact htab i t hit

/-- Writing a table back into its slot, seen through `find`. -/
theorem find_set {T : Type} (db : ecs T) (st : Nat → Nat) (U : Nat) (t : component_table T)
    (hreg : db.registry_ok st) (hU : st U ≠ no_type) (hlen : st U < db.m_components.length) :
    (∀ V, (ecs.mk (db.m_components.set (st U) (some t)) db.types db.entities).find st V =
      if V = U then some t else db.find st V) ∧
    (ecs.mk (db.m_components.set (st U) (some t)) db.types db.entities).registry_ok st := by
  refine ⟨fun V => ?_, hreg.1, hreg.2.1, fun i hi => ?_⟩
  · by_cases hV : V = U
    · subst hV
      rw [if_pos rfl, find, if_pos hU]
      show (db.m_components.set (st V) (some t)).getD (st V) none = some t
      rw [getD_set_gen, if_pos ⟨rfl, hlen⟩]
    · rw [if_neg hV, find, find]
      by_cases hn : st V ≠ no_type
      · rw [if_pos hn, if_pos hn]
        show (db.m_components.set (st U) (some t)).getD (st V) none = _
        rw [getD_set_gen, if_neg]
        intro h
        exact hV (hreg.2.1 V U hn h.1.symm)
      · rw [if_neg hn, if_neg hn]
  · show (db.m_components.set (st U) (some t)).getD i none = none
    have h1 := hreg.1 U hU
    have hi2 : db.types.runningTypeIndex ≤ i := hi
    rw [getD_set_gen, if_neg (by omega)]
    exact hreg.2.2 i hi

/-- What `addComponent` does when neither the registry nor the new array
length wraps. -/
theorem addComponent_spec {T : Type} [Inhabited T] (self : ecs T) (statics : Nat → Nat)
    (id U : Nat) (c : T) (hreg : self.registry_ok statics)
    (hb : 3 * self.types.runningTypeIndex < u64) (hid : 3 * id < u64) :
    ∃ db st t, self.addComponent statics id U c = some (db, st) ∧
      ((self.find statics U).getD component_table.empty).insert id c = some t ∧
      (∀ V, db.find st V = if V = U then some t else self.find statics V) ∧
      db.registry_ok st ∧ db.entities = self.entities ∧
      self.types.runningTypeIndex ≤ db.types.runningTypeIndex ∧
      db.types.runningTypeIndex ≤ self.types.runningTypeIndex + 1 ∧
      (self.tables_ok → db.tables_ok) := by
  obtain ⟨ti, db, st, h1, h2, h3, h4, h5, -, -, h8, h9, h10, -, h12, -⟩ :=
    table_find self statics U hreg hb
  obtain ⟨t, ht, -, -, -, -, -, htv⟩ := component_table.insert_spec
    ((self.find statics U).getD component_table.empty) id c hid
  have hlen := lt_length_of_getD_some _ _ _ h4
  subst h2
  obtain ⟨hf, hr⟩ := find_set db st U t h12 h3 hlen
  refine ⟨_, st, t, ?_, ht, ?_, hr, h8, h9, h10, ?_⟩
  · unfold addComponent
    rw [h1]
    simp only [h4, ht]
  · intro V
    rw [hf V]
    by_cases hV : V = U
    · rw [if_pos hV, if_pos hV]
    · rw [if_neg hV, if_neg hV, h5 V, if_neg hV]
  · intro htab i t2 hit
    have htab0 := table_tables_ok self statics U hreg hb htab _ db st h1
    have hit2 : (db.m_components.set (st U) (some t)).getD i none = some t2 := hit
    rw [getD_set_gen] at hit2
    by_cases hi : st U = i ∧ st U < db.m_components.length
    · rw [if_pos hi] at hit2
      cases hit2
      exact htv (htab0 _ _ h4)
    · rw [if_neg hi] at hit2
      exact htab0 i t2 hit2

theorem addComponents_spec {T : Type} [Inhabited T] (id : Nat) (hid : 3 * id < u64) :
    ∀ (components : List (Nat × T)) (self : ecs T) (statics : Nat → Nat),
      self.registry_ok statics →
      3 * (self.types.runningTypeIndex + components.length) < u64 →
      ∃ db st, addComponents id components self statics = some (db, st) ∧
        db.registry_ok st ∧ db.entities = self.entities ∧
        self.types.runningTypeIndex ≤ db.types.runningTypeIndex ∧
        db.types.runningTypeIndex ≤ self.types.runningTypeIndex + components.length ∧
        (∀ V, V ∉ components.map Prod.fst → db.find st V = self.find statics V) ∧
        ((components.map Prod.fst).Nodup →
          ∀ U c, (U, c) ∈ components → db.has st U id = true ∧ db.value st U id = some c) ∧
        (self.tables_ok → db.tables_ok) := by
  intro components
  induction components with
  | nil =>
    intro self statics hreg _
    exact ⟨self, statics, rfl, hreg, rfl, le_refl _, le_refl _, fun _ _ => rfl,
      fun _ U c h => absurd h (List.not_mem_nil _), fun h => h⟩
  | cons head rest ih =>
    intro self statics hreg hb
    obtain ⟨U, c⟩ := head
    simp only [List.length_cons] at hb
    obtain ⟨db1, st1, t, h1, ht, hf, hr, he, hlo, hhi, htk⟩ :=
      addComponent_spec self statics id U c hreg (by omega) hid
    obtain ⟨db, st, h2, hr2, he2, hlo2, hhi2, hf2, hm2, htk2⟩ := ih db1 st1 hr (by omega)
    obtain ⟨r, hr0, hget, hmem⟩ : ∃ r, some t = some r ∧ r.get id = some c ∧
        (∀ j, r.m_index.contains j =
          (((self.find statics U).getD component_table.empty).m_index.contains j ||
            decide (j = id))) := by
      obtain ⟨r, a, b, c2, -⟩ := component_table.insert_spec
        ((self.find statics U).getD component_table.empty) id c hid
      exact ⟨r, by rw [← ht, a], b, c2⟩
    cases hr0
    refine ⟨db, st, ?_, hr2, by rw [he2, he], by omega, by simp only [List.length_cons]; omega,
      ?_, ?_, fun h => htk2 (htk h)⟩
    · show addComponents id ((U, c) :: rest) self statics = some (db, st)
      unfold addComponents
      rw [h1]
      exact h2
    · intro V hV
      simp only [List.map_cons, List.mem_cons, not_or] at hV
      rw [hf2 V hV.2, hf V, if_neg hV.1]
    · intro hnd V c2 hVc
      simp only [List.map_cons, List.nodup_cons] at hnd
      rcases List.mem_cons.1 hVc with e | hin
      · cases e
        have hfV : db.find st U = some t := by rw [hf2 U hnd.1, hf U, if_pos rfl]
        refine ⟨?_, ?_⟩
        · simp only [has, hfV]
          rw [hmem]; simp
        · simp only [value, hfV, Option.bind_some]
          exact hget
      · exact hm2 hnd.2 V c2 hin

/-- What `create` does in a single-store process far from wrap-around. -/
theorem create_spec {T : Type} [Inhabited T] (self : ecs T) (statics : Nat → Nat)
    (components : List (Nat × T)) (hreg : self.registry_ok statics)
    (htypes : 3 * (self.types.runningTypeIndex + components.length) < u64)
    (hid : 3 * (self.entities.m_nextId + 1) < u64) :
    ∃ db st, self.create statics components = some (self.entities.m_nextId + 1, db, st) ∧
      db.registry_ok st ∧ db.entities.m_nextId = self.entities.m_nextId + 1 ∧
      self.types.runningTypeIndex ≤ db.types.runningTypeIndex ∧
      db.types.runningTypeIndex ≤ self.types.runningTypeIndex + components.length ∧
      ((components.map Prod.fst).Nodup →
        ∀ U c, (U, c) ∈ components →
          db.has st U (self.entities.m_nextId + 1) = true ∧
          db.value st U (self.entities.m_nextId + 1) = some c) ∧
      (self.tables_ok → db.tables_ok) := by
  have hmod : (self.entities.m_nextId + 1) % u64 = self.entities.m_nextId + 1 :=
    Nat.mod_eq_of_lt (by omega)
  obtain ⟨db, st, h1, h2, h3, h4, h5, -, h7, h8⟩ := addComponents_spec
    (self.entities.m_nextId + 1) hid components
    (ecs.mk self.m_components self.types ⟨self.entities.m_nextId + 1⟩) statics
    ⟨hreg.1, hreg.2.1, hreg.2.2⟩ htypes
  refine ⟨db, st, ?_, h2, by rw [h3], h4, h5, h7, fun h => h8 h⟩
  unfold create entity_index.generateOne
  simp only [hmod, h1, Option.map_some']

end ecs

/-- C4: on every valid index `next(firstAllowed)` is defined; it returns `npos`
exactly when no member id at or after `firstAllowed` exists (also when
`firstAllowed` lies beyond the words of the index), and otherwise the
smallest member id at or after `firstAllowed`. -/
theorem next_returns_least_member_or_npos (self : table_index) (hv : self.valid)
    (firstAllowed : Nat) :
    ∃ r, self.next firstAllowed = some r ∧
      (r = npos ↔ ∀ id, firstAllowed ≤ id → self.contains id = false) ∧
      (r ≠ npos → self.contains r = true ∧ firstAllowed ≤ r ∧
        ∀ id, self.contains id = true → firstAllowed ≤ id → r ≤ id) := by
  obtain ⟨r, hr, h⟩ := table_index.next_spec self hv firstAllowed
  refine ⟨r, hr, ?_, ?_⟩
  · rcases h with ⟨h1, h2⟩ | ⟨h1, h2, h3, -⟩
    · exact ⟨fun _ => h2, fun _ => h1⟩
    · refine ⟨fun e => absurd e h1, fun hall => ?_⟩
      rw [hall r h3] at h2
      exact absurd h2 (by simp)
  · intro hne
    rcases h with ⟨h1, -⟩ | ⟨-, h2, h3, h4⟩
    · exact absurd h1 hne
    · exact ⟨h2, h3, h4⟩

theorem next_returns_least_member_or_npos_witness :
    (table_index.mk [2, 64]).valid ∧
    ∃ r, (table_index.mk [2, 64]).next 200 = some r ∧
      (r = npos ↔ ∀ id, 200 ≤ id → (table_index.mk [2, 64]).contains id = false) ∧
      (r ≠ npos → (table_index.mk [2, 64]).contains r = true ∧ 200 ≤ r ∧
        ∀ id, (table_index.mk [2, 64]).contains id = true → 200 ≤ id → r ≤ id) :=
  ⟨table_index.valid_of_short _ (by decide) (by decide),
    next_returns_least_member_or_npos _
      (table_index.valid_of_short _ (by decide) (by decide)) 200⟩

/-- C5: after `a.merge<PassThrough>(b)` an id is a member of `a` exactly when it
was a member of both `a` and `b`, whatever the two lengths, and the word
length of `a` is unchanged (`b` is a const reference: the call yields only
the new `a`). -/
theorem merge_PassThrough_is_intersection (a b : table_index) :
    (∀ id, (table_index.merge data_view.PassThrough a b).contains id = true ↔
      (a.contains id = true ∧ b.contains id = true)) ∧
    (table_index.merge data_view.PassThrough a b).m_index_data.length =
      a.m_index_data.length := by
  refine ⟨fun id => ?_, (table_index.merge_spec _ a b).1⟩
  rw [table_index.contains_merge_PassThrough]
  simp

/-- C6 fails on the code: with `a = {1, 70}` (two words) and `b = {1}` (one
word), `a.merge<Invert>(b)` zeroes word 1 of `a`, so id 70, a member of `a`
and not of `b`, is dropped. -/
theorem merge_Invert_drops_ids_beyond_other :
    table_index.merge data_view.Invert ⟨[2, 64]⟩ ⟨[2]⟩ = ⟨[0, 0]⟩ ∧
    (table_index.mk [2, 64]).contains 70 = true ∧
    (table_index.mk [2]).contains 70 = false ∧
    (table_index.merge data_view.Invert ⟨[2, 64]⟩ ⟨[2]⟩).contains 70 = false := by
  decide

/-- C10: in a store whose registry is consistent (a single-store process) and
whose counters are far from wrap-around, `create(c1..cn)` with pairwise
distinct component types is defined and returns the id the allocator issues
(`generateOne`, the old `m_nextId` plus one); afterwards that id is present in
the table of each supplied type and reading that table at the id yields the
supplied value. -/
theorem create_attaches_every_component {T : Type} [Inhabited T] (self : ecs T)
    (statics : Nat → Nat) (components : List (Nat × T))
    (hreg : self.registry_ok statics)
    (htypes : 3 * (self.types.runningTypeIndex + components.length) < u64)
    (hid : 3 * (self.entities.m_nextId + 1) < u64)
    (hnd : (components.map Prod.fst).Nodup) :
    ∃ db st, self.create statics components = some (self.entities.generateOne.1, db, st) ∧
      self.entities.generateOne.1 = self.entities.m_nextId + 1 ∧
      ∀ U c, (U, c) ∈ components →
        db.has st U self.entities.generateOne.1 = true ∧
        db.value st U self.entities.generateOne.1 = some c := by
  have hmod : self.entities.generateOne.1 = self.entities.m_nextId + 1 :=
    Nat.mod_eq_of_lt (by omega)
  obtain ⟨db, st, h1, -, -, -, -, h6, -⟩ :=
    ecs.create_spec self statics components hreg htypes hid
  rw [hmod]
  exact ⟨db, st, h1, rfl, h6 hnd⟩

theorem create_attaches_every_component_witness :
    (ecs.new : ecs Nat).registry_ok fresh_statics ∧
    3 * ((ecs.new : ecs Nat).types.runningTypeIndex + [(0, 10), (1, 11)].length) < u64 ∧
    3 * ((ecs.new : ecs Nat).entities.m_nextId + 1) < u64 ∧
    ([(0, 10), (1, 11)].map Prod.fst).Nodup ∧
    ∃ db st, (ecs.new : ecs Nat).create fresh_statics [(0, 10), (1, 11)] =
        some ((ecs.new : ecs Nat).entities.generateOne.1, db, st) ∧
      (ecs.new : ecs Nat).entities.generateOne.1 = (ecs.new : ecs Nat).entities.m_nextId + 1 ∧
      ∀ U c, (U, c) ∈ [(0, 10), (1, 11)] →
        db.has st U (ecs.new : ecs Nat).entities.generateOne.1 = true ∧
        db.value st U (ecs.new : ecs Nat).entities.generateOne.1 = some c :=
  ⟨ecs.registry_ok_new, by decide, by decide, by decide,
    create_attaches_every_component (ecs.new : ecs Nat) fresh_statics [(0, 10), (1, 11)]
      ecs.registry_ok_new (by decide) (by decide) (by decide)⟩

/-! ## The allocator under runs of calls -/

namespace ecs

theorem table_entities {T : Type} (self : ecs T) (statics : Nat → Nat) (U ti : Nat)
    (db : ecs T) (st : Nat → Nat) (h : self.table statics U = some (ti, db, st)) :
    db.entities = self.entities := by
  unfold table at h
  rcases hid : self.types.id statics U with ⟨ti0, ty, st0⟩
  rw [hid] at h
  simp only at h
  generalize (if ti0 ≥ self.m_components.length then
    resize self.m_components ((((3 * ti0) % u64) >>> 1) + 1) none
    else self.m_components) = C at h
  by_cases hl : ti0 < C.length
  · rw [if_pos hl] at h
    simp only [Option.some.injEq, Prod.mk.injEq] at h
    rw [← h.2.1]
  · rw [if_neg hl] at h
    exact absurd h (by simp)

theorem addComponent_entities {T : Type} [Inhabited T] (self : ecs T) (statics : Nat → Nat)
    (id U : Nat) (c : T) (db : ecs T) (st : Nat → Nat)
    (h : self.addComponent statics id U c = some (db, st)) : db.entities = self.entities := by
  unfold addComponent at h
  split at h
  · exact absurd h (by simp)
  · rename_i ti db1 st1 h1
    have := table_entities _ _ _ _ _ _ h1
    split at h
    · exact absurd h (by simp)
    · split at h
      · exact absurd h (by simp)
      · cases h; exact this

theorem removeComponent_entities {T : Type} (self : ecs T) (statics : Nat → Nat)
    (id U : Nat) (db : ecs T) (st : Nat → Nat)
    (h : self.removeComponent statics id U = some (db, st)) : db.entities = self.entities := by
  unfold removeComponent at h
  split at h
  · exact absurd h (by simp)
  · rename_i ti db1 st1 h1
    have := table_entities _ _ _ _ _ _ h1
    split at h
    · exact absurd h (by simp)
    · split at h
      · exact absurd h (by simp)
      · cases h; exact this

theorem addComponents_entities {T : Type} [Inhabited T] (id : Nat) :
    ∀ (components : List (Nat × T)) (self : ecs T) (statics : Nat → Nat) (db : ecs T)
      (st : Nat → Nat), addComponents id components self statics = some (db, st) →
      db.entities = self.entities := by
  intro components
  induction components with
  | nil => intro self statics db st h; cases h; rfl
  | cons head rest ih =>
    intro self statics db st h
    obtain ⟨U, c⟩ := head
    unfold addComponents at h
    split at h
    · exact absurd h (by simp)
    · rename_i db1 st1 h1
      rw [ih _ _ _ _ h, addComponent_entities _ _ _ _ _ _ _ h1]

theorem removeComponents_entities {T : Type} (id : Nat) :
    ∀ (Components : List Nat) (self : ecs T) (statics : Nat → Nat) (db : ecs T)
      (st : Nat → Nat), removeComponents id Components self statics = some (db, st) →
      db.entities = self.entities := by
  intro Components
  induction Components with
  | nil => intro self statics db st h; cases h; rfl
  | cons U rest ih =>
    intro self statics db st h
    unfold removeComponents at h
    split at h
    · exact absurd h (by simp)
    · rename_i db1 st1 h1
      rw [ih _ _ _ _ h, removeComponent_entities _ _ _ _ _ _ h1]

end ecs

namespace iterator

theorem unpack_types_entities {T : Type} :
    ∀ (Args : List Nat) (db : ecs T) (statics : Nat → Nat) (indices : List index_ptr)
      (db2 : ecs T) (st : Nat → Nat) (ix : List index_ptr),
      unpack_types Args db statics indices = some (db2, st, ix) →
      db2.entities = db.entities := by
  intro Args
  induction Args with
  | nil => intro db statics indices db2 st ix h; cases h; rfl
  | cons U rest ih =>
    intro db statics indices db2 st ix h
    unfold unpack_types at h
    split at h
    · exact absurd h (by simp)
    · rename_i ti db1 st1 h1
      rw [ih _ _ _ _ _ _ h, ecs.table_entities _ _ _ _ _ _ h1]

theorem tables_entities {T : Type} :
    ∀ (Args : List Nat) (db : ecs T) (statics : Nat → Nat)
      (tuple : List Nat) (db2 : ecs T) (st : Nat → Nat),
      tables Args db statics = some (tuple, db2, st) → db2.entities = db.entities := by
  intro Args
  induction Args with
  | nil => intro db statics tuple db2 st h; cases h; rfl
  | cons U rest ih =>
    intro db statics tuple db2 st h
    unfold tables at h
    split at h
    · exact absurd h (by simp)
    · rename_i ti db1 st1 h1
      split at h
      · exact absurd h (by simp)
      · rename_i r db3 st3 h3
        cases h
        rw [ih _ _ _ _ _ h3, ecs.table_entities _ _ _ _ _ _ h1]

theorem for_each_loop_entities {T : Type} (res : table_index) (op : List T → List T)
    (tuple : List Nat) :
    ∀ (fuel n : Nat) (db : ecs T) (calls : List (Nat × List T)) (db2 : ecs T)
      (calls2 : List (Nat × List T)),
      for_each_loop res op tuple fuel n db calls = some (db2, calls2) →
      db2.entities = db.entities := by
  intro fuel
  induction fuel with
  | zero => intro n db calls db2 calls2 h; exact absurd h (by simp [for_each_loop])
  | succ fuel ih =>
    intro n db calls db2 calls2 h
    unfold for_each_loop at h
    split at h
    · cases h; rfl
    · split at h
      · exact absurd h (by simp)
      · rename_i db1 args h1
        split at h
        · exact absurd h (by simp)
        · rw [ih _ _ _ _ _ h]
          unfold make_indexed_call at h1
          split at h1
          · exact absurd h1 (by simp)
          · cases h1; rfl

theorem for_each_entities {T : Type} (self : iterator) (db : ecs T) (statics : Nat → Nat)
    (Args : List Nat) (op : List T → List T) (db2 : ecs T) (st : Nat → Nat)
    (calls : List (Nat × List T))
    (h : self.for_each db statics Args op = some (db2, st, calls)) :
    db2.entities = db.entities := by
  unfold for_each at h
  split at h
  · exact absurd h (by simp)
  · rename_i db1 st1 ix h1
    split at h
    · exact absurd h (by simp)
    · split at h
      · exact absurd h (by simp)
      · rename_i tuple db3 st3 h3
        split at h
        · exact absurd h (by simp)
        · rename_i n hn
          cases hl : for_each_loop _ op tuple _ n db3 [] with
          | none => rw [hl] at h; exact absurd h (by simp)
          | some r =>
            rw [hl] at h
            obtain ⟨db4, c4⟩ := r
            simp only [Option.map_some', Option.some.injEq, Prod.mk.injEq] at h
            rw [← h.1, for_each_loop_entities _ _ _ _ _ _ _ _ _ hl,
              tables_entities _ _ _ _ _ _ h3, unpack_types_entities _ _ _ _ _ _ _ h1]

end iterator

namespace ecs

/-- Every defined call leaves `m_nextId` alone, except `create`, which adds one
and returns the new value. -/
theorem step_entities {T : Type} [Inhabited T] (self : ecs T) (statics : Nat → Nat)
    (c : call T) (db : ecs T) (st : Nat → Nat) (ids : List Nat)
    (h : self.step statics c = some (db, st, ids))
    (hb : self.entities.m_nextId + 1 < u64) :
    (creates [c] = 1 ∧ ids = [self.entities.m_nextId + 1] ∧
      db.entities.m_nextId = self.entities.m_nextId + 1) ∨
    (creates [c] = 0 ∧ ids = [] ∧ db.entities.m_nextId = self.entities.m_nextId) := by
  cases c with
  | create components =>
    left
    simp only [step, create, entity_index.generateOne, Nat.mod_eq_of_lt hb] at h
    cases ha : addComponents (self.entities.m_nextId + 1) components
        ⟨self.m_components, self.types, ⟨self.entities.m_nextId + 1⟩⟩ statics with
    | none => rw [ha] at h; exact absurd h (by simp)
    | some r =>
      rw [ha] at h
      obtain ⟨db1, st1⟩ := r
      simp only [Option.map_some', Option.some.injEq, Prod.mk.injEq] at h
      have := addComponents_entities _ _ _ _ _ _ ha
      refine ⟨rfl, h.2.2.symm, ?_⟩
      rw [← h.1, this]
  | attachToEntity id components =>
    right
    simp only [step, attachToEntity] at h
    cases ha : addComponents id components self statics with
    | none => rw [ha] at h; exact absurd h (by simp)
    | some r =>
      rw [ha] at h
      obtain ⟨db1, st1⟩ := r
      simp only [Option.map_some', Option.some.injEq, Prod.mk.injEq] at h
      refine ⟨rfl, h.2.2.symm, ?_⟩
      rw [← h.1, addComponents_entities _ _ _ _ _ _ ha]
  | removeFromEntity id Components =>
    right
    simp only [step, removeFromEntity] at h
    cases ha : removeComponents id Components self statics with
    | none => rw [ha] at h; exact absurd h (by simp)
    | some r =>
      rw [ha] at h
      obtain ⟨db1, st1⟩ := r
      simp only [Option.map_some', Option.some.injEq, Prod.mk.injEq] at h
      refine ⟨rfl, h.2.2.symm, ?_⟩
      rw [← h.1, removeComponents_entities _ _ _ _ _ _ ha]
  | for_each it Args op =>
    right
    simp only [step] at h
    cases ha : it.for_each self statics Args op with
    | none => rw [ha] at h; exact absurd h (by simp)
    | some r =>
      rw [ha] at h
      obtain ⟨db1, st1, calls⟩ := r
      simp only [Option.map_some', Option.some.injEq, Prod.mk.injEq] at h
      refine ⟨rfl, h.2.2.symm, ?_⟩
      rw [← h.1, iterator.for_each_entities _ _ _ _ _ _ _ _ ha]

theorem run_ids {T : Type} [Inhabited T] :
    ∀ (calls : List (call T)) (self : ecs T) (statics : Nat → Nat) (db : ecs T)
      (st : Nat → Nat) (ids : List Nat),
      run calls self statics = some (db, st, ids) →
      self.entities.m_nextId + calls.length < u64 →
      ids = List.range' (self.entities.m_nextId + 1) (creates calls) ∧
      db.entities.m_nextId = self.entities.m_nextId + creates calls ∧
      creates calls ≤ calls.length := by
  intro calls
  induction calls with
  | nil =>
    intro self statics db st ids h _
    cases h
    exact ⟨rfl, rfl, le_refl _⟩
  | cons c rest ih =>
    intro self statics db st ids h hb
    simp only [List.length_cons] at hb
    unfold run at h
    split at h
    · exact absurd h (by simp)
    · rename_i db1 st1 ids1 h1
      cases hr : run rest db1 st1 with
      | none => rw [hr] at h; exact absurd h (by simp)
      | some r =>
        rw [hr] at h
        obtain ⟨db2, st2, ids2⟩ := r
        simp only [Option.map_some', Option.some.injEq, Prod.mk.injEq] at h
        obtain ⟨e1, -, e3⟩ := h
        subst e1 e3
        rcases step_entities self statics c db1 st1 ids1 h1 (by omega) with
          ⟨k1, k2, k3⟩ | ⟨k1, k2, k3⟩
        · obtain ⟨a, b, d⟩ := ih db1 st1 db2 st2 ids2 hr (by omega)
          have hc : creates (c :: rest) = creates rest + 1 := by
            cases c <;> simp [creates] at k1 ⊢
          rw [hc, a, b, k2, k3]
          refine ⟨?_, by omega, by simp only [List.length_cons]; omega⟩
          rw [List.range'_succ]
          rfl
        · obtain ⟨a, b, d⟩ := ih db1 st1 db2 st2 ids2 hr (by omega)
          have hc : creates (c :: rest) = creates rest := by
            cases c <;> simp [creates] at k1 ⊢
          rw [hc, a, b, k2, k3]
          exact ⟨rfl, rfl, by simp only [List.length_cons]; omega⟩

end ecs

namespace ecs

/-- Runs made of `create` calls only are defined in a single-store process far
from wrap-around. -/
theorem run_creates_defined {T : Type} [Inhabited T] :
    ∀ (cs : List (List (Nat × T))) (self : ecs T) (statics : Nat → Nat),
      self.registry_ok statics →
      3 * (self.types.runningTypeIndex + (cs.map List.length).sum) < u64 →
      3 * (self.entities.m_nextId + cs.length) < u64 →
      ∃ db st, run (cs.map call.create) self statics =
          some (db, st, List.range' (self.entities.m_nextId + 1) cs.length) ∧
        db.registry_ok st ∧ (self.tables_ok → db.tables_ok) := by
  intro cs
  induction cs with
  | nil => intro self statics h _ _; exact ⟨self, statics, rfl, h, fun h => h⟩
  | cons components rest ih =>
    intro self statics hreg hb hn
    simp only [List.map_cons, List.sum_cons, List.length_cons] at hb hn
    obtain ⟨db1, st1, h1, hr1, hid1, -, hhi, -, ht1⟩ :=
      create_spec self statics components hreg (by omega) (by omega)
    obtain ⟨db, st, h2, hr2, ht2⟩ := ih db1 st1 hr1 (by omega) (by rw [hid1]; omega)
    refine ⟨db, st, ?_, hr2, fun h => ht2 (ht1 h)⟩
    simp only [List.map_cons, List.length_cons]
    unfold run
    simp only [step, h1, Option.map_some', h2, hid1]
    rw [List.range'_succ]
    rfl

end ecs

/-- The run of `main.cpp`: 1000000 `create(position, motion)` calls with any
values, then `create()`, which returns 1000001. -/
theorem main_last_create_returns_1000001 (values : List (Nat × Nat))
    (h : values.length = 1000000) :
    ∃ db st, (ecs.new : ecs Nat).run
        ((values.map fun (v : Nat × Nat) => call.create [(0, v.1), (1, v.2)]) ++
          [call.create []])
        fresh_statics = some (db, st, List.range' 1 1000000 ++ [1000001]) := by
  have hmap : (values.map fun (v : Nat × Nat) => call.create [(0, v.1), (1, v.2)]) ++
        [call.create []] =
      ((values.map fun (v : Nat × Nat) => [(0, v.1), (1, v.2)]) ++ [[]]).map call.create := by
    simp [List.map_append, List.map_map, Function.comp]
  have hsum : (((values.map fun (v : Nat × Nat) => [(0, v.1), (1, v.2)]) ++ [[]]).map
      List.length).sum = 2 * values.length := by
    have e : ∀ (l : List (Nat × Nat)),
        ((l.map fun (v : Nat × Nat) => [(0, v.1), (1, v.2)]).map List.length).sum =
          2 * l.length := by
      intro l
      induction l with
      | nil => rfl
      | cons x xs ih =>
        simp only [List.map_cons, List.sum_cons, List.length_cons, List.length_nil, ih]
        omega
    rw [List.map_append, List.sum_append, e]
    simp
  obtain ⟨db, st, hr, -⟩ := ecs.run_creates_defined
    ((values.map fun (v : Nat × Nat) => [(0, v.1), (1, v.2)]) ++ [[]]) (ecs.new : ecs Nat)
    fresh_statics ecs.registry_ok_new
    (by rw [hsum, h]; decide)
    (by simp only [List.length_append, List.length_map, h]; decide)
  refine ⟨db, st, ?_⟩
  rw [hmap, hr]
  simp only [List.length_append, List.length_map, h, List.length_cons, List.length_nil]
  have : List.range' ((ecs.new : ecs Nat).entities.m_nextId + 1) (1000000 + (0 + 1)) =
      List.range' 1 1000000 ++ [1000001] := by
    show List.range' 1 (1000000 + 1) = _
    rw [List.range'_concat]
  rw [this]

/-- C9: on a newly constructed store, in every defined run of fewer than 2^64
calls (`create` with any components, interleaved with `attachToEntity`,
`removeFromEntity` and `for_each` calls), the ids the `create` calls return
are 1, 2, 3, ... in call order: strictly increasing, never 0, the n-th being
n. And every run of `create` calls alone is defined in a single-store process
(far from wrap-around), so that after 1000000 creates the next returns 1000001. -/
theorem create_returns_successive_ids {T : Type} [Inhabited T] (statics : Nat → Nat)
    (calls : List (call T)) (cs : List (List (Nat × T)))
    (hlen : calls.length < u64) (hcs : 3 * cs.length < u64)
    (hsum : 3 * (cs.map List.length).sum < u64) :
    (∀ db st ids, (ecs.new : ecs T).run calls statics = some (db, st, ids) →
      ids = List.range' 1 (creates calls) ∧ ids.Sorted (· < ·) ∧ 0 ∉ ids ∧
      ∀ n, n < creates calls → ids[n]? = some (n + 1)) ∧
    ∃ db st, (ecs.new : ecs T).run (cs.map call.create) fresh_statics =
      some (db, st, List.range' 1 cs.length) := by
  constructor
  · intro db st ids h
    obtain ⟨h1, -, -⟩ := ecs.run_ids calls ecs.new statics db st ids h (by simpa [ecs.new] using hlen)
    have e : ids = List.range' 1 (creates calls) := h1
    subst e
    refine ⟨rfl, List.pairwise_lt_range' 1 _, ?_, fun n hn => ?_⟩
    · simp
    · rw [List.getElem?_range' _ _ hn]
      simp [Nat.add_comm]
  · obtain ⟨db, st, h, -⟩ := ecs.run_creates_defined cs ecs.new fresh_statics
      ecs.registry_ok_new (by simpa [ecs.new] using hsum) (by simpa [ecs.new] using hcs)
    exact ⟨db, st, h⟩

theorem create_returns_successive_ids_witness :
    [call.create [(0, 10)], call.attachToEntity 7 [(1, 5)], call.create [(0, 20), (1, 21)],
      call.removeFromEntity 7 [1], call.for_each iterator.new [1, 0] (fun l => l.reverse),
      call.create ([] : List (Nat × Nat))].length < u64 ∧
    3 * [[(0, 10), (1, 11)], [(0, 20)], ([] : List (Nat × Nat))].length < u64 ∧
    3 * ([[(0, 10), (1, 11)], [(0, 20)], ([] : List (Nat × Nat))].map List.length).sum < u64 ∧
    ((∀ db st ids, (ecs.new : ecs Nat).run
        [call.create [(0, 10)], call.attachToEntity 7 [(1, 5)],
          call.create [(0, 20), (1, 21)], call.removeFromEntity 7 [1],
          call.for_each iterator.new [1, 0] (fun l => l.reverse),
          call.create ([] : List (Nat × Nat))] fresh_statics = some (db, st, ids) →
      ids = List.range' 1 (creates
        [call.create [(0, 10)], call.attachToEntity 7 [(1, 5)],
          call.create [(0, 20), (1, 21)], call.removeFromEntity 7 [1],
          call.for_each iterator.new [1, 0] (fun l => l.reverse),
          call.create ([] : List (Nat × Nat))]) ∧ ids.Sorted (· < ·) ∧ 0 ∉ ids ∧
      ∀ n, n < creates
        [call.create [(0, 10)], call.attachToEntity 7 [(1, 5)],
          call.create [(0, 20), (1, 21)], call.removeFromEntity 7 [1],
          call.for_each iterator.new [1, 0] (fun l => l.reverse),
          call.create ([] : List (Nat × Nat))] → ids[n]? = some (n + 1)) ∧
    ∃ db st, (ecs.new : ecs Nat).run
        ([[(0, 10), (1, 11)], [(0, 20)], ([] : List (Nat × Nat))].map call.create)
        fresh_statics =
      some (db, st, List.range' 1 [[(0, 10), (1, 11)], [(0, 20)],
        ([] : List (Nat × Nat))].length)) ∧
    (((ecs.new : ecs Nat).run
        [call.create [(0, 10)], call.attachToEntity 7 [(1, 5)],
          call.create [(0, 20), (1, 21)], call.removeFromEntity 7 [1],
          call.for_each iterator.new [1, 0] (fun l => l.reverse),
          call.create ([] : List (Nat × Nat))] fresh_statics).map fun r => r.2.2) =
      some [1, 2, 3] :=
  ⟨by decide, by decide, by decide,
    create_returns_successive_ids fresh_statics _ _ (by decide) (by decide) (by decide),
    by decide⟩

/-! ## The query pass -/

namespace ecs

theorem find_eq_getD {T : Type} (db : ecs T) (st : Nat → Nat) (U : Nat) (h : st U ≠ no_type) :
    db.find st U = db.m_components.getD (st U) none := by
  rw [find, if_pos h]

end ecs

namespace iterator

/-- What `unpack_types<Args...>()` does in a single-store process: every
parameter type gets its table (an empty one when it had none), pushed in
parameter order; existing tables stay where they are. -/
theorem unpack_types_spec {T : Type} :
    ∀ (Args : List Nat) (db : ecs T) (statics : Nat → Nat) (acc : List index_ptr),
      db.registry_ok statics → db.tables_ok →
      3 * (db.types.runningTypeIndex + Args.length) < u64 →
      ∃ db1 st1, unpack_types Args db statics acc =
          some (db1, st1, acc ++ Args.map (fun U => index_ptr.own (st1 U))) ∧
        db1.registry_ok st1 ∧ db1.tables_ok ∧
        db1.types.runningTypeIndex ≤ db.types.runningTypeIndex + Args.length ∧
        (∀ V, statics V ≠ no_type → st1 V = statics V) ∧
        (∀ U, U ∈ Args → st1 U ≠ no_type) ∧
        (∀ V, db1.find st1 V =
          if V ∈ Args then some ((db.find statics V).getD component_table.empty)
          else db.find statics V) ∧
        (∀ i t, db.m_components.getD i none = some t →
          db1.m_components.getD i none = some t) := by
  intro Args
  induction Args with
  | nil =>
    intro db statics acc hreg htab _
    exact ⟨db, statics, by simp [unpack_types], hreg, htab, by simp, fun _ _ => rfl,
      fun U h => absurd h (List.not_mem_nil _), fun V => by simp, fun _ _ h => h⟩
  | cons U rest ih =>
    intro db statics acc hreg htab hb
    simp only [List.length_cons] at hb
    obtain ⟨ti, db0, st0, h1, h2, h3, h4, h5, h6, h7, -, -, h10, h11, h12, h13⟩ :=
      ecs.table_find db statics U hreg (by omega)
    have htab0 := ecs.table_tables_ok db statics U hreg (by omega) htab ti db0 st0 h1
    obtain ⟨db1, st1, k1, k2, k3, k4, k5, k6, k7, k8⟩ :=
      ih db0 st0 (acc ++ [index_ptr.own ti]) h12 htab0 (by omega)
    have hmono : ∀ V, statics V ≠ no_type → st0 V = statics V := by
      intro V hV
      by_cases e : V = U
      · subst e; rw [(h7 hV).1]
      · exact h6 V e
    have hU1 : st1 U = ti := by rw [k5 U (by rw [h2]; exact h3), h2]
    refine ⟨db1, st1, ?_, k2, k3, by simp only [List.length_cons]; omega, ?_, ?_, ?_, ?_⟩
    · unfold unpack_types
      rw [h1]
      simp only
      rw [k1, List.map_cons, hU1, List.append_assoc]
      rfl
    · intro V hV
      rw [k5 V (by rw [hmono V hV]; exact hV), hmono V hV]
    · intro V hV
      rcases List.mem_cons.1 hV with e | e
      · rw [e, hU1]; exact h3
      · exact k6 V e
    · intro V
      rw [k7 V, h5 V]
      by_cases e1 : V ∈ rest
      · by_cases e2 : V = U
        · subst e2
          simp [e1]
        · simp [e1, e2]
      · by_cases e2 : V = U
        · subst e2
          simp [e1]
        · simp [e1, e2]
    · intro i t hit
      exact k8 i t (h13 i t hit)

/-- The second round of `table<Args>()` calls finds every table in place. -/
theorem tables_spec {T : Type} :
    ∀ (Args : List Nat) (db : ecs T) (st : Nat → Nat),
      (∀ U, U ∈ Args → st U ≠ no_type ∧ ∃ t, db.m_components.getD (st U) none = some t) →
      tables Args db st = some (Args.map st, db, st) := by
  intro Args
  induction Args with
  | nil => intro db st _; rfl
  | cons U rest ih =>
    intro db st h
    obtain ⟨hU, t, ht⟩ := h U (List.mem_cons_self _ _)
    unfold tables
    rw [ecs.table_existing db st U t hU ht]
    simp only
    rw [ih db st (fun V hV => h V (List.mem_cons_of_mem _ hV))]
    rfl

theorem contains_merge (view : data_view) (self other : table_index) (id : Nat) :
    (table_index.merge view self other).contains id = true ↔
      (self.contains id = true ∧ table_index.passes view other id) := by
  cases view with
  | PassThrough =>
    rw [table_index.contains_merge_PassThrough]
    simp [table_index.passes]
  | Invert =>
    rw [table_index.contains_merge_Invert]
    simp [table_index.passes, and_assoc]

theorem merge_all_spec {T : Type} (db : ecs T) (view : data_view) :
    ∀ (ps : List index_ptr) (res : table_index),
      (∀ p, p ∈ ps → ∃ ix, deref db p = some ix) →
      ∃ r, merge_all db view ps res = some r ∧ (res.valid → r.valid) ∧
        r.m_index_data.length = res.m_index_data.length ∧
        ∀ id, r.contains id = true ↔
          (res.contains id = true ∧
            ∀ p, p ∈ ps → ∀ ix, deref db p = some ix → table_index.passes view ix id) := by
  intro ps
  induction ps with
  | nil =>
    intro res _
    exact ⟨res, rfl, fun h => h, rfl, fun id => by simp⟩
  | cons p ps ih =>
    intro res h
    obtain ⟨ix, hix⟩ := h p (List.mem_cons_self _ _)
    obtain ⟨r, h1, h2, h3, h4⟩ := ih (res.merge view ix)
      (fun q hq => h q (List.mem_cons_of_mem _ hq))
    refine ⟨r, ?_, fun hv => h2 (table_index.merge_valid view res ix hv), ?_, ?_⟩
    · unfold merge_all
      rw [hix]
      exact h1
    · rw [h3, (table_index.merge_spec view res ix).1]
    · intro id
      rw [h4 id, contains_merge]
      simp only [List.mem_cons]
      constructor
      · rintro ⟨⟨a, b⟩, c⟩
        refine ⟨a, fun q hq jx hjx => ?_⟩
        rcases hq with e | e
        · subst e
          rw [hix] at hjx
          cases hjx
          exact b
        · exact c q e jx hjx
      · rintro ⟨a, c⟩
        exact ⟨⟨a, c p (Or.inl rfl) ix hix⟩, fun q hq jx hjx => c q (Or.inr hq) jx hjx⟩

/-- The constraint result of `for_each`: defined for a non-empty pointer
vector, valid when the first index is, and holding the ids that are in every
required index and pass every excluded one. -/
theorem resolve_spec {T : Type} (db : ecs T) (p : index_ptr) (ps not_in : List index_ptr)
    (first : table_index) (hp : deref db p = some first) (hv : first.valid)
    (hps : ∀ q, q ∈ ps → ∃ ix, deref db q = some ix)
    (hnot : ∀ q, q ∈ not_in → ∃ ix, deref db q = some ix) :
    ∃ res, resolve db (p :: ps) not_in = some res ∧ res.valid ∧
      ∀ id, res.contains id = true ↔
        ((∀ q, q ∈ p :: ps → ∀ ix, deref db q = some ix → ix.contains id = true) ∧
          ∀ q, q ∈ not_in → ∀ ix, deref db q = some ix →
            table_index.passes data_view.Invert ix id) := by
  obtain ⟨r1, a1, a2, -, a4⟩ := merge_all_spec db data_view.PassThrough ps first hps
  obtain ⟨r2, b1, b2, -, b4⟩ := merge_all_spec db data_view.Invert not_in r1 hnot
  refine ⟨r2, ?_, b2 (a2 hv), fun id => ?_⟩
  · simp only [resolve, hp, a1]
    exact b1
  · rw [b4 id, a4 id]
    constructor
    · rintro ⟨⟨c1, c2⟩, c3⟩
      refine ⟨fun q hq ix hix => ?_, c3⟩
      rcases List.mem_cons.1 hq with e | e
      · subst e
        rw [hp] at hix
        cases hix
        exact c1
      · exact c2 q e ix hix
    · rintro ⟨c1, c3⟩
      exact ⟨⟨c1 p (List.mem_cons_self _ _) first hp,
        fun q hq ix hix => c1 q (List.mem_cons_of_mem _ hq) ix hix⟩, c3⟩

theorem read_args_spec {T : Type} (db : ecs T) (n : Nat) :
    ∀ (tuple : List Nat),
      (∀ ti, ti ∈ tuple → ∃ v, slot_value db.m_components ti n = some v) →
      ∃ args, read_args db n tuple = some args ∧
        tuple.map (fun ti => slot_value db.m_components ti n) = args.map some := by
  intro tuple
  induction tuple with
  | nil => intro _; exact ⟨[], rfl, rfl⟩
  | cons ti rest ih =>
    intro h
    obtain ⟨v, hv⟩ := h ti (List.mem_cons_self _ _)
    obtain ⟨args, ha, hm⟩ := ih (fun tj hj => h tj (List.mem_cons_of_mem _ hj))
    refine ⟨v :: args, ?_, ?_⟩
    · unfold read_args
      unfold slot_value at hv
      rw [hv]
      simp only
      rw [ha]
    · rw [List.map_cons, List.map_cons, hv, hm]

theorem write_one_spec {T : Type} (n : Nat) (v : T)
    (components : List (Option (component_table T))) (ti0 ti id : Nat) :
    slot_length (components.set ti0
        ((components.getD ti0 none).map fun t => t.put n v)) ti =
      slot_length components ti ∧
    (id ≠ n → slot_value (components.set ti0
        ((components.getD ti0 none).map fun t => t.put n v)) ti id =
      slot_value components ti id) := by
  unfold slot_length slot_value
  rw [getD_set_gen]
  by_cases h : ti0 = ti ∧ ti0 < components.length
  · rw [if_pos h, h.1]
    cases components.getD ti none with
    | none => exact ⟨rfl, fun _ => rfl⟩
    | some t =>
      refine ⟨?_, fun hid => ?_⟩
      · simp [component_table.put]
      · simp only [Option.map_some', Option.bind_some, component_table.get, component_table.put]
        show (t.m_data.set n v)[id]? = t.m_data[id]?
        rw [List.getElem?_set_ne (fun e => hid e.symm)]
  · rw [if_neg h]
    exact ⟨rfl, fun _ => rfl⟩

theorem write_args_spec {T : Type} (n : Nat) :
    ∀ (tuple : List Nat) (outs : List T) (components : List (Option (component_table T)))
      (ti id : Nat),
      slot_length (write_args n tuple outs components) ti = slot_length components ti ∧
      (id ≠ n → slot_value (write_args n tuple outs components) ti id =
        slot_value components ti id) := by
  intro tuple
  induction tuple with
  | nil => intro outs components ti id; exact ⟨rfl, fun _ => rfl⟩
  | cons ti0 rest ih =>
    intro outs components ti id
    cases outs with
    | nil => exact ⟨rfl, fun _ => rfl⟩
    | cons v vs =>
      unfold write_args
      obtain ⟨a, b⟩ := ih vs (components.set ti0
        ((components.getD ti0 none).map fun t => t.put n v)) ti id
      obtain ⟨c, d⟩ := write_one_spec n v components ti0 ti id
      exact ⟨by rw [a, c], fun hid => by rw [b hid, d hid]⟩

/-- The loop of `for_each` on a valid `res`, when every member of `res` has an
allocated slot in every bound table: it ends, calls `op` once per member at or
after `n`, ascending, each time with the values the tables held at the start. -/
theorem for_each_loop_spec {T : Type} (res : table_index) (hv : res.valid)
    (op : List T → List T) (tuple : List Nat)
    (start : List (Option (component_table T)))
    (hcover : ∀ ti, ti ∈ tuple → ∀ id, res.contains id = true →
      ∃ v, slot_value start ti id = some v) :
    ∀ (fuel n : Nat) (db : ecs T) (calls : List (Nat × List T)),
      ((n = npos ∧ 0 < fuel) ∨
        (res.contains n = true ∧ 64 * res.m_index_data.length < fuel + n)) →
      (∀ ti id, n ≤ id → slot_value db.m_components ti id = slot_value start ti id) →
      ∃ db2 calls2, for_each_loop res op tuple fuel n db calls = some (db2, calls ++ calls2) ∧
        (calls2.map Prod.fst).Sorted (· < ·) ∧
        (∀ id, id ∈ calls2.map Prod.fst ↔ (res.contains id = true ∧ n ≤ id)) ∧
        (∀ id args, (id, args) ∈ calls2 →
          tuple.map (fun ti => slot_value start ti id) = args.map some) ∧
        db2.types = db.types ∧
        (∀ ti, slot_length db2.m_components ti = slot_length db.m_components ti) ∧
        (∀ ti id, res.contains id = false →
          slot_value db2.m_components ti id = slot_value db.m_components ti id) := by
  intro fuel
  induction fuel with
  | zero =>
    intro n db calls h _
    exfalso
    rcases h with ⟨-, h⟩ | ⟨h1, h2⟩
    · omega
    · have := table_index.contains_lt res n h1; omega
  | succ fuel ih =>
    intro n db calls h hsame
    unfold for_each_loop
    rcases h with ⟨h1, -⟩ | ⟨h1, h2⟩
    · rw [if_pos h1]
      refine ⟨db, [], by simp, List.sorted_nil, fun id => ?_, fun id args hm => ?_, rfl,
        fun _ => rfl, fun _ _ _ => rfl⟩
      · simp only [List.map_nil, List.not_mem_nil, false_iff, not_and]
        intro hc
        have := hv.2 id hc
        omega
      · exact absurd hm (List.not_mem_nil _)
    · have hnp := hv.2 n h1
      have hlt := table_index.contains_lt res n h1
      rw [if_neg (by omega)]
      obtain ⟨args, ha, hargs⟩ := read_args_spec db n tuple (fun ti hti => by
        rw [hsame ti n (le_refl _)]; exact hcover ti hti n h1)
      unfold make_indexed_call
      rw [ha]
      simp only
      have hmod : (n + 1) % u64 = n + 1 := Nat.mod_eq_of_lt (by unfold npos at hnp; omega)
      rw [hmod]
      obtain ⟨r, hr, hcase⟩ := table_index.next_spec res hv (n + 1)
      rw [hr]
      simp only
      have hsame2 : ∀ ti id, r ≤ id →
          slot_value (ecs.mk (write_args n tuple (op args) db.m_components) db.types
            db.entities).m_components ti id = slot_value start ti id := by
        intro ti id hid
        have hge : n + 1 ≤ r := by
          rcases hcase with ⟨e, -⟩ | ⟨-, -, e, -⟩
          · rw [e]; omega
          · exact e
        show slot_value (write_args n tuple (op args) db.m_components) ti id = _
        rw [(write_args_spec n tuple (op args) db.m_components ti id).2 (by omega)]
        exact hsame ti id (by omega)
      have hpre : (r = npos ∧ 0 < fuel) ∨
          (res.contains r = true ∧ 64 * res.m_index_data.length < fuel + r) := by
        rcases hcase with ⟨e, -⟩ | ⟨-, e1, e2, -⟩
        · exact Or.inl ⟨e, by omega⟩
        · exact Or.inr ⟨e1, by omega⟩
      obtain ⟨db2, calls2, k1, k2, k3, k4, k5, k6, k7⟩ :=
        ih r (ecs.mk (write_args n tuple (op args) db.m_components) db.types db.entities)
          (calls ++ [(n, args)]) hpre hsame2
      refine ⟨db2, (n, args) :: calls2, ?_, ?_, fun id => ?_, fun id as hm => ?_, k5,
        fun ti => ?_, fun ti id hid => ?_⟩
      · rw [k1, List.append_assoc]; rfl
      · rw [List.map_cons, List.sorted_cons]
        refine ⟨fun b hb => ?_, k2⟩
        have := ((k3 b).1 hb).2
        rcases hcase with ⟨e, -⟩ | ⟨-, -, e, -⟩
        · show n < b
          omega
        · show n < b
          omega
      · rw [List.map_cons, List.mem_cons, k3]
        constructor
        · rintro (e | ⟨e1, e2⟩)
          · rw [e]; exact ⟨h1, le_refl _⟩
          · refine ⟨e1, ?_⟩
            rcases hcase with ⟨e, -⟩ | ⟨-, -, e, -⟩
            · omega
            · omega
        · rintro ⟨e1, e2⟩
          by_cases e : id = n
          · exact Or.inl e
          · right
            refine ⟨e1, ?_⟩
            rcases hcase with ⟨-, e3⟩ | ⟨-, -, -, e3⟩
            · rw [e3 id (by omega)] at e1
              exact absurd e1 (by simp)
            · exact e3 id e1 (by omega)
      · rcases List.mem_cons.1 hm with e | e
        · cases e
          rw [← hargs]
          apply List.map_congr_left
          intro ti _
          exact (hsame ti n (le_refl _)).symm
        · exact k4 id as e
      · rw [k6 ti]
        exact (write_args_spec n tuple (op args) db.m_components ti 0).1
      · rw [k7 ti id hid]
        show slot_value (write_args n tuple (op args) db.m_components) ti id = _
        apply (write_args_spec n tuple (op args) db.m_components ti id).2
        intro e
        rw [e, h1] at hid
        exact absurd hid (by simp)

theorem has_eq {T : Type} (db : ecs T) (statics : Nat → Nat) (U id : Nat) :
    db.has statics U id =
      ((db.find statics U).getD component_table.empty).m_index.contains id := by
  unfold ecs.has
  cases db.find statics U with
  | none => simp [component_table.empty, table_index.contains, table_index.empty]
  | some t => rfl

theorem value_eq {T : Type} (db : ecs T) (statics : Nat → Nat) (U id : Nat) :
    db.value statics U id = ((db.find statics U).getD component_table.empty).get id := by
  unfold ecs.value
  cases db.find statics U with
  | none => simp [component_table.empty, component_table.get]
  | some t => rfl

theorem deref_valid {T : Type} (db : ecs T) (htab : db.tables_ok) (i : Nat)
    (ix : table_index) (h : deref db (index_ptr.own i) = some ix) : ix.valid := by
  simp only [deref] at h
  cases hc : db.m_components.getD i none with
  | none => rw [hc] at h; exact absurd h (by simp)
  | some t =>
    rw [hc] at h
    simp only [Option.map_some', Option.some.injEq] at h
    rw [← h]
    exact (htab i t hc).1

theorem deref_persist {T : Type} (db db1 : ecs T)
    (hper : ∀ i t, db.m_components.getD i none = some t →
      db1.m_components.getD i none = some t)
    (q : index_ptr) (ix : table_index) (h : deref db q = some ix) :
    deref db1 q = some ix := by
  cases q with
  | ext jx => exact h
  | own i =>
    simp only [deref] at h ⊢
    cases hc : db.m_components.getD i none with
    | none => rw [hc] at h; exact absurd h (by simp)
    | some t => rw [hc] at h; rw [hper i t hc]; exact h

/-- What `iterator::for_each` does in a single-store process whose tables
satisfy the table invariant: it is defined, and it calls `op` once for every id
that is in every required index, in the table of every parameter type and
passes every excluded index, in ascending order, with the values the tables of
the parameter types hold for that id. -/
theorem for_each_spec {T : Type} (self : iterator) (db : ecs T) (statics : Nat → Nat)
    (Args : List Nat) (op : List T → List T)
    (hreg : db.registry_ok statics) (htab : db.tables_ok)
    (hb : 3 * (db.types.runningTypeIndex + Args.length) < u64)
    (hne : self.indices ≠ [] ∨ Args ≠ [])
    (hptr : ∀ p, p ∈ self.indices ++ self.not_in → ∃ ix, deref db p = some ix)
    (hval : ∀ ix, index_ptr.ext ix ∈ self.indices → ix.valid) :
    ∃ db2 st2 calls, self.for_each db statics Args op = some (db2, st2, calls) ∧
      (calls.map Prod.fst).Sorted (· < ·) ∧
      (∀ id, id ∈ calls.map Prod.fst ↔
        ((∀ p, p ∈ self.indices → ∀ ix, deref db p = some ix → ix.contains id = true) ∧
         (∀ U, U ∈ Args → db.has statics U id = true) ∧
         (∀ p, p ∈ self.not_in → ∀ ix, deref db p = some ix →
            table_index.passes data_view.Invert ix id))) ∧
      (∀ id args, (id, args) ∈ calls →
        Args.map (fun U => db.value statics U id) = args.map some) := by
  obtain ⟨db1, st1, u1, u2, u3, -, -, u6, u7, u8⟩ :=
    unpack_types_spec Args db statics self.indices hreg htab hb
  have F2 : ∀ U, U ∈ Args → db1.m_components.getD (st1 U) none =
      some ((db.find statics U).getD component_table.empty) := by
    intro U hU
    rw [← ecs.find_eq_getD db1 st1 U (u6 U hU), u7 U, if_pos hU]
  have F3 : ∀ U, U ∈ Args → deref db1 (index_ptr.own (st1 U)) =
      some ((db.find statics U).getD component_table.empty).m_index := by
    intro U hU
    simp only [deref]
    rw [F2 U hU]
    rfl
  have hD : ∀ q, q ∈ self.indices ++ self.not_in → ∀ ix,
      (deref db1 q = some ix ↔ deref db q = some ix) := by
    intro q hq ix
    obtain ⟨jx, hjx⟩ := hptr q hq
    rw [hjx, deref_persist db db1 u8 q jx hjx]
  have hall : ∀ q, q ∈ self.indices ++ Args.map (fun U => index_ptr.own (st1 U)) →
      ∃ ix, deref db1 q = some ix ∧ ix.valid := by
    intro q hq
    rcases List.mem_append.1 hq with h | h
    · obtain ⟨jx, hjx⟩ := hptr q (List.mem_append_left _ h)
      refine ⟨jx, deref_persist db db1 u8 q jx hjx, ?_⟩
      cases q with
      | ext kx =>
        have e : kx = jx := by
          simpa [deref] using hjx
        rw [← e]; exact hval kx h
      | own i => exact deref_valid db htab i jx hjx
    · obtain ⟨U, hU, rfl⟩ := List.mem_map.1 h
      exact ⟨_, F3 U hU, deref_valid db1 u3 _ _ (F3 U hU)⟩
  rcases hix : self.indices ++ Args.map (fun U => index_ptr.own (st1 U)) with _ | ⟨p, ps⟩
  · exfalso
    rw [List.append_eq_nil, List.map_eq_nil_iff] at hix
    rcases hne with h | h
    · exact h hix.1
    · exact h hix.2
  rw [hix] at u1 hall
  obtain ⟨first, hfirst, hfv⟩ := hall p (List.mem_cons_self _ _)
  obtain ⟨res, hres, hrv, hrm⟩ := resolve_spec db1 p ps self.not_in first hfirst hfv
    (fun q hq => by
      obtain ⟨ix, h1, -⟩ := hall q (List.mem_cons_of_mem _ hq)
      exact ⟨ix, h1⟩)
    (fun q hq => by
      obtain ⟨jx, hjx⟩ := hptr q (List.mem_append_right _ hq)
      exact ⟨jx, deref_persist db db1 u8 q jx hjx⟩)
  have htables := tables_spec Args db1 st1 (fun U hU => ⟨u6 U hU, _, F2 U hU⟩)
  obtain ⟨n0, hn0, hcase⟩ := table_index.next_spec res hrv 0
  have hmem : ∀ id, res.contains id = true ↔
      ((∀ p, p ∈ self.indices → ∀ ix, deref db p = some ix → ix.contains id = true) ∧
       (∀ U, U ∈ Args → db.has statics U id = true) ∧
       (∀ p, p ∈ self.not_in → ∀ ix, deref db p = some ix →
          table_index.passes data_view.Invert ix id)) := by
    intro id
    rw [hrm id, ← hix]
    constructor
    · rintro ⟨a, b⟩
      refine ⟨fun q hq ix hq2 => ?_, fun U hU => ?_, fun q hq ix hq2 => ?_⟩
      · exact a q (List.mem_append_left _ hq) ix
          ((hD q (List.mem_append_left _ hq) ix).2 hq2)
      · rw [has_eq]
        exact a _ (List.mem_append_right _ (List.mem_map.2 ⟨U, hU, rfl⟩)) _ (F3 U hU)
      · exact b q hq ix ((hD q (List.mem_append_right _ hq) ix).2 hq2)
    · rintro ⟨a, b, c⟩
      refine ⟨fun q hq ix hq2 => ?_, fun q hq ix hq2 => ?_⟩
      · rcases List.mem_append.1 hq with h | h
        · exact a q h ix ((hD q (List.mem_append_left _ h) ix).1 hq2)
        · obtain ⟨U, hU, rfl⟩ := List.mem_map.1 h
          rw [F3 U hU] at hq2
          cases hq2
          rw [← has_eq]
          exact b U hU
      · exact c q hq ix ((hD q (List.mem_append_right _ hq) ix).1 hq2)
  have hcover : ∀ ti, ti ∈ Args.map st1 → ∀ id, res.contains id = true →
      ∃ v, slot_value db1.m_components ti id = some v := by
    intro ti hti id hid
    obtain ⟨U, hU, rfl⟩ := List.mem_map.1 hti
    have hh := ((hmem id).1 hid).2.1 U hU
    rw [has_eq] at hh
    have hlt := (u3 _ _ (F2 U hU)).2.1 id hh
    unfold slot_value
    rw [F2 U hU]
    simp only [Option.bind_some, component_table.get]
    exact ⟨_, List.getElem?_eq_getElem hlt⟩
  obtain ⟨db2, calls, l1, l2, l3, l4, -⟩ := for_each_loop_spec res hrv op (Args.map st1)
    db1.m_components hcover (64 * res.m_index_data.length + 1) n0 db1 []
    (by
      rcases hcase with ⟨e, -⟩ | ⟨-, e, -, -⟩
      · exact Or.inl ⟨e, by omega⟩
      · exact Or.inr ⟨e, by omega⟩)
    (fun _ _ _ => rfl)
  refine ⟨db2, st1, calls, ?_, l2, fun id => ?_, fun id args hm => ?_⟩
  · simp only [for_each, u1, hres, htables, hn0, l1, List.nil_append, Option.map_some']
  · rw [l3 id, ← hmem id]
    constructor
    · exact fun h => h.1
    · intro h
      refine ⟨h, ?_⟩
      rcases hcase with ⟨-, e⟩ | ⟨-, -, -, e⟩
      · rw [e id (Nat.zero_le _)] at h
        exact absurd h (by simp)
      · exact e id h (Nat.zero_le _)
  · rw [← l4 id args hm, List.map_map]
    apply List.map_congr_left
    intro U hU
    simp only [Function.comp]
    rw [value_eq]
    unfold slot_value
    rw [F2 U hU]
    rfl

end iterator

/-- C1: in a single-store process whose tables satisfy the table invariant,
`for_each` with an operation bound to one or more component types (no
inclusions, no exclusions) is defined and invokes the operation exactly once
for each entity id that is present in the table of every bound type and for no
other id, in strictly ascending id order; at each call the arguments are the
values stored for that id in the bound tables, in parameter order. -/
theorem for_each_visits_ids_present_in_all_bound_tables {T : Type} (db : ecs T)
    (statics : Nat → Nat) (Args : List Nat) (op : List T → List T)
    (hreg : db.registry_ok statics) (htab : db.tables_ok)
    (hb : 3 * (db.types.runningTypeIndex + Args.length) < u64) (hne : Args ≠ []) :
    ∃ db2 st2 calls, db.for_each statics Args op = some (db2, st2, calls) ∧
      (calls.map Prod.fst).Sorted (· < ·) ∧
      (∀ id, id ∈ calls.map Prod.fst ↔ ∀ U, U ∈ Args → db.has statics U id = true) ∧
      (∀ id args, (id, args) ∈ calls →
        Args.map (fun U => db.value statics U id) = args.map some) := by
  obtain ⟨db2, st2, calls, h1, h2, h3, h4⟩ := iterator.for_each_spec iterator.new db statics
    Args op hreg htab hb (Or.inr hne)
    (fun p hp => by simp [iterator.new] at hp)
    (fun ix hix => by simp [iterator.new] at hix)
  refine ⟨db2, st2, calls, h1, h2, fun id => ?_, h4⟩
  rw [h3 id]
  simp [iterator.new]

/-! ## The scenario store -/

theorem scenario_built :
    ((ecs.new : ecs Nat).run scenario_calls fresh_statics).map
        (fun r => (r.1, r.2.1 0, r.2.1 1, r.2.2)) =
      some (scenario_db, scenario_statics 0, scenario_statics 1, [1, 2, 3, 4, 5]) := by
  decide

theorem component_table.valid_of_small {T : Type} (t : component_table T)
    (hw : ∀ w ∈ t.m_index.m_index_data, w < u64)
    (hl : t.m_index.m_index_data.length < 2 ^ 58)
    (hb : ∀ id, id < 64 * t.m_index.m_index_data.length →
      t.m_index.contains id = true → id < t.m_data.length)
    (hn : t.m_data.length ≤ npos) : t.valid :=
  ⟨table_index.valid_of_short _ hw hl,
    fun id h => hb id (table_index.contains_lt _ _ h) h, hn⟩

theorem scenario_registry_ok : scenario_db.registry_ok scenario_statics := by
  have hn0 : no_type ≠ 0 := by decide
  have hn1 : no_type ≠ 1 := by decide
  refine ⟨fun U h => ?_, fun U V h e => ?_, fun i hi => ?_⟩
  · unfold scenario_statics at h ⊢
    show _ < 2
    split_ifs at h ⊢ <;> omega
  · unfold scenario_statics at h e
    split_ifs at h e <;> omega
  · exact getD_none_of_length_le _ _ hi

theorem scenario_tables_ok : scenario_db.tables_ok := by
  intro i t h
  have h2 : [some (component_table.mk [0, 10, 20, 0, 40, 0, 0] ⟨[22]⟩),
      some (component_table.mk [0, 0, 21, 0, 41, 51, 0] ⟨[52]⟩)].getD i none = some t := h
  match i, h2 with
  | 0, h2 =>
    cases h2
    exact component_table.valid_of_small _ (by decide) (by decide) (by decide) (by decide)
  | 1, h2 =>
    cases h2
    exact component_table.valid_of_small _ (by decide) (by decide) (by decide) (by decide)
  | i + 2, h2 => exact absurd h2 (by simp)

theorem for_each_visits_ids_present_in_all_bound_tables_witness :
    scenario_db.registry_ok scenario_statics ∧ scenario_db.tables_ok ∧
    3 * (scenario_db.types.runningTypeIndex + [0, 1].length) < u64 ∧ [0, 1] ≠ [] ∧
    (∃ db2 st2 calls,
      scenario_db.for_each scenario_statics [0, 1] (fun l => l.reverse) =
        some (db2, st2, calls) ∧
      (calls.map Prod.fst).Sorted (· < ·) ∧
      (∀ id, id ∈ calls.map Prod.fst ↔
        ∀ U, U ∈ [0, 1] → scenario_db.has scenario_statics U id = true) ∧
      (∀ id args, (id, args) ∈ calls →
        [0, 1].map (fun U => scenario_db.value scenario_statics U id) = args.map some)) ∧
    (scenario_db.for_each scenario_statics [0, 1] (fun l => l.reverse)).map
        (fun r => r.2.2) = some [(2, [20, 21]), (4, [40, 41])] ∧
    (scenario_db.for_each scenario_statics [0] (fun l => l)).map
        (fun r => r.2.2) = some [(1, [10]), (2, [20]), (4, [40])] :=
  ⟨scenario_registry_ok, scenario_tables_ok, by decide, by decide,
    for_each_visits_ids_present_in_all_bound_tables scenario_db scenario_statics [0, 1]
      (fun l => l.reverse) scenario_registry_ok scenario_tables_ok (by decide) (by decide),
    by decide, by decide⟩

/-- C2 fails on the code: in the store where type 0 holds the ids 1 and 70
(index words `[2, 64]`), a pass requiring type 0 and excluding the index `{1}`
(one word, `[2]`, in the `not_in` list as `unpack_exclude` leaves it) visits
nothing, although 70 is in the required index and not in the excluded one:
`merge<Invert>` zeroes the words of the result beyond the length of the
excluded index. The public call `exclude` that fills `not_in` is itself
undefined, so no run of the query visits 70. -/
theorem for_each_exclusion_drops_ids_beyond_excluded_index :
    (((ecs.new : ecs Nat).run
        [.attachToEntity 1 [(0, 10)], .attachToEntity 70 [(0, 70)]] fresh_statics).map
      fun r => (r.1.m_components.map fun t => t.map fun c => c.m_index)) =
      some [some ⟨[2, 64]⟩] ∧
    (table_index.mk [2, 64]).contains 70 = true ∧
    (table_index.mk [2]).contains 70 = false ∧
    (((ecs.new : ecs Nat).run
        [.attachToEntity 1 [(0, 10)], .attachToEntity 70 [(0, 70)]] fresh_statics).bind
      fun r => ((iterator.new.unpack_exclude [index_ptr.ext ⟨[2]⟩]).for_each r.1 r.2.1 [0]
        (fun l => l)).map fun q => q.2.2) = some [] ∧
    (((ecs.new : ecs Nat).run
        [.attachToEntity 1 [(0, 10)], .attachToEntity 70 [(0, 70)]] fresh_statics).bind
      fun r => (iterator.new.exclude [index_ptr.ext ⟨[2]⟩]).bind fun it =>
        (it.for_each r.1 r.2.1 [0] (fun l => l)).map fun q => q.2.2) = none := by
  decide

/-! ## The invariants of a single-store process -/

namespace ecs

theorem tables_ok_set {T : Type} (db : ecs T) (ti : Nat) (t : component_table T)
    (htab : db.tables_ok) (ht : t.valid) :
    (ecs.mk (db.m_components.set ti (some t)) db.types db.entities).tables_ok := by
  intro i t2 hit
  have hit2 : (db.m_components.set ti (some t)).getD i none = some t2 := hit
  rw [getD_set_gen] at hit2
  by_cases hi : ti = i ∧ ti < db.m_components.length
  · rw [if_pos hi] at hit2
    cases hit2
    exact ht
  · rw [if_neg hi] at hit2
    exact htab i t2 hit2

/-- A defined `addComponent` keeps the invariants. -/
theorem addComponent_some {T : Type} [Inhabited T] (self : ecs T) (statics : Nat → Nat)
    (id U : Nat) (c : T) (db : ecs T) (st : Nat → Nat)
    (h : self.addComponent statics id U c = some (db, st))
    (hreg : self.registry_ok statics) (htab : self.tables_ok)
    (hb : 3 * self.types.runningTypeIndex < u64) :
    db.registry_ok st ∧ db.tables_ok ∧
      db.types.runningTypeIndex ≤ self.types.runningTypeIndex + 1 := by
  obtain ⟨ti, db0, st0, h1, h2, h3, h4, -, -, -, -, -, h10, -, h12, -⟩ :=
    table_find self statics U hreg hb
  have htab0 := table_tables_ok self statics U hreg hb htab ti db0 st0 h1
  have hlen := lt_length_of_getD_some _ _ _ h4
  unfold addComponent at h
  rw [h1] at h
  simp only [h4] at h
  cases hins : ((self.find statics U).getD component_table.empty).insert id c with
  | none => rw [hins] at h; exact absurd h (by simp)
  | some t =>
    rw [hins] at h
    simp only [Option.some.injEq, Prod.mk.injEq] at h
    obtain ⟨e1, e2⟩ := h
    subst e1 e2 h2
    have htv := component_table.insert_some_valid _ id c t hins (htab0 _ _ h4)
    exact ⟨(find_set db0 st0 U t h12 h3 hlen).2, tables_ok_set db0 _ t htab0 htv, h10⟩

/-- A defined `removeComponent` keeps the invariants. -/
theorem removeComponent_some {T : Type} (self : ecs T) (statics : Nat → Nat)
    (id U : Nat) (db : ecs T) (st : Nat → Nat)
    (h : self.removeComponent statics id U = some (db, st))
    (hreg : self.registry_ok statics) (htab : self.tables_ok)
    (hb : 3 * self.types.runningTypeIndex < u64) :
    db.registry_ok st ∧ db.tables_ok ∧
      db.types.runningTypeIndex ≤ self.types.runningTypeIndex + 1 := by
  obtain ⟨ti, db0, st0, h1, h2, h3, h4, -, -, -, -, -, h10, -, h12, -⟩ :=
    table_find self statics U hreg hb
  have htab0 := table_tables_ok self statics U hreg hb htab ti db0 st0 h1
  have hlen := lt_length_of_getD_some _ _ _ h4
  unfold removeComponent at h
  rw [h1] at h
  simp only [h4] at h
  cases hins : ((self.find statics U).getD component_table.empty).erase id with
  | none => rw [hins] at h; exact absurd h (by simp)
  | some t =>
    rw [hins] at h
    simp only [Option.some.injEq, Prod.mk.injEq] at h
    obtain ⟨e1, e2⟩ := h
    subst e1 e2 h2
    have htv := component_table.erase_some_valid _ id t hins (htab0 _ _ h4)
    exact ⟨(find_set db0 st0 U t h12 h3 hlen).2, tables_ok_set db0 _ t htab0 htv, h10⟩

theorem addComponents_some {T : Type} [Inhabited T] (id : Nat) :
    ∀ (components : List (Nat × T)) (self : ecs T) (statics : Nat → Nat) (db : ecs T)
      (st : Nat → Nat), addComponents id components self statics = some (db, st) →
      self.registry_ok statics → self.tables_ok →
      3 * (self.types.runningTypeIndex + components.length) < u64 →
      db.registry_ok st ∧ db.tables_ok ∧
        db.types.runningTypeIndex ≤ self.types.runningTypeIndex + components.length := by
  intro components
  induction components with
  | nil =>
    intro self statics db st h hreg htab _
    cases h
    exact ⟨hreg, htab, le_refl _⟩
  | cons head rest ih =>
    intro self statics db st h hreg htab hb
    obtain ⟨U, c⟩ := head
    simp only [List.length_cons] at hb ⊢
    unfold addComponents at h
    split at h
    · exact absurd h (by simp)
    · rename_i db1 st1 h1
      obtain ⟨a1, a2, a3⟩ := addComponent_some self statics id U c db1 st1 h1 hreg htab
        (by omega)
      obtain ⟨b1, b2, b3⟩ := ih db1 st1 db st h a1 a2 (by omega)
      exact ⟨b1, b2, by omega⟩

theorem removeComponents_some {T : Type} (id : Nat) :
    ∀ (Components : List Nat) (self : ecs T) (statics : Nat → Nat) (db : ecs T)
      (st : Nat → Nat), removeComponents id Components self statics = some (db, st) →
      self.registry_ok statics → self.tables_ok →
      3 * (self.types.runningTypeIndex + Components.length) < u64 →
      db.registry_ok st ∧ db.tables_ok ∧
        db.types.runningTypeIndex ≤ self.types.runningTypeIndex + Components.length := by
  intro Components
  induction Components with
  | nil =>
    intro self statics db st h hreg htab _
    cases h
    exact ⟨hreg, htab, le_refl _⟩
  | cons U rest ih =>
    intro self statics db st h hreg htab hb
    simp only [List.length_cons] at hb ⊢
    unfold removeComponents at h
    split at h
    · exact absurd h (by simp)
    · rename_i db1 st1 h1
      obtain ⟨a1, a2, a3⟩ := removeComponent_some self statics id U db1 st1 h1 hreg htab
        (by omega)
      obtain ⟨b1, b2, b3⟩ := ih db1 st1 db st h a1 a2 (by omega)
      exact ⟨b1, b2, by omega⟩

end ecs

namespace iterator

theorem write_one_shape {T : Type} (n : Nat) (v : T)
    (components : List (Option (component_table T))) (ti0 ti : Nat) :
    slot_shape (components.set ti0
        ((components.getD ti0 none).map fun t => t.put n v)) ti =
      slot_shape components ti := by
  unfold slot_shape
  rw [getD_set_gen]
  by_cases h : ti0 = ti ∧ ti0 < components.length
  · rw [if_pos h, h.1]
    cases components.getD ti none with
    | none => rfl
    | some t => simp [component_table.put]
  · rw [if_neg h]

theorem write_args_shape {T : Type} (n : Nat) :
    ∀ (tuple : List Nat) (outs : List T) (components : List (Option (component_table T)))
      (ti : Nat),
      slot_shape (write_args n tuple outs components) ti = slot_shape components ti := by
  intro tuple
  induction tuple with
  | nil => intro outs components ti; rfl
  | cons ti0 rest ih =>
    intro outs components ti
    cases outs with
    | nil => rfl
    | cons v vs =>
      unfold write_args
      rw [ih vs _ ti, write_one_shape]

/-- A defined pass of the loop leaves `types` and the shape of every table
(its index and the length of its array) as they were. -/
theorem for_each_loop_shape {T : Type} (res : table_index) (op : List T → List T)
    (tuple : List Nat) :
    ∀ (fuel n : Nat) (db : ecs T) (calls : List (Nat × List T)) (db2 : ecs T)
      (calls2 : List (Nat × List T)),
      for_each_loop res op tuple fuel n db calls = some (db2, calls2) →
      db2.types = db.types ∧
        ∀ ti, slot_shape db2.m_components ti = slot_shape db.m_components ti := by
  intro fuel
  induction fuel with
  | zero => intro n db calls db2 calls2 h; exact absurd h (by simp [for_each_loop])
  | succ fuel ih =>
    intro n db calls db2 calls2 h
    unfold for_each_loop at h
    split at h
    · cases h; exact ⟨rfl, fun _ => rfl⟩
    · split at h
      · exact absurd h (by simp)
      · rename_i db1 args h1
        split at h
        · exact absurd h (by simp)
        · obtain ⟨a, b⟩ := ih _ _ _ _ _ h
          unfold make_indexed_call at h1
          split at h1
          · exact absurd h1 (by simp)
          · simp only [Option.some.injEq, Prod.mk.injEq] at h1
            obtain ⟨e1, -⟩ := h1
            subst e1
            refine ⟨a, fun ti => ?_⟩
            rw [b ti]
            exact write_args_shape n tuple _ db.m_components ti

theorem shape_tables_ok {T : Type} (db db2 : ecs T) (htab : db.tables_ok)
    (h : ∀ ti, slot_shape db2.m_components ti = slot_shape db.m_components ti) :
    db2.tables_ok := by
  intro i t2 hit
  have := h i
  unfold slot_shape at this
  rw [hit] at this
  cases hc : db.m_components.getD i none with
  | none => rw [hc] at this; exact absurd this (by simp)
  | some t =>
    rw [hc] at this
    simp only [Option.map_some', Option.some.injEq, Prod.mk.injEq] at this
    have hv := htab i t hc
    refine ⟨by rw [this.1]; exact hv.1, fun id hid => ?_, by rw [this.2]; exact hv.2.2⟩
    rw [this.2]
    rw [this.1] at hid
    exact hv.2.1 id hid

theorem shape_registry_ok {T : Type} (db db2 : ecs T) (st : Nat → Nat)
    (hreg : db.registry_ok st) (ht : db2.types = db.types)
    (h : ∀ ti, slot_shape db2.m_components ti = slot_shape db.m_components ti) :
    db2.registry_ok st := by
  refine ⟨fun U hU => by rw [ht]; exact hreg.1 U hU, hreg.2.1, fun i hi => ?_⟩
  rw [ht] at hi
  have := h i
  unfold slot_shape at this
  rw [hreg.2.2 i hi] at this
  cases hc : db2.m_components.getD i none with
  | none => rfl
  | some t => rw [hc] at this; exact absurd this (by simp)

/-- A defined `for_each` keeps the invariants. -/
theorem for_each_some {T : Type} (self : iterator) (db : ecs T) (statics : Nat → Nat)
    (Args : List Nat) (op : List T → List T) (db2 : ecs T) (st2 : Nat → Nat)
    (calls : List (Nat × List T))
    (h : self.for_each db statics Args op = some (db2, st2, calls))
    (hreg : db.registry_ok statics) (htab : db.tables_ok)
    (hb : 3 * (db.types.runningTypeIndex + Args.length) < u64) :
    db2.registry_ok st2 ∧ db2.tables_ok ∧
      db2.types.runningTypeIndex ≤ db.types.runningTypeIndex + Args.length := by
  obtain ⟨db1, st1, u1, u2, u3, u4, -, u6, u7, -⟩ :=
    unpack_types_spec Args db statics self.indices hreg htab hb
  have F2 : ∀ U, U ∈ Args → db1.m_components.getD (st1 U) none =
      some ((db.find statics U).getD component_table.empty) := by
    intro U hU
    rw [← ecs.find_eq_getD db1 st1 U (u6 U hU), u7 U, if_pos hU]
  have htables := tables_spec Args db1 st1 (fun U hU => ⟨u6 U hU, _, F2 U hU⟩)
  unfold for_each at h
  rw [u1] at h
  simp only at h
  split at h
  · exact absurd h (by simp)
  · rename_i res hres
    rw [htables] at h
    simp only at h
    split at h
    · exact absurd h (by simp)
    · rename_i n hn
      cases hl : for_each_loop res op (Args.map st1) (64 * res.m_index_data.length + 1) n
          db1 [] with
      | none => rw [hl] at h; exact absurd h (by simp)
      | some r =>
        rw [hl] at h
        obtain ⟨db4, c4⟩ := r
        simp only [Option.map_some', Option.some.injEq, Prod.mk.injEq] at h
        obtain ⟨e1, e2, -⟩ := h
        subst e1 e2
        obtain ⟨a, b⟩ := for_each_loop_shape _ _ _ _ _ _ _ _ _ hl
        exact ⟨shape_registry_ok db1 db4 st1 u2 a b, shape_tables_ok db1 db4 u3 b,
          by rw [a]; exact u4⟩

end iterator

namespace ecs

/-- A defined call keeps the invariants. -/
theorem step_some {T : Type} [Inhabited T] (self : ecs T) (statics : Nat → Nat)
    (c : call T) (db : ecs T) (st : Nat → Nat) (ids : List Nat)
    (h : self.step statics c = some (db, st, ids))
    (hreg : self.registry_ok statics) (htab : self.tables_ok)
    (hb : 3 * (self.types.runningTypeIndex + c.arity) < u64) :
    db.registry_ok st ∧ db.tables_ok ∧
      db.types.runningTypeIndex ≤ self.types.runningTypeIndex + c.arity := by
  cases c with
  | create components =>
    simp only [step, create] at h
    cases ha : addComponents self.entities.generateOne.1 components
        ⟨self.m_components, self.types, self.entities.generateOne.2⟩ statics with
    | none => rw [ha] at h; exact absurd h (by simp)
    | some r =>
      rw [ha] at h
      obtain ⟨db1, st1⟩ := r
      simp only [Option.map_some', Option.some.injEq, Prod.mk.injEq] at h
      obtain ⟨e1, e2, -⟩ := h
      subst e1 e2
      exact addComponents_some _ components
        ⟨self.m_components, self.types, self.entities.generateOne.2⟩ statics db1 st1 ha
        ⟨hreg.1, hreg.2.1, hreg.2.2⟩ htab hb
  | attachToEntity id components =>
    simp only [step, attachToEntity] at h
    cases ha : addComponents id components self statics with
    | none => rw [ha] at h; exact absurd h (by simp)
    | some r =>
      rw [ha] at h
      obtain ⟨db1, st1⟩ := r
      simp only [Option.map_some', Option.some.injEq, Prod.mk.injEq] at h
      obtain ⟨e1, e2, -⟩ := h
      subst e1 e2
      exact addComponents_some _ components _ statics db1 st1 ha hreg htab hb
  | removeFromEntity id Components =>
    simp only [step, removeFromEntity] at h
    cases ha : removeComponents id Components self statics with
    | none => rw [ha] at h; exact absurd h (by simp)
    | some r =>
      rw [ha] at h
      obtain ⟨db1, st1⟩ := r
      simp only [Option.map_some', Option.some.injEq, Prod.mk.injEq] at h
      obtain ⟨e1, e2, -⟩ := h
      subst e1 e2
      exact removeComponents_some _ Components _ statics db1 st1 ha hreg htab hb
  | for_each it Args op =>
    simp only [step] at h
    cases ha : it.for_each self statics Args op with
    | none => rw [ha] at h; exact absurd h (by simp)
    | some r =>
      rw [ha] at h
      obtain ⟨db1, st1, calls⟩ := r
      simp only [Option.map_some', Option.some.injEq, Prod.mk.injEq] at h
      obtain ⟨e1, e2, -⟩ := h
      subst e1 e2
      exact iterator.for_each_some it self statics Args op db1 st1 calls ha hreg htab hb

/-- Every store reached by a defined run of calls in a single-store process
satisfies the registry and the table invariants, as long as the number of
component types named stays far from 2^64. -/
theorem run_invariant {T : Type} [Inhabited T] :
    ∀ (calls : List (call T)) (self : ecs T) (statics : Nat → Nat) (db : ecs T)
      (st : Nat → Nat) (ids : List Nat),
      run calls self statics = some (db, st, ids) →
      self.registry_ok statics → self.tables_ok →
      3 * (self.types.runningTypeIndex + (calls.map call.arity).sum) < u64 →
      db.registry_ok st ∧ db.tables_ok ∧
        db.types.runningTypeIndex ≤
          self.types.runningTypeIndex + (calls.map call.arity).sum := by
  intro calls
  induction calls with
  | nil =>
    intro self statics db st ids h hreg htab _
    cases h
    exact ⟨hreg, htab, le_refl _⟩
  | cons c rest ih =>
    intro self statics db st ids h hreg htab hb
    simp only [List.map_cons, List.sum_cons] at hb ⊢
    unfold run at h
    split at h
    · exact absurd h (by simp)
    · rename_i db1 st1 ids1 h1
      cases hr : run rest db1 st1 with
      | none => rw [hr] at h; exact absurd h (by simp)
      | some r =>
        rw [hr] at h
        obtain ⟨db2, st2, ids2⟩ := r
        simp only [Option.map_some', Option.some.injEq, Prod.mk.injEq] at h
        obtain ⟨e1, e2, -⟩ := h
        subst e1 e2
        obtain ⟨a1, a2, a3⟩ := step_some self statics c db1 st1 ids1 h1 hreg htab (by omega)
        obtain ⟨b1, b2, b3⟩ := ih db1 st1 db2 st2 ids2 hr a1 a2 (by omega)
        exact ⟨b1, b2, by omega⟩

theorem tables_ok_new {T : Type} : (ecs.new : ecs T).tables_ok := by
  intro i t h
  simp [ecs.new] at h

end ecs

/-- C7 fails on the code: `insert(6148914691236517206, v)` on an empty table
computes the new length `((3 * id) >> 1) + 1` as `2` in 64-bit arithmetic, and
the write to slot `id` is outside the array. -/
theorem insert_wraps_and_writes_out_of_bounds :
    (((3 * 6148914691236517206) % u64) >>> 1) + 1 = 2 ∧
    (component_table.empty : component_table Nat).insert 6148914691236517206 7 = none := by
  decide

/-- C8: in a table with a valid index in which `id` is present, `erase(id)` is
defined, keeps every stored slot value, removes `id` from the presence index,
keeps the membership of every other id, and `next` never returns `id`
afterwards. -/
theorem erase_removes_exactly_id {T : Type} (self : component_table T) (id : Nat)
    (hv : self.m_index.valid) (hp : self.m_index.contains id = true) :
    ∃ r, self.erase id = some r ∧ r.m_data = self.m_data ∧
      r.m_index.contains id = false ∧
      (∀ j, j ≠ id → r.m_index.contains j = self.m_index.contains j) ∧
      ∀ firstAllowed, ∃ n, r.m_index.next firstAllowed = some n ∧ n ≠ id := by
  have hlt := table_index.contains_lt _ _ hp
  obtain ⟨ix, hix, -, hmem, hval⟩ := table_index.reset_spec self.m_index id (by omega)
  refine ⟨⟨self.m_data, ix⟩, by simp [component_table.erase, hix], rfl, ?_, ?_, ?_⟩
  · rw [hmem]; simp
  · intro j hj; rw [hmem]; simp [hj]
  · intro firstAllowed
    obtain ⟨n, hn, h⟩ := table_index.next_spec ix (hval hv) firstAllowed
    refine ⟨n, hn, ?_⟩
    rcases h with ⟨h1, -⟩ | ⟨-, h2, -, -⟩
    · have := hv.2 id hp
      omega
    · intro e
      rw [e, hmem] at h2
      simp at h2

theorem erase_removes_exactly_id_witness :
    (table_index.mk [2, 64]).valid ∧ (table_index.mk [2, 64]).contains 70 = true ∧
    ∃ r, (component_table.mk (List.replicate 80 (0 : Nat)) ⟨[2, 64]⟩).erase 70 = some r ∧
      r.m_data = List.replicate 80 (0 : Nat) ∧
      r.m_index.contains 70 = false ∧
      (∀ j, j ≠ 70 → r.m_index.contains j = (table_index.mk [2, 64]).contains j) ∧
      ∀ firstAllowed, ∃ n, r.m_index.next firstAllowed = some n ∧ n ≠ 70 :=
  ⟨table_index.valid_of_short _ (by decide) (by decide), by decide,
    erase_removes_exactly_id (component_table.mk (List.replicate 80 (0 : Nat)) ⟨[2, 64]⟩) 70
      (table_index.valid_of_short _ (by decide) (by decide)) (by decide)⟩

/-! ## The registry, `set`, `reset` and the scenario query -/

theorem ext_getD (l1 l2 : List Nat) (hl : l1.length = l2.length)
    (h : ∀ j, l1.getD j 0 = l2.getD j 0) : l1 = l2 := by
  apply List.ext_getElem hl
  intro n h1 h2
  have := h n
  rwa [List.getD_eq_getElem?_getD, List.getD_eq_getElem?_getD, List.getElem?_eq_getElem h1,
    List.getElem?_eq_getElem h2] at this

/-- C14: for every index and every 64-bit id, `set(id)` is defined; afterwards
the members are exactly the previous members and `id`, every word other than
the word of `id` is as before (a newly allocated one is zero), and when `id`
was already a member the index, its length included, is unchanged. -/
theorem set_adds_exactly_id (self : table_index) (id : Nat) (hid : id < u64) :
    ∃ t, self.set id = some t ∧
      (∀ j, t.contains j = true ↔ (self.contains j = true ∨ j = id)) ∧
      (∀ b, b ≠ id / 64 → t.m_index_data.getD b 0 = self.m_index_data.getD b 0) ∧
      (∀ b, self.m_index_data.length ≤ b → b ≠ id / 64 → t.m_index_data.getD b 0 = 0) ∧
      (self.contains id = true → t = self) := by
  obtain ⟨data, hset, hget, hlen, -⟩ := table_index.set_eq self id hid
  obtain ⟨t, ht, hmem, -⟩ := table_index.set_spec self id hid
  rw [hset] at ht
  cases ht
  refine ⟨⟨data⟩, hset, fun j => ?_, fun b hb => ?_, fun b hb1 hb2 => ?_, fun hc => ?_⟩
  · rw [hmem]; simp
  · show data.getD b 0 = _
    rw [hget, if_neg hb]
  · show data.getD b 0 = 0
    rw [hget, if_neg hb2, getD_of_length_le _ _ hb1]
  · have hlt := table_index.contains_lt self id hc
    have hl := hlen (by omega)
    have hd : data = self.m_index_data := by
      apply ext_getD _ _ hl
      intro j
      rw [hget]
      by_cases hj : j = id / 64
      · rw [if_pos hj, hj]
        apply Nat.eq_of_testBit_eq
        intro i
        rw [Nat.testBit_or, Nat.testBit_two_pow]
        by_cases hi : id % 64 = i
        · rw [← hi]
          unfold table_index.contains at hc
          rw [hc]; rfl
        · simp [hi]
      · rw [if_neg hj]
    rw [hd]

theorem set_adds_exactly_id_witness :
    70 < u64 ∧
    ∃ t, (table_index.mk [2]).set 70 = some t ∧
      (∀ j, t.contains j = true ↔ ((table_index.mk [2]).contains j = true ∨ j = 70)) ∧
      (∀ b, b ≠ 70 / 64 →
        t.m_index_data.getD b 0 = (table_index.mk [2]).m_index_data.getD b 0) ∧
      (∀ b, (table_index.mk [2]).m_index_data.length ≤ b → b ≠ 70 / 64 →
        t.m_index_data.getD b 0 = 0) ∧
      ((table_index.mk [2]).contains 70 = true → t = table_index.mk [2]) :=
  ⟨by decide, set_adds_exactly_id (table_index.mk [2]) 70 (by decide)⟩

/-- C15 fails on the code: `reset(id)` indexes `m_index_data[block]` without the
bounds check that `set` and `next` make, so on an index without that block
(an empty index and id 0; the index `{1}` and id 70) the access is out of
range, and `removeFromEntity<T>(1)` on a new store reaches it through `erase`;
`next` on the same index sees the missing block and returns `npos`. -/
theorem reset_of_unallocated_block_is_out_of_range :
    table_index.empty.reset 0 = none ∧
    (table_index.mk [2]).reset 70 = none ∧
    (component_table.empty : component_table Nat).erase 70 = none ∧
    ((ecs.new : ecs Nat).removeFromEntity fresh_statics 1 [0]).isNone = true ∧
    (table_index.mk [2]).next 70 = some npos ∧
    ((table_index.mk [2]).set 70).isSome = true := by
  decide

/-- C16 fails on the code: `exclude` is declared `iterator&` and has no
`return` statement, so every call is undefined, and with it the query on the
store built by giving entity 1 `{A}`, entity 2 `{A, B}`, entity 3 `{B}` and
entity 4 `{A, B, C}` (types 0, 1, 2) that requires `A` and `B` and excludes the
presence index of `C`, whether that index is the one of the store's table or
an index object holding the same id 4. The pass itself, run on an iterator
whose `not_in` list `unpack_exclude` has filled, visits exactly id 2, and the
query requiring `A` alone visits 1, 2, 4 in that order. -/
theorem scenario_query_excluding_C_is_undefined :
    (∀ (self : iterator) (ts : List index_ptr), self.exclude ts = none) ∧
    (((ecs.new : ecs Nat).run
        [.create [(0, 10)], .create [(0, 20), (1, 21)], .create [(1, 31)],
          .create [(0, 40), (1, 41), (2, 42)]] fresh_statics).map
      fun r => (r.1.m_components.map fun t => t.map fun c => c.m_index)) =
      some [some ⟨[22]⟩, some ⟨[28]⟩, some ⟨[16]⟩, none] ∧
    (((ecs.new : ecs Nat).run
        [.create [(0, 10)], .create [(0, 20), (1, 21)], .create [(1, 31)],
          .create [(0, 40), (1, 41), (2, 42)]] fresh_statics).bind
      fun r => (iterator.new.exclude [index_ptr.ext ⟨[16]⟩]).bind fun it =>
        (it.for_each r.1 r.2.1 [0, 1] (fun l => l)).map fun q => q.2.2.map Prod.fst) = none ∧
    (((ecs.new : ecs Nat).run
        [.create [(0, 10)], .create [(0, 20), (1, 21)], .create [(1, 31)],
          .create [(0, 40), (1, 41), (2, 42)]] fresh_statics).bind
      fun r => (iterator.new.exclude [index_ptr.own (r.2.1 2)]).bind fun it =>
        (it.for_each r.1 r.2.1 [0, 1] (fun l => l)).map fun q => q.2.2.map Prod.fst) = none ∧
    (((ecs.new : ecs Nat).run
        [.create [(0, 10)], .create [(0, 20), (1, 21)], .create [(1, 31)],
          .create [(0, 40), (1, 41), (2, 42)]] fresh_statics).bind
      fun r => ((iterator.new.unpack_exclude [index_ptr.ext ⟨[16]⟩]).for_each r.1 r.2.1 [0, 1]
        (fun l => l)).map fun q => q.2.2.map Prod.fst) = some [2] ∧
    (((ecs.new : ecs Nat).run
        [.create [(0, 10)], .create [(0, 20), (1, 21)], .create [(1, 31)],
          .create [(0, 40), (1, 41), (2, 42)]] fresh_statics).bind
      fun r => ((iterator.new.unpack_exclude [index_ptr.own (r.2.1 2)]).for_each r.1 r.2.1
        [0, 1] (fun l => l)).map fun q => q.2.2.map Prod.fst) = some [2] ∧
    (((ecs.new : ecs Nat).run
        [.create [(0, 10)], .create [(0, 20), (1, 21)], .create [(1, 31)],
          .create [(0, 40), (1, 41), (2, 42)]] fresh_statics).bind
      fun r => (r.1.for_each r.2.1 [0] (fun l => l)).map fun q => q.2.2.map Prod.fst) =
      some [1, 2, 4] :=
  ⟨fun _ _ => rfl, by decide, by decide, by decide, by decide, by decide, by decide⟩

/-- C19 fails on the code: on the table left by `insert(2, 7)` (array length
4, id 2 present) the call `insert(6148914691236517206, 9)` computes the new
length `((3 * id) >> 1) + 1` as 2 in 64-bit arithmetic: the resize shortens the
array from 4 to 2, dropping the slot of the present id 2, the length is not
greater than `id`, and the write to slot `id` is outside the array. -/
theorem insert_resize_wraps_and_shrinks :
    ((component_table.empty : component_table Nat).insert 2 7).map
        (fun t => (t.m_data, t.m_index)) = some ([0, 0, 7, 0], ⟨[4]⟩) ∧
    (((3 * 6148914691236517206) % u64) >>> 1) + 1 = 2 ∧
    resize [0, 0, 7, 0] ((((3 * 6148914691236517206) % u64) >>> 1) + 1) (default : Nat) =
      [0, 0] ∧
    (component_table.mk [0, 0, 7, 0] ⟨[4]⟩).insert 6148914691236517206 9 = none := by
  decide

/-- C11 fails on the code: in a process with two stores, the first store asks
`id<A>()` and gets 0, then the second store asks `id<B>()` and also gets 0 (its
own `runningTypeIndex` is still 0), and `id<A>()` in the second store returns
the memoised 0: the distinct types `A` and `B` (0 and 1 here) resolve to the
same slot of the second store, so `create(B 11, A 10)` there leaves 10 as the
value read for `B` as well. -/
theorem two_stores_give_two_types_one_id :
    ((type_index.mk 0).id fresh_statics 0).1 = 0 ∧
    ((type_index.mk 0).id ((type_index.mk 0).id fresh_statics 0).2.2 1).1 = 0 ∧
    ((((ecs.new : ecs Nat).table fresh_statics 0).bind fun r1 =>
        ((ecs.new : ecs Nat).table r1.2.2 1).bind fun r2 =>
          (r2.2.1.table r2.2.2 0).map fun r3 => (r2.1, r3.1)) = some (0, 0)) ∧
    ((((ecs.new : ecs Nat).table fresh_statics 0).bind fun r1 =>
        ((ecs.new : ecs Nat).create r1.2.2 [(1, 11), (0, 10)]).map fun r2 =>
          (r2.2.1.value r2.2.2 0 1, r2.2.1.value r2.2.2 1 1)) =
      some (some 10, some 10)) := by
  decide

/-! ## The pass seen from its result -/

namespace iterator

/-- The steps of a defined `for_each` in a single-store process: the tables of
the parameter types after `unpack_types`, the constraint result, the first id
and the loop. -/
theorem for_each_inside {T : Type} (self : iterator) (db : ecs T) (statics : Nat → Nat)
    (Args : List Nat) (op : List T → List T) (db2 : ecs T) (st2 : Nat → Nat)
    (calls : List (Nat × List T))
    (h : self.for_each db statics Args op = some (db2, st2, calls))
    (hreg : db.registry_ok statics) (htab : db.tables_ok)
    (hb : 3 * (db.types.runningTypeIndex + Args.length) < u64) :
    ∃ db1 res n,
      db1.registry_ok st2 ∧ db1.tables_ok ∧
      (∀ V, statics V ≠ no_type → st2 V = statics V) ∧
      (∀ U, U ∈ Args → st2 U ≠ no_type) ∧
      (∀ V, db1.find st2 V =
        if V ∈ Args then some ((db.find statics V).getD component_table.empty)
        else db.find statics V) ∧
      (∀ U, U ∈ Args → db1.m_components.getD (st2 U) none =
        some ((db.find statics U).getD component_table.empty)) ∧
      (∀ i t, db.m_components.getD i none = some t →
        db1.m_components.getD i none = some t) ∧
      resolve db1 (self.indices ++ Args.map (fun U => index_ptr.own (st2 U))) self.not_in =
        some res ∧
      res.next 0 = some n ∧
      for_each_loop res op (Args.map st2) (64 * res.m_index_data.length + 1) n db1 [] =
        some (db2, calls) := by
  obtain ⟨db1, st1, u1, u2, u3, -, u5, u6, u7, u8⟩ :=
    unpack_types_spec Args db statics self.indices hreg htab hb
  have F2 : ∀ U, U ∈ Args → db1.m_components.getD (st1 U) none =
      some ((db.find statics U).getD component_table.empty) := by
    intro U hU
    rw [← ecs.find_eq_getD db1 st1 U (u6 U hU), u7 U, if_pos hU]
  have htables := tables_spec Args db1 st1 (fun U hU => ⟨u6 U hU, _, F2 U hU⟩)
  unfold for_each at h
  rw [u1] at h
  simp only at h
  split at h
  · exact absurd h (by simp)
  · rename_i res hres
    rw [htables] at h
    simp only at h
    split at h
    · exact absurd h (by simp)
    · rename_i n hn
      cases hl : for_each_loop res op (Args.map st1) (64 * res.m_index_data.length + 1) n
          db1 [] with
      | none => rw [hl] at h; exact absurd h (by simp)
      | some r =>
        rw [hl] at h
        obtain ⟨db4, c4⟩ := r
        simp only [Option.map_some', Option.some.injEq, Prod.mk.injEq] at h
        obtain ⟨e1, e2, e3⟩ := h
        subst e1 e2 e3
        exact ⟨db1, res, n, u2, u3, u5, u6, u7, F2, u8, hres, hn, hl⟩

theorem has_of_shape {T : Type} (db db2 : ecs T) (st : Nat → Nat)
    (h : ∀ ti, slot_shape db2.m_components ti = slot_shape db.m_components ti) (U id : Nat) :
    db2.has st U id = db.has st U id := by
  unfold ecs.has ecs.find
  by_cases hU : st U ≠ no_type
  · rw [if_pos hU, if_pos hU]
    have := h (st U)
    unfold slot_shape at this
    cases h2 : db2.m_components.getD (st U) none with
    | none =>
      rw [h2] at this
      cases h1 : db.m_components.getD (st U) none with
      | none => rfl
      | some t => rw [h1] at this; exact absurd this (by simp)
    | some t2 =>
      rw [h2] at this
      cases h1 : db.m_components.getD (st U) none with
      | none => rw [h1] at this; exact absurd this (by simp)
      | some t =>
        rw [h1] at this
        simp only [Option.map_some', Option.some.injEq, Prod.mk.injEq] at this
        simp only [this.1]
  · rw [if_neg hU, if_neg hU]

/-- A defined `for_each` leaves the presence of every id in every table as it
was, and every table that existed keeps its slot and its presence index. -/
theorem for_each_has {T : Type} (self : iterator) (db : ecs T) (statics : Nat → Nat)
    (Args : List Nat) (op : List T → List T) (db2 : ecs T) (st2 : Nat → Nat)
    (calls : List (Nat × List T))
    (h : self.for_each db statics Args op = some (db2, st2, calls))
    (hreg : db.registry_ok statics) (htab : db.tables_ok)
    (hb : 3 * (db.types.runningTypeIndex + Args.length) < u64) :
    (∀ U id, db2.has st2 U id = db.has statics U id) ∧
    ∀ i t, db.m_components.getD i none = some t →
      ∃ t2, db2.m_components.getD i none = some t2 ∧ t2.m_index = t.m_index := by
  obtain ⟨db1, res, n, -, -, -, -, u7, -, u8, -, -, hl⟩ :=
    for_each_inside self db statics Args op db2 st2 calls h hreg htab hb
  obtain ⟨-, b⟩ := for_each_loop_shape _ _ _ _ _ _ _ _ _ hl
  refine ⟨fun U id => ?_, fun i t hit => ?_⟩
  · rw [has_of_shape db1 db2 st2 b U id, has_eq, has_eq, u7 U]
    by_cases hU : U ∈ Args
    · rw [if_pos hU]; rfl
    · rw [if_neg hU]
  · have h1 := u8 i t hit
    have := b i
    unfold slot_shape at this
    rw [h1] at this
    cases h2 : db2.m_components.getD i none with
    | none => rw [h2] at this; exact absurd this (by simp)
    | some t2 =>
      rw [h2] at this
      simp only [Option.map_some', Option.some.injEq, Prod.mk.injEq] at this
      exact ⟨t2, rfl, this.1⟩

end iterator

/-- The pass of `ecs::for_each` (no inclusions, no exclusions): defined, the
ids ascending, exactly those present in every bound table. -/
theorem ecs_for_each_spec {T : Type} (db : ecs T)
    (statics : Nat → Nat) (Args : List Nat) (op : List T → List T)
    (hreg : db.registry_ok statics) (htab : db.tables_ok)
    (hb : 3 * (db.types.runningTypeIndex + Args.length) < u64) (hne : Args ≠ []) :
    ∃ db2 st2 calls, db.for_each statics Args op = some (db2, st2, calls) ∧
      (calls.map Prod.fst).Sorted (· < ·) ∧
      (∀ id, id ∈ calls.map Prod.fst ↔ ∀ U, U ∈ Args → db.has statics U id = true) ∧
      (∀ id args, (id, args) ∈ calls →
        Args.map (fun U => db.value statics U id) = args.map some) := by
  obtain ⟨db2, st2, calls, h1, h2, h3, h4⟩ := iterator.for_each_spec iterator.new db statics
    Args op hreg htab hb (Or.inr hne)
    (fun p hp => by simp [iterator.new] at hp)
    (fun ix hix => by simp [iterator.new] at hix)
  refine ⟨db2, st2, calls, h1, h2, fun id => ?_, h4⟩
  rw [h3 id]
  simp [iterator.new]

/-- C12: in a single-store process whose tables satisfy the table invariant,
running `for_each` twice in succession with the same operation (whether or not
it changes its arguments) is defined both times and visits the same sequence of
ids; the pass works on a copy: every table keeps its presence index, so the
presence of every id in every table is as before. -/
theorem for_each_twice_visits_same_ids {T : Type} (db : ecs T) (statics : Nat → Nat)
    (Args : List Nat) (op : List T → List T)
    (hreg : db.registry_ok statics) (htab : db.tables_ok)
    (hb : 3 * (db.types.runningTypeIndex + 2 * Args.length) < u64) (hne : Args ≠ []) :
    ∃ db2 st2 calls db3 st3 calls2,
      db.for_each statics Args op = some (db2, st2, calls) ∧
      db2.for_each st2 Args op = some (db3, st3, calls2) ∧
      calls2.map Prod.fst = calls.map Prod.fst ∧
      (∀ U id, db2.has st2 U id = db.has statics U id) ∧
      (∀ i t, db.m_components.getD i none = some t →
        ∃ t2, db2.m_components.getD i none = some t2 ∧ t2.m_index = t.m_index) := by
  obtain ⟨db2, st2, calls, h1, s1, m1, -⟩ :=
    ecs_for_each_spec db statics Args op hreg htab (by omega) hne
  obtain ⟨r2, t2, k2⟩ := iterator.for_each_some iterator.new db statics Args op db2 st2 calls
    h1 hreg htab (by omega)
  obtain ⟨hhas, hix⟩ := iterator.for_each_has iterator.new db statics Args op db2 st2 calls
    h1 hreg htab (by omega)
  obtain ⟨db3, st3, calls2, h2, s2, m2, -⟩ :=
    ecs_for_each_spec db2 st2 Args op r2 t2 (by omega) hne
  refine ⟨db2, st2, calls, db3, st3, calls2, h1, h2, ?_, hhas, hix⟩
  apply List.eq_of_perm_of_sorted (r := (· < ·)) _ s2 s1
  rw [List.perm_ext_iff_of_nodup s2.nodup s1.nodup]
  intro id
  rw [m1, m2]
  constructor
  · intro hh U hU; rw [← hhas]; exact hh U hU
  · intro hh U hU; rw [hhas]; exact hh U hU

/-! ## The values a pass leaves -/

namespace iterator

theorem write_one_value {T : Type} (n : Nat) (v : T)
    (components : List (Option (component_table T))) (ti0 L : Nat)
    (hL : slot_length components ti0 = some L) (hn : n < L) :
    slot_value (components.set ti0
        ((components.getD ti0 none).map fun t => t.put n v)) ti0 n = some v := by
  unfold slot_length at hL
  cases hc : components.getD ti0 none with
  | none => rw [hc] at hL; exact absurd hL (by simp)
  | some t =>
    rw [hc] at hL
    simp only [Option.map_some', Option.some.injEq] at hL
    have hlen := ecs.lt_length_of_getD_some _ _ _ hc
    unfold slot_value
    rw [getD_set_gen, if_pos ⟨rfl, hlen⟩]
    simp only [Option.map_some', Option.bind_some, component_table.get, component_table.put]
    show (t.m_data.set n v)[n]? = some v
    rw [List.getElem?_set_self (by omega)]

theorem write_one_other {T : Type} (x : Option (component_table T))
    (components : List (Option (component_table T))) (ti0 ti id : Nat) (h : ti ≠ ti0) :
    slot_value (components.set ti0 x) ti id = slot_value components ti id := by
  unfold slot_value
  rw [getD_set_gen, if_neg (fun e => h e.1.symm)]

theorem read_args_length {T : Type} (db : ecs T) (n : Nat) :
    ∀ (tuple : List Nat) (args : List T), read_args db n tuple = some args →
      args.length = tuple.length := by
  intro tuple
  induction tuple with
  | nil =>
    intro args ha
    simp only [read_args, Option.some.injEq] at ha
    rw [← ha]
    rfl
  | cons ti rest ih =>
    intro args ha
    unfold read_args at ha
    split at ha
    · exact absurd ha (by simp)
    · split at ha
      · exact absurd ha (by simp)
      · rename_i v hv2 vs hvs
        simp only [Option.some.injEq] at ha
        rw [← ha, List.length_cons, List.length_cons, ih vs hvs]

/-- With pairwise distinct table slots, each allocated at `n`, `write_args`
leaves the written values in the slots of the tuple and touches no other
table. -/
theorem write_args_values {T : Type} (n : Nat) :
    ∀ (tuple : List Nat) (outs : List T) (components : List (Option (component_table T))),
      tuple.Nodup → outs.length = tuple.length →
      (∀ ti, ti ∈ tuple → ∃ L, slot_length components ti = some L ∧ n < L) →
      tuple.map (fun ti => slot_value (write_args n tuple outs components) ti n) =
          outs.map some ∧
        ∀ ti, ti ∉ tuple → ∀ id, slot_value (write_args n tuple outs components) ti id =
          slot_value components ti id := by
  intro tuple
  induction tuple with
  | nil =>
    intro outs components _ hlen _
    have : outs = [] := List.length_eq_zero.1 (by simpa using hlen)
    subst this
    exact ⟨rfl, fun _ _ _ => rfl⟩
  | cons ti0 rest ih =>
    intro outs components hnd hlen hslots
    cases outs with
    | nil => simp at hlen
    | cons v vs =>
      simp only [List.nodup_cons] at hnd
      simp only [List.length_cons, Nat.add_right_cancel_iff] at hlen
      have hslots1 : ∀ ti, ti ∈ rest → ∃ L, slot_length (components.set ti0
          ((components.getD ti0 none).map fun t => t.put n v)) ti = some L ∧ n < L := by
        intro ti hti
        obtain ⟨L, h1, h2⟩ := hslots ti (List.mem_cons_of_mem _ hti)
        exact ⟨L, by rw [(write_one_spec n v components ti0 ti 0).1, h1], h2⟩
      obtain ⟨a, b⟩ := ih vs (components.set ti0
        ((components.getD ti0 none).map fun t => t.put n v)) hnd.2 hlen hslots1
      obtain ⟨L0, h01, h02⟩ := hslots ti0 (List.mem_cons_self _ _)
      refine ⟨?_, fun ti hti id => ?_⟩
      · rw [List.map_cons, List.map_cons]
        unfold write_args
        rw [a, b ti0 hnd.1 n, write_one_value n v components ti0 L0 h01 h02]
      · simp only [List.mem_cons, not_or] at hti
        unfold write_args
        rw [b ti hti.2 id, write_one_other _ components ti0 ti id hti.1]

/-- A defined loop on a valid `res`, with pairwise distinct allocated table
slots and an operation that returns one value per argument: ids below `n` and
tables outside the tuple are untouched, and at every visited id the bound
tables hold what the operation returned for the arguments of that call. -/
theorem for_each_loop_values {T : Type} (res : table_index) (hv : res.valid)
    (op : List T → List T) (hop : ∀ l, (op l).length = l.length) (tuple : List Nat)
    (hnd : tuple.Nodup) :
    ∀ (fuel n : Nat) (db : ecs T) (calls : List (Nat × List T)) (db2 : ecs T)
      (calls1 : List (Nat × List T)),
      for_each_loop res op tuple fuel n db calls = some (db2, calls1) →
      (n = npos ∨ res.contains n = true) →
      (∀ ti, ti ∈ tuple → ∀ id, res.contains id = true →
        ∃ L, slot_length db.m_components ti = some L ∧ id < L) →
      ∃ calls2, calls1 = calls ++ calls2 ∧
        (∀ ti id, id < n → slot_value db2.m_components ti id =
          slot_value db.m_components ti id) ∧
        (∀ ti, ti ∉ tuple → ∀ id, slot_value db2.m_components ti id =
          slot_value db.m_components ti id) ∧
        (∀ id args, (id, args) ∈ calls2 →
          tuple.map (fun ti => slot_value db2.m_components ti id) = (op args).map some) := by
  intro fuel
  induction fuel with
  | zero => intro n db calls db2 calls1 h; exact absurd h (by simp [for_each_loop])
  | succ fuel ih =>
    intro n db calls db2 calls1 h hn hslots
    unfold for_each_loop at h
    by_cases hnp : n = npos
    · rw [if_pos hnp] at h
      simp only [Option.some.injEq, Prod.mk.injEq] at h
      obtain ⟨e1, e2⟩ := h
      subst e1 e2
      exact ⟨[], by simp, fun _ _ _ => rfl, fun _ _ _ => rfl,
        fun id args hm => absurd hm (List.not_mem_nil _)⟩
    · rw [if_neg hnp] at h
      have hc : res.contains n = true := by
        rcases hn with e | e
        · exact absurd e hnp
        · exact e
      have hlt := hv.2 n hc
      cases h1 : make_indexed_call op n tuple db with
      | none => rw [h1] at h; exact absurd h (by simp)
      | some r1 =>
        rw [h1] at h
        obtain ⟨db1, args⟩ := r1
        simp only at h
        have hmod : (n + 1) % u64 = n + 1 := Nat.mod_eq_of_lt (by unfold npos at hlt; omega)
        rw [hmod] at h
        obtain ⟨r, hr, hcase⟩ := table_index.next_spec res hv (n + 1)
        rw [hr] at h
        simp only at h
        have hnr : n < r := by
          rcases hcase with ⟨e, -⟩ | ⟨-, -, e, -⟩
          · rw [e]; exact hlt
          · omega
        unfold make_indexed_call at h1
        cases ha : read_args db n tuple with
        | none => rw [ha] at h1; exact absurd h1 (by simp)
        | some args0 =>
          rw [ha] at h1
          simp only [Option.some.injEq, Prod.mk.injEq] at h1
          obtain ⟨e1, e2⟩ := h1
          subst e1 e2
          have hlenargs : args0.length = tuple.length := read_args_length db n tuple args0 ha
          obtain ⟨w1, w2⟩ := write_args_values n tuple (op args0) db.m_components hnd
            (by rw [hop, hlenargs]) (fun ti hti => hslots ti hti n hc)
          have hslots1 : ∀ ti, ti ∈ tuple → ∀ id, res.contains id = true →
              ∃ L, slot_length (ecs.mk (write_args n tuple (op args0) db.m_components)
                db.types db.entities).m_components ti = some L ∧ id < L := by
            intro ti hti id hid
            obtain ⟨L, a1, a2⟩ := hslots ti hti id hid
            refine ⟨L, ?_, a2⟩
            show slot_length (write_args n tuple (op args0) db.m_components) ti = some L
            rw [(write_args_spec n tuple (op args0) db.m_components ti 0).1, a1]
          obtain ⟨calls2, k1, k2, k3, k4⟩ := ih r _ _ db2 calls1 h
            (by
              rcases hcase with ⟨e, -⟩ | ⟨-, e, -, -⟩
              · exact Or.inl e
              · exact Or.inr e) hslots1
          refine ⟨(n, args0) :: calls2, by rw [k1, List.append_assoc]; rfl,
            fun ti id hid => ?_, fun ti hti id => ?_, fun id args hm => ?_⟩
          · rw [k2 ti id (by omega)]
            exact (write_args_spec n tuple (op args0) db.m_components ti id).2 (by omega)
          · rw [k3 ti hti id]
            exact w2 ti hti id
          · rcases List.mem_cons.1 hm with e | e
            · cases e
              rw [← w1]
              apply List.map_congr_left
              intro ti _
              exact k2 ti n hnr
            · exact k4 id args e

end iterator

namespace iterator

theorem value_slot {T : Type} (db : ecs T) (st : Nat → Nat) (U id : Nat) :
    db.value st U id =
      if st U ≠ no_type then slot_value db.m_components (st U) id else none := by
  unfold ecs.value ecs.find slot_value
  by_cases h : st U ≠ no_type
  · rw [if_pos h, if_pos h]
  · rw [if_neg h, if_neg h]; rfl

/-- What a defined `ecs::for_each` leaves in the tables, for pairwise distinct
parameter types and an operation that returns one value per argument. -/
theorem for_each_values {T : Type} (db : ecs T) (statics : Nat → Nat)
    (Args : List Nat) (op : List T → List T) (db2 : ecs T) (st2 : Nat → Nat)
    (calls : List (Nat × List T))
    (h : iterator.new.for_each db statics Args op = some (db2, st2, calls))
    (hreg : db.registry_ok statics) (htab : db.tables_ok)
    (hb : 3 * (db.types.runningTypeIndex + Args.length) < u64) (hne : Args ≠ [])
    (hnd : Args.Nodup) (hop : ∀ l, (op l).length = l.length) :
    (∀ id args, (id, args) ∈ calls →
      Args.map (fun U => db2.value st2 U id) = (op args).map some) ∧
    (∀ U id, id ∉ calls.map Prod.fst → db2.value st2 U id = db.value statics U id) ∧
    (∀ U id, U ∉ Args → db2.value st2 U id = db.value statics U id) := by
  obtain ⟨db1, res, n, u2, u3, u5, u6, u7, F2, -, hres, hn, hl⟩ :=
    for_each_inside iterator.new db statics Args op db2 st2 calls h hreg htab hb
  have hval1 : ∀ U id, db1.value st2 U id = db.value statics U id := by
    intro U id
    rw [value_eq, value_eq, u7 U]
    by_cases hU : U ∈ Args
    · rw [if_pos hU]; rfl
    · rw [if_neg hU]
  have F3 : ∀ U, U ∈ Args → deref db1 (index_ptr.own (st2 U)) =
      some ((db.find statics U).getD component_table.empty).m_index := by
    intro U hU
    simp only [deref]
    rw [F2 U hU]
    rfl
  -- the constraint result is valid and lies inside every bound table
  obtain ⟨U0, rest, hA⟩ : ∃ U0 rest, Args = U0 :: rest := by
    cases Args with
    | nil => exact absurd rfl hne
    | cons U0 rest => exact ⟨U0, rest, rfl⟩
  have hres2 : resolve db1 (index_ptr.own (st2 U0) ::
      rest.map (fun U => index_ptr.own (st2 U))) [] = some res := by
    have := hres
    simp only [iterator.new, List.nil_append, hA, List.map_cons] at this
    exact this
  have hU0 : U0 ∈ Args := by rw [hA]; exact List.mem_cons_self _ _
  obtain ⟨res', hr1, hrv, hrm⟩ := resolve_spec db1 (index_ptr.own (st2 U0))
    (rest.map (fun U => index_ptr.own (st2 U))) [] _ (F3 U0 hU0)
    (deref_valid db1 u3 _ _ (F3 U0 hU0))
    (fun q hq => by
      obtain ⟨U, hU, rfl⟩ := List.mem_map.1 hq
      exact ⟨_, F3 U (by rw [hA]; exact List.mem_cons_of_mem _ hU)⟩)
    (fun q hq => absurd hq (List.not_mem_nil _))
  rw [hres2] at hr1
  cases hr1
  have hin : ∀ U, U ∈ Args → ∀ id, res.contains id = true →
      ((db.find statics U).getD component_table.empty).m_index.contains id = true := by
    intro U hU id hid
    have := ((hrm id).1 hid).1 (index_ptr.own (st2 U)) (by
      rw [hA] at hU
      rcases List.mem_cons.1 hU with e | e
      · rw [e]; exact List.mem_cons_self _ _
      · exact List.mem_cons_of_mem _ (List.mem_map.2 ⟨U, e, rfl⟩)) _ (F3 U hU)
    exact this
  have hslots : ∀ ti, ti ∈ Args.map st2 → ∀ id, res.contains id = true →
      ∃ L, slot_length db1.m_components ti = some L ∧ id < L := by
    intro ti hti id hid
    obtain ⟨U, hU, rfl⟩ := List.mem_map.1 hti
    refine ⟨((db.find statics U).getD component_table.empty).m_data.length, ?_, ?_⟩
    · unfold slot_length
      rw [F2 U hU]; rfl
    · exact (u3 _ _ (F2 U hU)).2.1 id (hin U hU id hid)
  have hcover : ∀ ti, ti ∈ Args.map st2 → ∀ id, res.contains id = true →
      ∃ v, slot_value db1.m_components ti id = some v := by
    intro ti hti id hid
    obtain ⟨L, h1, h2⟩ := hslots ti hti id hid
    unfold slot_length at h1
    unfold slot_value
    cases hc : db1.m_components.getD ti none with
    | none => rw [hc] at h1; exact absurd h1 (by simp)
    | some t =>
      rw [hc] at h1
      simp only [Option.map_some', Option.some.injEq] at h1
      simp only [Option.bind_some, component_table.get]
      exact ⟨_, List.getElem?_eq_getElem (by omega)⟩
  obtain ⟨n0, hn0, hcase⟩ := table_index.next_spec res hrv 0
  rw [hn] at hn0
  cases hn0
  obtain ⟨db2', calls', l1, -, l3, -, -, -, l7⟩ := for_each_loop_spec res hrv op (Args.map st2)
    db1.m_components hcover (64 * res.m_index_data.length + 1) n db1 []
    (by
      rcases hcase with ⟨e, -⟩ | ⟨-, e, -, -⟩
      · exact Or.inl ⟨e, by omega⟩
      · exact Or.inr ⟨e, by omega⟩)
    (fun _ _ _ => rfl)
  rw [hl] at l1
  simp only [List.nil_append, Option.some.injEq, Prod.mk.injEq] at l1
  obtain ⟨e1, e2⟩ := l1
  subst e1 e2
  have hndt : (Args.map st2).Nodup := by
    apply List.Nodup.map_on _ hnd
    intro x hx y _ hxy
    exact u2.2.1 x y (u6 x hx) hxy
  obtain ⟨calls2, k1, -, k3, k4⟩ := for_each_loop_values res hrv op hop (Args.map st2) hndt
    _ n db1 [] db2 calls hl
    (by
      rcases hcase with ⟨e, -⟩ | ⟨-, e, -, -⟩
      · exact Or.inl e
      · exact Or.inr e) hslots
  simp only [List.nil_append] at k1
  subst k1
  refine ⟨fun id args hm => ?_, fun U id hid => ?_, fun U id hU => ?_⟩
  · rw [← k4 id args hm, List.map_map]
    apply List.map_congr_left
    intro U hU
    simp only [Function.comp]
    rw [value_slot, if_pos (u6 U hU)]
  · rw [← hval1 U id, value_slot, value_slot]
    by_cases hU : st2 U ≠ no_type
    · rw [if_pos hU, if_pos hU]
      apply l7
      by_contra hc
      have hc : res.contains id = true := by simpa using hc
      apply hid
      rw [l3 id]
      refine ⟨hc, ?_⟩
      rcases hcase with ⟨-, e⟩ | ⟨-, -, -, e⟩
      · rw [e id (Nat.zero_le _)] at hc
        exact absurd hc (by simp)
      · exact e id hc (Nat.zero_le _)
    · rw [if_neg hU, if_neg hU]
  · rw [← hval1 U id, value_slot, value_slot]
    by_cases hU2 : st2 U ≠ no_type
    · rw [if_pos hU2, if_pos hU2]
      apply k3
      intro hm
      obtain ⟨V, hV, e⟩ := List.mem_map.1 hm
      exact hU (by rw [← u2.2.1 V U (u6 V hV) e]; exact hV)
    · rw [if_neg hU2, if_neg hU2]

end iterator

/-- C18: in a single-store process whose tables satisfy the table invariant,
for an operation bound to pairwise distinct component types that returns one
value per argument, `for_each` is defined; each call gets the values held
before the pass; afterwards the value of each bound type at each visited id is
the one the operation produced from them, every component value at an id that
was not visited is unchanged, and so is every value of a type that is not
bound. -/
theorem for_each_stores_what_op_produced {T : Type} (db : ecs T) (statics : Nat → Nat)
    (Args : List Nat) (op : List T → List T)
    (hreg : db.registry_ok statics) (htab : db.tables_ok)
    (hb : 3 * (db.types.runningTypeIndex + Args.length) < u64) (hne : Args ≠ [])
    (hnd : Args.Nodup) (hop : ∀ l, (op l).length = l.length) :
    ∃ db2 st2 calls, db.for_each statics Args op = some (db2, st2, calls) ∧
      (∀ id args, (id, args) ∈ calls →
        Args.map (fun U => db.value statics U id) = args.map some ∧
        Args.map (fun U => db2.value st2 U id) = (op args).map some) ∧
      (∀ U id, id ∉ calls.map Prod.fst → db2.value st2 U id = db.value statics U id) ∧
      (∀ U id, U ∉ Args → db2.value st2 U id = db.value statics U id) := by
  obtain ⟨db2, st2, calls, h1, -, -, a1⟩ := ecs_for_each_spec db statics Args op hreg htab hb hne
  obtain ⟨v1, v2, v3⟩ := iterator.for_each_values db statics Args op db2 st2 calls h1
    hreg htab hb hne hnd hop
  exact ⟨db2, st2, calls, h1, fun id args hm => ⟨a1 id args hm, v1 id args hm⟩, v2, v3⟩

theorem for_each_stores_what_op_produced_witness :
    scenario_db.registry_ok scenario_statics ∧ scenario_db.tables_ok ∧
    3 * (scenario_db.types.runningTypeIndex + [0, 1].length) < u64 ∧ [0, 1] ≠ [] ∧
    [0, 1].Nodup ∧ (∀ l : List Nat, (l.map (· + 1)).length = l.length) ∧
    (∃ db2 st2 calls,
      scenario_db.for_each scenario_statics [0, 1] (fun l => l.map (· + 1)) =
        some (db2, st2, calls) ∧
      (∀ id args, (id, args) ∈ calls →
        [0, 1].map (fun U => scenario_db.value scenario_statics U id) = args.map some ∧
        [0, 1].map (fun U => db2.value st2 U id) =
          ((fun l : List Nat => l.map (· + 1)) args).map some) ∧
      (∀ U id, id ∉ calls.map Prod.fst →
        db2.value st2 U id = scenario_db.value scenario_statics U id) ∧
      (∀ U id, U ∉ [0, 1] → db2.value st2 U id = scenario_db.value scenario_statics U id)) ∧
    (scenario_db.for_each scenario_statics [0, 1] (fun l => l.map (· + 1))).map
        (fun r => (r.1.m_components.map fun t => t.map fun c => c.m_data, r.2.2)) =
      some ([some [0, 10, 21, 0, 41, 0, 0], some [0, 0, 22, 0, 42, 51, 0]],
        [(2, [20, 21]), (4, [40, 41])]) :=
  ⟨scenario_registry_ok, scenario_tables_ok, by decide, by decide, by decide,
    fun l => List.length_map _ _,
    for_each_stores_what_op_produced scenario_db scenario_statics [0, 1]
      (fun l => l.map (· + 1)) scenario_registry_ok scenario_tables_ok (by decide)
      (by decide) (by decide) (fun l => List.length_map _ _),
    by decide⟩

theorem for_each_twice_visits_same_ids_witness :
    scenario_db.registry_ok scenario_statics ∧ scenario_db.tables_ok ∧
    3 * (scenario_db.types.runningTypeIndex + 2 * [0, 1].length) < u64 ∧ [0, 1] ≠ [] ∧
    ∃ db2 st2 calls db3 st3 calls2,
      scenario_db.for_each scenario_statics [0, 1] (fun l => l) = some (db2, st2, calls) ∧
      db2.for_each st2 [0, 1] (fun l => l) = some (db3, st3, calls2) ∧
      calls2.map Prod.fst = calls.map Prod.fst ∧
      (∀ U id, db2.has st2 U id = scenario_db.has scenario_statics U id) ∧
      (∀ i t, scenario_db.m_components.getD i none = some t →
        ∃ t2, db2.m_components.getD i none = some t2 ∧ t2.m_index = t.m_index) :=
  ⟨scenario_registry_ok, scenario_tables_ok, by decide, by decide,
    for_each_twice_visits_same_ids scenario_db scenario_statics [0, 1] (fun l => l)
      scenario_registry_ok scenario_tables_ok (by decide) (by decide)⟩

/-! ## Tables reached by `insert` and `erase` -/

namespace component_table

/-- What a defined `insert` on a table that satisfies the invariant did. -/
theorem insert_inside {T : Type} [Inhabited T] (self : component_table T) (id : Nat) (t : T)
    (r : component_table T) (h : self.insert id t = some r) (hv : self.valid) :
    r.get id = some t ∧
      (∀ j, r.m_index.contains j = (self.m_index.contains j || decide (j = id))) ∧
      (∀ j, j ≠ id → j < self.m_data.length → r.get j = self.get j) ∧
      self.m_data.length ≤ r.m_data.length ∧ id < r.m_data.length ∧ r.valid := by
  obtain ⟨h1, h2⟩ := insert_some_ok self id t r h hv
  obtain ⟨r2, hr2, a, b, c, d, e, f⟩ := insert_core self id t h1 h2
  rw [h] at hr2
  cases hr2
  exact ⟨a, b, c, d, e, f hv⟩

/-- What a defined `erase` did. -/
theorem erase_inside {T : Type} (self : component_table T) (id : Nat)
    (r : component_table T) (h : self.erase id = some r) :
    r.m_data = self.m_data ∧
      ∀ j, r.m_index.contains j = (self.m_index.contains j && !decide (j = id)) := by
  unfold erase at h
  by_cases hlt : id / 64 < self.m_index.m_index_data.length
  · obtain ⟨ix, hix, -, hmem, -⟩ := table_index.reset_spec self.m_index id hlt
    rw [hix] at h
    simp only [Option.map_some', Option.some.injEq] at h
    rw [← h]
    exact ⟨rfl, hmem⟩
  · have : self.m_index.reset id = none := by
      unfold table_index.reset
      rw [shr6, if_neg hlt]
    rw [this] at h
    exact absurd h (by simp)

/-- An `erase` of a present id is defined. -/
theorem erase_defined {T : Type} (self : component_table T) (id : Nat)
    (h : self.m_index.contains id = true) : ∃ r, self.erase id = some r := by
  have hlt := table_index.contains_lt _ _ h
  obtain ⟨ix, hix, -⟩ := table_index.reset_spec self.m_index id (by omega)
  exact ⟨⟨self.m_data, ix⟩, by simp [erase, hix]⟩

theorem run_inv {T : Type} [Inhabited T] :
    ∀ (calls : List (table_call T)) (t0 t : component_table T),
      run calls t0 = some t → t0.valid →
      t.valid ∧ ∀ id, t.m_index.contains id = true →
        (∃ v, last_insert calls id = some v ∧ t.get id = some v) ∨
        (last_insert calls id = none ∧ t0.m_index.contains id = true ∧
          t.get id = t0.get id) := by
  intro calls
  induction calls with
  | nil =>
    intro t0 t h hv
    simp only [run, Option.some.injEq] at h
    subst h
    exact ⟨hv, fun id hid => Or.inr ⟨rfl, hid, rfl⟩⟩
  | cons c rest ih =>
    intro t0 t h hv
    unfold run at h
    cases h1 : t0.step c with
    | none => rw [h1] at h; exact absurd h (by simp)
    | some t1 =>
      rw [h1] at h
      simp only at h
      cases c with
      | insert j v =>
        simp only [step] at h1
        obtain ⟨a, b, c2, -, -, f⟩ := insert_inside t0 j v t1 h1 hv
        obtain ⟨hv2, hm⟩ := ih t1 t h f
        refine ⟨hv2, fun id hid => ?_⟩
        rcases hm id hid with ⟨w, k1, k2⟩ | ⟨k1, k2, k3⟩
        · exact Or.inl ⟨w, by simp only [last_insert, k1], k2⟩
        · by_cases e : j = id
          · subst e
            exact Or.inl ⟨v, by simp only [last_insert, k1, if_true], by rw [k3, a]⟩
          · rw [b] at k2
            have hc : t0.m_index.contains id = true := by
              simpa [Ne.symm e] using k2
            refine Or.inr ⟨by simp only [last_insert, k1, if_neg e], hc, ?_⟩
            rw [k3, c2 id (Ne.symm e) (hv.2.1 id hc)]
      | erase j =>
        simp only [step] at h1
        obtain ⟨a, b⟩ := erase_inside t0 j t1 h1
        obtain ⟨hv2, hm⟩ := ih t1 t h (erase_some_valid t0 j t1 h1 hv)
        refine ⟨hv2, fun id hid => ?_⟩
        rcases hm id hid with ⟨w, k1, k2⟩ | ⟨k1, k2, k3⟩
        · exact Or.inl ⟨w, by simp only [last_insert, k1], k2⟩
        · rw [b] at k2
          simp only [Bool.and_eq_true] at k2
          refine Or.inr ⟨by simp only [last_insert, k1], k2.1, ?_⟩
          rw [k3]
          simp only [get, a]

end component_table

/-- C17: every component table reached from the empty table by a defined
sequence of `insert` and `erase` calls has, for each id whose presence bit is
set, an allocated slot (`id` below the length of the array) that holds the value
of the last `insert` for that id; and on every store reached by a defined run
of calls in a single-store process `for_each` is defined: each of its
`operator[]` reads, made at ids present in all bound tables, is inside the
array and yields the stored value. -/
theorem reachable_table_holds_last_insert {T : Type} [Inhabited T]
    (calls : List (table_call T)) (t : component_table T)
    (h : component_table.run calls component_table.empty = some t) :
    (∀ id, t.m_index.contains id = true →
      id < t.m_data.length ∧ ∃ v, last_insert calls id = some v ∧ t.get id = some v) ∧
    ∀ (scalls : List (call T)) (db : ecs T) (st : Nat → Nat) (ids : List Nat)
      (Args : List Nat) (op : List T → List T),
      (ecs.new : ecs T).run scalls fresh_statics = some (db, st, ids) →
      3 * ((scalls.map call.arity).sum + Args.length) < u64 → Args ≠ [] →
      ∃ db2 st2 made, db.for_each st Args op = some (db2, st2, made) ∧
        ∀ id args, (id, args) ∈ made →
          Args.map (fun U => db.value st U id) = args.map some := by
  obtain ⟨hv, hm⟩ := component_table.run_inv calls _ t h ecs.valid_empty_table
  refine ⟨fun id hid => ⟨hv.2.1 id hid, ?_⟩, ?_⟩
  · rcases hm id hid with ⟨v, k1, k2⟩ | ⟨-, k2, -⟩
    · exact ⟨v, k1, k2⟩
    · simp [component_table.empty, table_index.contains, table_index.empty] at k2
  · intro scalls db st ids Args op hrun hb hne
    obtain ⟨r1, r2, r3⟩ := ecs.run_invariant scalls ecs.new fresh_statics db st ids hrun
      ecs.registry_ok_new ecs.tables_ok_new (by
        have : (ecs.new : ecs T).types.runningTypeIndex = 0 := rfl
        rw [this]; omega)
    have r4 : db.types.runningTypeIndex ≤ (scalls.map call.arity).sum := by
      have : (ecs.new : ecs T).types.runningTypeIndex = 0 := rfl
      rw [this] at r3; omega
    obtain ⟨db2, st2, made, k1, -, -, k4⟩ :=
      ecs_for_each_spec db st Args op r1 r2 (by omega) hne
    exact ⟨db2, st2, made, k1, k4⟩

theorem reachable_table_holds_last_insert_witness :
    component_table.run
        [table_call.insert 5 7, table_call.erase 5, table_call.insert 5 9,
          table_call.insert 2 1]
        (component_table.empty : component_table Nat) =
      some ⟨[0, 0, 1, 0, 0, 9, 0, 0], ⟨[36]⟩⟩ ∧
    ((∀ id, (component_table.mk [0, 0, 1, 0, 0, 9, 0, 0] ⟨[36]⟩).m_index.contains id = true →
      id < (component_table.mk [0, 0, 1, 0, 0, 9, 0, 0] ⟨[36]⟩).m_data.length ∧
        ∃ v, last_insert
            [table_call.insert 5 7, table_call.erase 5, table_call.insert 5 9,
              table_call.insert 2 1] id = some v ∧
          (component_table.mk [0, 0, 1, 0, 0, 9, 0, 0] ⟨[36]⟩).get id = some v) ∧
    ∀ (scalls : List (call Nat)) (db : ecs Nat) (st : Nat → Nat) (ids : List Nat)
      (Args : List Nat) (op : List Nat → List Nat),
      (ecs.new : ecs Nat).run scalls fresh_statics = some (db, st, ids) →
      3 * ((scalls.map call.arity).sum + Args.length) < u64 → Args ≠ [] →
      ∃ db2 st2 made, db.for_each st Args op = some (db2, st2, made) ∧
        ∀ id args, (id, args) ∈ made →
          Args.map (fun U => db.value st U id) = args.map some) :=
  ⟨by decide, reachable_table_holds_last_insert _ _ (by decide)⟩

/-! ## The other tables under attach and detach -/

namespace ecs

/-- What a defined `addComponent` did, seen through `find`. -/
theorem addComponent_inside {T : Type} [Inhabited T] (self : ecs T) (statics : Nat → Nat)
    (id U : Nat) (c : T) (db : ecs T) (st : Nat → Nat)
    (h : self.addComponent statics id U c = some (db, st))
    (hreg : self.registry_ok statics) (hb : 3 * self.types.runningTypeIndex < u64) :
    ∃ t, ((self.find statics U).getD component_table.empty).insert id c = some t ∧
      ∀ V, db.find st V = if V = U then some t else self.find statics V := by
  obtain ⟨ti, db0, st0, h1, h2, h3, h4, h5, -, -, -, -, -, -, h12, -⟩ :=
    table_find self statics U hreg hb
  have hlen := lt_length_of_getD_some _ _ _ h4
  unfold addComponent at h
  rw [h1] at h
  simp only [h4] at h
  cases hins : ((self.find statics U).getD component_table.empty).insert id c with
  | none => rw [hins] at h; exact absurd h (by simp)
  | some t =>
    rw [hins] at h
    simp only [Option.some.injEq, Prod.mk.injEq] at h
    obtain ⟨e1, e2⟩ := h
    subst e1 e2 h2
    refine ⟨t, rfl, fun V => ?_⟩
    rw [(find_set db0 st0 U t h12 h3 hlen).1 V]
    by_cases hV : V = U
    · rw [if_pos hV, if_pos hV]
    · rw [if_neg hV, if_neg hV, h5 V, if_neg hV]

/-- What a defined `removeComponent` did, seen through `find`. -/
theorem removeComponent_inside {T : Type} (self : ecs T) (statics : Nat → Nat)
    (id U : Nat) (db : ecs T) (st : Nat → Nat)
    (h : self.removeComponent statics id U = some (db, st))
    (hreg : self.registry_ok statics) (hb : 3 * self.types.runningTypeIndex < u64) :
    ∃ t, ((self.find statics U).getD component_table.empty).erase id = some t ∧
      ∀ V, db.find st V = if V = U then some t else self.find statics V := by
  obtain ⟨ti, db0, st0, h1, h2, h3, h4, h5, -, -, -, -, -, -, h12, -⟩ :=
    table_find self statics U hreg hb
  have hlen := lt_length_of_getD_some _ _ _ h4
  unfold removeComponent at h
  rw [h1] at h
  simp only [h4] at h
  cases hins : ((self.find statics U).getD component_table.empty).erase id with
  | none => rw [hins] at h; exact absurd h (by simp)
  | some t =>
    rw [hins] at h
    simp only [Option.some.injEq, Prod.mk.injEq] at h
    obtain ⟨e1, e2⟩ := h
    subst e1 e2 h2
    refine ⟨t, rfl, fun V => ?_⟩
    rw [(find_set db0 st0 U t h12 h3 hlen).1 V]
    by_cases hV : V = U
    · rw [if_pos hV, if_pos hV]
    · rw [if_neg hV, if_neg hV, h5 V, if_neg hV]

/-- A `removeComponent` for a type whose table holds `id` is defined. -/
theorem removeComponent_defined {T : Type} (self : ecs T) (statics : Nat → Nat)
    (id U : Nat) (hreg : self.registry_ok statics)
    (hb : 3 * self.types.runningTypeIndex < u64) (hhas : self.has statics U id = true) :
    ∃ db st, self.removeComponent statics id U = some (db, st) := by
  obtain ⟨ti, db0, st0, h1, -, -, h4, -⟩ := table_find self statics U hreg hb
  rw [iterator.has_eq] at hhas
  obtain ⟨t, ht⟩ := component_table.erase_defined _ id hhas
  unfold removeComponent
  rw [h1]
  simp only [h4, ht]
  exact ⟨_, _, rfl⟩

theorem find_valid {T : Type} (self : ecs T) (statics : Nat → Nat) (U : Nat)
    (htab : self.tables_ok) : ((self.find statics U).getD component_table.empty).valid := by
  cases hf : self.find statics U with
  | none => exact valid_empty_table
  | some t =>
    simp only [Option.getD_some]
    unfold find at hf
    split at hf
    · exact htab _ _ hf
    · exact absurd hf (by simp)

/-- The presence bits after a defined `addComponent`. -/
theorem addComponent_has {T : Type} [Inhabited T] (self : ecs T) (statics : Nat → Nat)
    (id U : Nat) (c : T) (db : ecs T) (st : Nat → Nat)
    (h : self.addComponent statics id U c = some (db, st))
    (hreg : self.registry_ok statics) (htab : self.tables_ok)
    (hb : 3 * self.types.runningTypeIndex < u64) (V j : Nat) :
    db.has st V j = (self.has statics V j || (decide (V = U) && decide (j = id))) := by
  obtain ⟨t, ht, hf⟩ := addComponent_inside self statics id U c db st h hreg hb
  obtain ⟨-, hc, -⟩ := component_table.insert_inside _ id c t ht (find_valid self statics U htab)
  rw [iterator.has_eq, hf V]
  by_cases hV : V = U
  · rw [if_pos hV, hV]
    simp only [Option.getD_some, decide_True, Bool.true_and]
    rw [hc j, iterator.has_eq]
  · rw [if_neg hV]
    simp only [hV, decide_False, Bool.false_and, Bool.or_false]
    rw [iterator.has_eq]

/-- The presence bits after a defined `removeComponent`. -/
theorem removeComponent_has {T : Type} (self : ecs T) (statics : Nat → Nat)
    (id U : Nat) (db : ecs T) (st : Nat → Nat)
    (h : self.removeComponent statics id U = some (db, st))
    (hreg : self.registry_ok statics) (hb : 3 * self.types.runningTypeIndex < u64)
    (V j : Nat) :
    db.has st V j = (self.has statics V j && !(decide (V = U) && decide (j = id))) := by
  obtain ⟨t, ht, hf⟩ := removeComponent_inside self statics id U db st h hreg hb
  obtain ⟨-, hc⟩ := component_table.erase_inside _ id t ht
  rw [iterator.has_eq, hf V]
  by_cases hV : V = U
  · rw [if_pos hV, hV]
    simp only [Option.getD_some, decide_True, Bool.true_and]
    rw [hc j, iterator.has_eq]
  · rw [if_neg hV]
    simp only [hV, decide_False, Bool.false_and, Bool.not_false, Bool.and_true]
    rw [iterator.has_eq]

/-- Defined `addComponent(id, ...)` calls change no table of a type that is not
among the components, and add no presence bit other than `id` in the tables of
the components. -/
theorem addComponents_inside {T : Type} [Inhabited T] (id : Nat) :
    ∀ (components : List (Nat × T)) (self : ecs T) (statics : Nat → Nat) (db : ecs T)
      (st : Nat → Nat), addComponents id components self statics = some (db, st) →
      self.registry_ok statics → self.tables_ok →
      3 * (self.types.runningTypeIndex + components.length) < u64 →
      (∀ V, V ∉ components.map Prod.fst → db.find st V = self.find statics V) ∧
      ∀ V j, db.has st V j = true →
        self.has statics V j = true ∨ (j = id ∧ V ∈ components.map Prod.fst) := by
  intro components
  induction components with
  | nil =>
    intro self statics db st h _ _ _
    cases h
    exact ⟨fun _ _ => rfl, fun V j hj => Or.inl hj⟩
  | cons head rest ih =>
    intro self statics db st h hreg htab hb
    obtain ⟨U, c⟩ := head
    simp only [List.length_cons] at hb
    unfold addComponents at h
    split at h
    · exact absurd h (by simp)
    · rename_i db1 st1 h1
      obtain ⟨a1, a2, a3⟩ := addComponent_some self statics id U c db1 st1 h1 hreg htab
        (by omega)
      obtain ⟨t, -, hf⟩ := addComponent_inside self statics id U c db1 st1 h1 hreg (by omega)
      obtain ⟨b1, b2⟩ := ih db1 st1 db st h a1 a2 (by omega)
      refine ⟨fun V hV => ?_, fun V j hj => ?_⟩
      · simp only [List.map_cons, List.mem_cons, not_or] at hV
        rw [b1 V hV.2, hf V, if_neg hV.1]
      · rcases b2 V j hj with k | ⟨k1, k2⟩
        · rw [addComponent_has self statics id U c db1 st1 h1 hreg htab (by omega)] at k
          simp only [Bool.or_eq_true, Bool.and_eq_true, decide_eq_true_eq] at k
          rcases k with k | ⟨k1, k2⟩
          · exact Or.inl k
          · exact Or.inr ⟨k2, by rw [k1]; exact List.mem_cons_self _ _⟩
        · exact Or.inr ⟨k1, List.mem_cons_of_mem _ k2⟩

/-- Defined `removeComponent<...>(id)` calls change no table of a type that is
not among those named, and add no presence bit. -/
theorem removeComponents_inside {T : Type} (id : Nat) :
    ∀ (Components : List Nat) (self : ecs T) (statics : Nat → Nat) (db : ecs T)
      (st : Nat → Nat), removeComponents id Components self statics = some (db, st) →
      self.registry_ok statics → self.tables_ok →
      3 * (self.types.runningTypeIndex + Components.length) < u64 →
      (∀ V, V ∉ Components → db.find st V = self.find statics V) ∧
      ∀ V j, db.has st V j = true → self.has statics V j = true := by
  intro Components
  induction Components with
  | nil =>
    intro self statics db st h _ _ _
    cases h
    exact ⟨fun _ _ => rfl, fun V j hj => hj⟩
  | cons U rest ih =>
    intro self statics db st h hreg htab hb
    simp only [List.length_cons] at hb
    unfold removeComponents at h
    split at h
    · exact absurd h (by simp)
    · rename_i db1 st1 h1
      obtain ⟨a1, a2, a3⟩ := removeComponent_some self statics id U db1 st1 h1 hreg htab
        (by omega)
      obtain ⟨t, -, hf⟩ := removeComponent_inside self statics id U db1 st1 h1 hreg (by omega)
      obtain ⟨b1, b2⟩ := ih db1 st1 db st h a1 a2 (by omega)
      refine ⟨fun V hV => ?_, fun V j hj => ?_⟩
      · simp only [List.mem_cons, not_or] at hV
        rw [b1 V hV.2, hf V, if_neg hV.1]
      · have k := b2 V j hj
        rw [removeComponent_has self statics id U db1 st1 h1 hreg (by omega)] at k
        simp only [Bool.and_eq_true] at k
        exact k.1

theorem has_value_of_find {T : Type} (db db2 : ecs T) (st st2 : Nat → Nat) (U : Nat)
    (h : db2.find st2 U = db.find st U) :
    (∀ j, db2.has st2 U j = db.has st U j) ∧ ∀ j, db2.value st2 U j = db.value st U j := by
  refine ⟨fun j => ?_, fun j => ?_⟩
  · unfold has; rw [h]
  · unfold value; rw [h]

end ecs

namespace ecs

/-- Detaching pairwise distinct types that all hold `id` is defined. -/
theorem removeComponents_defined {T : Type} (id : Nat) :
    ∀ (Components : List Nat) (self : ecs T) (statics : Nat → Nat),
      self.registry_ok statics → self.tables_ok →
      3 * (self.types.runningTypeIndex + Components.length) < u64 →
      Components.Nodup → (∀ V, V ∈ Components → self.has statics V id = true) →
      ∃ db st, removeComponents id Components self statics = some (db, st) := by
  intro Components
  induction Components with
  | nil =>
    intro self statics _ _ _ _ _
    exact ⟨self, statics, rfl⟩
  | cons U rest ih =>
    intro self statics hreg htab hb hnd hhas
    simp only [List.length_cons] at hb
    obtain ⟨db1, st1, h1⟩ := removeComponent_defined self statics id U hreg (by omega)
      (hhas U (List.mem_cons_self _ _))
    obtain ⟨a1, a2, a3⟩ := removeComponent_some self statics id U db1 st1 h1 hreg htab
      (by omega)
    have hnd2 := List.nodup_cons.mp hnd
    obtain ⟨db, st, h2⟩ := ih db1 st1 a1 a2 (by omega) hnd2.2 (fun V hV => by
      rw [removeComponent_has self statics id U db1 st1 h1 hreg (by omega)]
      have hne : V ≠ U := fun e => hnd2.1 (e ▸ hV)
      simp [hne, hhas V (List.mem_cons_of_mem _ hV)])
    refine ⟨db, st, ?_⟩
    unfold removeComponents
    rw [h1]
    exact h2

end ecs

/-- C13: in a store of a single-store process, for a component type `U` that is
not among the types attached or detached: `attachToEntity(id, ...)` (defined
for every id below 2^64 / 3), `create(...)` (defined while the id counter is
below 2^64 / 3) and `removeFromEntity<...>(id)` (defined when the detached
types are pairwise distinct and all hold `id`) leave the table of `U` as it
was, so the same ids are present in `U` and each reads the same value. -/
theorem attach_and_detach_leave_other_tables_unchanged {T : Type} [Inhabited T]
    (db : ecs T) (statics : Nat → Nat) (hreg : db.registry_ok statics)
    (htab : db.tables_ok) (U : Nat) :
    (∀ (id : Nat) (components : List (Nat × T)),
      U ∉ components.map Prod.fst →
      3 * (db.types.runningTypeIndex + components.length) < u64 →
      (3 * id < u64 → ∃ r, db.attachToEntity statics id components = some r) ∧
      ∀ db2 st2, db.attachToEntity statics id components = some (db2, st2) →
        db2.find st2 U = db.find statics U ∧
        (∀ j, db2.has st2 U j = db.has statics U j) ∧
        ∀ j, db2.value st2 U j = db.value statics U j) ∧
    (∀ (components : List (Nat × T)),
      U ∉ components.map Prod.fst →
      3 * (db.types.runningTypeIndex + components.length) < u64 →
      (3 * (db.entities.m_nextId + 1) < u64 → ∃ r, db.create statics components = some r) ∧
      ∀ id db2 st2, db.create statics components = some (id, db2, st2) →
        db2.find st2 U = db.find statics U ∧
        (∀ j, db2.has st2 U j = db.has statics U j) ∧
        ∀ j, db2.value st2 U j = db.value statics U j) ∧
    ∀ (id : Nat) (Components : List Nat),
      U ∉ Components →
      3 * (db.types.runningTypeIndex + Components.length) < u64 →
      (Components.Nodup → (∀ V, V ∈ Components → db.has statics V id = true) →
        ∃ r, db.removeFromEntity statics id Components = some r) ∧
      ∀ db2 st2, db.removeFromEntity statics id Components = some (db2, st2) →
        db2.find st2 U = db.find statics U ∧
        (∀ j, db2.has st2 U j = db.has statics U j) ∧
        ∀ j, db2.value st2 U j = db.value statics U j := by
  refine ⟨fun id components hU hb => ⟨fun hid => ?_, fun db2 st2 h => ?_⟩,
    fun components hU hb => ⟨fun hid => ?_, fun id db2 st2 h => ?_⟩,
    fun id Components hU hb => ⟨fun hnd hhas => ?_, fun db2 st2 h => ?_⟩⟩
  · obtain ⟨d, s, h, -⟩ := ecs.addComponents_spec id hid components db statics hreg hb
    exact ⟨(d, s), h⟩
  · have hf := (ecs.addComponents_inside id components db statics db2 st2 h hreg htab hb).1 U hU
    exact ⟨hf, ecs.has_value_of_find db db2 statics st2 U hf⟩
  · obtain ⟨d, s, h, -⟩ := ecs.create_spec db statics components hreg hb hid
    exact ⟨_, h⟩
  · unfold ecs.create at h
    simp only [entity_index.generateOne] at h
    cases ha : ecs.addComponents ((db.entities.m_nextId + 1) % u64) components
        (ecs.mk db.m_components db.types ⟨(db.entities.m_nextId + 1) % u64⟩) statics with
    | none => rw [ha] at h; exact absurd h (by simp)
    | some r =>
      rw [ha] at h
      obtain ⟨d, s⟩ := r
      simp only [Option.map_some', Option.some.injEq, Prod.mk.injEq] at h
      obtain ⟨-, e1, e2⟩ := h
      subst e1 e2
      have hf := (ecs.addComponents_inside _ components _ statics d s ha
        ⟨hreg.1, hreg.2.1, hreg.2.2⟩ htab hb).1 U hU
      have hf2 : d.find s U = db.find statics U := hf
      exact ⟨hf2, ecs.has_value_of_find db d statics s U hf2⟩
  · obtain ⟨d, s, h⟩ := ecs.removeComponents_defined id Components db statics hreg htab hb
      hnd hhas
    exact ⟨(d, s), h⟩
  · have hf := (ecs.removeComponents_inside id Components db statics db2 st2 h hreg htab hb).1
      U hU
    exact ⟨hf, ecs.has_value_of_find db db2 statics st2 U hf⟩


theorem attach_and_detach_leave_other_tables_unchanged_witness :
    scenario_db.registry_ok scenario_statics ∧ scenario_db.tables_ok ∧
    ((∃ r, scenario_db.attachToEntity scenario_statics 3 [(0, 30)] = some r) ∧
      ∀ db2 st2, scenario_db.attachToEntity scenario_statics 3 [(0, 30)] = some (db2, st2) →
        db2.find st2 1 = scenario_db.find scenario_statics 1 ∧
        (∀ j, db2.has st2 1 j = scenario_db.has scenario_statics 1 j) ∧
        ∀ j, db2.value st2 1 j = scenario_db.value scenario_statics 1 j) ∧
    ((∃ r, scenario_db.create scenario_statics [(0, 60)] = some r) ∧
      ∀ id db2 st2, scenario_db.create scenario_statics [(0, 60)] = some (id, db2, st2) →
        db2.find st2 1 = scenario_db.find scenario_statics 1 ∧
        (∀ j, db2.has st2 1 j = scenario_db.has scenario_statics 1 j) ∧
        ∀ j, db2.value st2 1 j = scenario_db.value scenario_statics 1 j) ∧
    ((∃ r, scenario_db.removeFromEntity scenario_statics 2 [0] = some r) ∧
      ∀ db2 st2, scenario_db.removeFromEntity scenario_statics 2 [0] = some (db2, st2) →
        db2.find st2 1 = scenario_db.find scenario_statics 1 ∧
        (∀ j, db2.has st2 1 j = scenario_db.has scenario_statics 1 j) ∧
        ∀ j, db2.value st2 1 j = scenario_db.value scenario_statics 1 j) ∧
    (scenario_db.attachToEntity scenario_statics 3 [(0, 30)]).map
        (fun r => r.1.m_components) =
      some [some ⟨[0, 10, 20, 30, 40, 0, 0], ⟨[30]⟩⟩,
        some ⟨[0, 0, 21, 0, 41, 51, 0], ⟨[52]⟩⟩] ∧
    (scenario_db.removeFromEntity scenario_statics 2 [0]).map
        (fun r => r.1.m_components) =
      some [some ⟨[0, 10, 20, 0, 40, 0, 0], ⟨[18]⟩⟩,
        some ⟨[0, 0, 21, 0, 41, 51, 0], ⟨[52]⟩⟩] :=
  ⟨scenario_registry_ok, scenario_tables_ok,
    ⟨((attach_and_detach_leave_other_tables_unchanged scenario_db scenario_statics
        scenario_registry_ok scenario_tables_ok 1).1 3 [(0, 30)] (by decide) (by decide)).1
        (by decide),
      ((attach_and_detach_leave_other_tables_unchanged scenario_db scenario_statics
        scenario_registry_ok scenario_tables_ok 1).1 3 [(0, 30)] (by decide) (by decide)).2⟩,
    ⟨((attach_and_detach_leave_other_tables_unchanged scenario_db scenario_statics
        scenario_registry_ok scenario_tables_ok 1).2.1 [(0, 60)] (by decide) (by decide)).1
        (by decide),
      ((attach_and_detach_leave_other_tables_unchanged scenario_db scenario_statics
        scenario_registry_ok scenario_tables_ok 1).2.1 [(0, 60)] (by decide) (by decide)).2⟩,
    ⟨((attach_and_detach_leave_other_tables_unchanged scenario_db scenario_statics
        scenario_registry_ok scenario_tables_ok 1).2.2 2 [0] (by decide) (by decide)).1
        (by decide) (by decide),
      ((attach_and_detach_leave_other_tables_unchanged scenario_db scenario_statics
        scenario_registry_ok scenario_tables_ok 1).2.2 2 [0] (by decide) (by decide)).2⟩,
    by decide, by decide⟩


/-! ## Present ids are issued ids -/

namespace ecs

/-- A defined `create` is the `addComponent` calls for the id that
`generateOne` issued. -/
theorem create_inside {T : Type} [Inhabited T] (self : ecs T) (statics : Nat → Nat)
    (components : List (Nat × T)) (id : Nat) (db : ecs T) (st : Nat → Nat)
    (h : self.create statics components = some (id, db, st)) :
    id = (self.entities.m_nextId + 1) % u64 ∧
      addComponents id components (ecs.mk self.m_components self.types ⟨id⟩) statics =
        some (db, st) := by
  unfold create at h
  simp only [entity_index.generateOne] at h
  cases ha : addComponents ((self.entities.m_nextId + 1) % u64) components
      (ecs.mk self.m_components self.types ⟨(self.entities.m_nextId + 1) % u64⟩) statics with
  | none => rw [ha] at h; exact absurd h (by simp)
  | some r =>
    rw [ha] at h
    obtain ⟨d, s⟩ := r
    simp only [Option.map_some', Option.some.injEq, Prod.mk.injEq] at h
    obtain ⟨e0, e1, e2⟩ := h
    subst e0 e1 e2
    exact ⟨rfl, ha⟩

/-- One defined call keeps every present id between 1 and the last id issued,
when an `attachToEntity` names such an id. -/
theorem step_present {T : Type} [Inhabited T] (self : ecs T) (statics : Nat → Nat)
    (c : call T) (db : ecs T) (st : Nat → Nat) (ids : List Nat)
    (h : self.step statics c = some (db, st, ids))
    (hreg : self.registry_ok statics) (htab : self.tables_ok)
    (hb : 3 * (self.types.runningTypeIndex + c.arity) < u64)
    (hn : self.entities.m_nextId + 1 < u64)
    (hc : ∀ id components, c = call.attachToEntity id components →
      1 ≤ id ∧ id ≤ self.entities.m_nextId)
    (hinv : ∀ U id, self.has statics U id = true → 1 ≤ id ∧ id ≤ self.entities.m_nextId) :
    ∀ U id, db.has st U id = true → 1 ≤ id ∧ id ≤ db.entities.m_nextId := by
  intro U j hj
  cases c with
  | create components =>
    simp only [step] at h
    cases hcr : self.create statics components with
    | none => rw [hcr] at h; exact absurd h (by simp)
    | some r =>
      rw [hcr] at h
      obtain ⟨i, d, s⟩ := r
      simp only [Option.map_some', Option.some.injEq, Prod.mk.injEq] at h
      obtain ⟨e1, e2, -⟩ := h
      subst e1 e2
      obtain ⟨hi, ha⟩ := create_inside self statics components i d s hcr
      rw [Nat.mod_eq_of_lt hn] at hi
      have he := addComponents_entities i components _ statics d s ha
      have hm : d.entities.m_nextId = i := by rw [he]
      rcases (addComponents_inside i components _ statics d s ha
        ⟨hreg.1, hreg.2.1, hreg.2.2⟩ htab hb).2 U j hj with k | ⟨k, -⟩
      · have := hinv U j k
        omega
      · omega
  | attachToEntity id components =>
    simp only [step] at h
    cases hcr : self.attachToEntity statics id components with
    | none => rw [hcr] at h; exact absurd h (by simp)
    | some r =>
      rw [hcr] at h
      obtain ⟨d, s⟩ := r
      simp only [Option.map_some', Option.some.injEq, Prod.mk.injEq] at h
      obtain ⟨e1, e2, -⟩ := h
      subst e1 e2
      have he := addComponents_entities id components self statics d s hcr
      rw [he]
      rcases (addComponents_inside id components self statics d s hcr hreg htab hb).2 U j hj
        with k | ⟨k, -⟩
      · exact hinv U j k
      · rw [k]; exact hc id components rfl
  | removeFromEntity id Components =>
    simp only [step] at h
    cases hcr : self.removeFromEntity statics id Components with
    | none => rw [hcr] at h; exact absurd h (by simp)
    | some r =>
      rw [hcr] at h
      obtain ⟨d, s⟩ := r
      simp only [Option.map_some', Option.some.injEq, Prod.mk.injEq] at h
      obtain ⟨e1, e2, -⟩ := h
      subst e1 e2
      have he := removeComponents_entities id Components self statics d s hcr
      rw [he]
      exact hinv U j
        ((removeComponents_inside id Components self statics d s hcr hreg htab hb).2 U j hj)
  | for_each it Args op =>
    simp only [step] at h
    cases hcr : it.for_each self statics Args op with
    | none => rw [hcr] at h; exact absurd h (by simp)
    | some r =>
      rw [hcr] at h
      obtain ⟨d, s, made⟩ := r
      simp only [Option.map_some', Option.some.injEq, Prod.mk.injEq] at h
      obtain ⟨e1, e2, -⟩ := h
      subst e1 e2
      have he := iterator.for_each_entities it self statics Args op d s made hcr
      rw [he]
      rw [(iterator.for_each_has it self statics Args op d s made hcr hreg htab hb).1 U j] at hj
      exact hinv U j hj

/-- Every defined run in which each `attachToEntity` names an id that a
`create` has returned keeps every present id between 1 and the last id
issued. -/
theorem run_present {T : Type} [Inhabited T] :
    ∀ (calls : List (call T)) (self : ecs T) (statics : Nat → Nat) (db : ecs T)
      (st : Nat → Nat) (ids : List Nat),
      run calls self statics = some (db, st, ids) →
      self.registry_ok statics → self.tables_ok →
      3 * (self.types.runningTypeIndex + (calls.map call.arity).sum) < u64 →
      self.entities.m_nextId + calls.length < u64 →
      attaches_issued calls self.entities.m_nextId →
      (∀ U id, self.has statics U id = true → 1 ≤ id ∧ id ≤ self.entities.m_nextId) →
      ∀ U id, db.has st U id = true → 1 ≤ id ∧ id ≤ db.entities.m_nextId := by
  intro calls
  induction calls with
  | nil =>
    intro self statics db st ids h _ _ _ _ _ hinv
    cases h
    exact hinv
  | cons c rest ih =>
    intro self statics db st ids h hreg htab hb hn hatt hinv
    simp only [List.map_cons, List.sum_cons] at hb
    simp only [List.length_cons] at hn
    unfold run at h
    split at h
    · exact absurd h (by simp)
    · rename_i db1 st1 ids1 h1
      cases hr : run rest db1 st1 with
      | none => rw [hr] at h; exact absurd h (by simp)
      | some r =>
        rw [hr] at h
        obtain ⟨db2, st2, ids2⟩ := r
        simp only [Option.map_some', Option.some.injEq, Prod.mk.injEq] at h
        obtain ⟨e1, e2, -⟩ := h
        subst e1 e2
        obtain ⟨a1, a2, a3⟩ := step_some self statics c db1 st1 ids1 h1 hreg htab (by omega)
        have hc : ∀ id components, c = call.attachToEntity id components →
            1 ≤ id ∧ id ≤ self.entities.m_nextId := by
          intro id components e
          subst e
          simp only [attaches_issued] at hatt
          exact ⟨hatt.1, hatt.2.1⟩
        have hinv1 := step_present self statics c db1 st1 ids1 h1 hreg htab (by omega)
          (by omega) hc hinv
        have hatt1 : attaches_issued rest db1.entities.m_nextId := by
          rcases step_entities self statics c db1 st1 ids1 h1 (by omega) with
            ⟨k1, -, k3⟩ | ⟨k1, -, k3⟩
          · rw [k3]
            cases c with
            | create components => simpa only [attaches_issued] using hatt
            | attachToEntity id components => simp [creates] at k1
            | removeFromEntity id Components => simp [creates] at k1
            | for_each it Args op => simp [creates] at k1
          · rw [k3]
            cases c with
            | create components => simp [creates] at k1
            | attachToEntity id components =>
              simp only [attaches_issued] at hatt
              exact hatt.2.2
            | removeFromEntity id Components => simpa only [attaches_issued] using hatt
            | for_each it Args op => simpa only [attaches_issued] using hatt
        have hn1 : db1.entities.m_nextId + rest.length < u64 := by
          rcases step_entities self statics c db1 st1 ids1 h1 (by omega) with
            ⟨-, -, k3⟩ | ⟨-, -, k3⟩
          · omega
          · omega
        exact ih db1 st1 db2 st2 ids2 hr a1 a2 (by omega) hn1 hatt1 hinv1

end ecs



/-- C20: in every store reached from a new store of a single-store process by a
defined run of `create`, `attachToEntity`, `removeFromEntity` and `for_each`
calls in which each `attachToEntity` names an id that an earlier `create`
returned, every id present in the table of any type is one of the ids the
`create` calls returned and is at most the last id issued (`m_nextId`); so the
next `create(c1..cn)` with pairwise distinct types is defined, returns
`m_nextId + 1`, and that id is present in the table of a type exactly when the
type is one of those supplied. -/
theorem created_id_present_only_in_supplied_tables {T : Type} [Inhabited T]
    (calls : List (call T)) (db : ecs T) (st : Nat → Nat) (ids : List Nat)
    (components : List (Nat × T))
    (hrun : (ecs.new : ecs T).run calls fresh_statics = some (db, st, ids))
    (hatt : attaches_issued calls 0)
    (hb : 3 * ((calls.map call.arity).sum + components.length) < u64)
    (hn : 3 * (calls.length + 1) < u64)
    (hnd : (components.map Prod.fst).Nodup) :
    ids = List.range' 1 (creates calls) ∧ db.entities.m_nextId = creates calls ∧
    (∀ U id, db.has st U id = true → id ∈ ids ∧ id ≤ db.entities.m_nextId) ∧
    ∃ db2 st2, db.create st components = some (db.entities.m_nextId + 1, db2, st2) ∧
      ∀ U, db2.has st2 U (db.entities.m_nextId + 1) = true ↔ U ∈ components.map Prod.fst := by
  have h0 : (ecs.new : ecs T).entities.m_nextId = 0 := rfl
  have hr0 : (ecs.new : ecs T).types.runningTypeIndex = 0 := rfl
  obtain ⟨i1, i2, i3⟩ := ecs.run_ids calls ecs.new fresh_statics db st ids hrun
    (by rw [h0]; omega)
  rw [h0] at i1 i2
  simp only [Nat.zero_add] at i1 i2
  obtain ⟨r1, r2, r3⟩ := ecs.run_invariant calls ecs.new fresh_statics db st ids hrun
    ecs.registry_ok_new ecs.tables_ok_new (by rw [hr0]; omega)
  rw [hr0] at r3
  have hinv := ecs.run_present calls ecs.new fresh_statics db st ids hrun
    ecs.registry_ok_new ecs.tables_ok_new (by rw [hr0]; omega) (by rw [h0]; omega)
    (by rw [h0]; exact hatt)
    (fun U id h => by
      have hs : ¬ (fresh_statics U ≠ no_type) := fun k => k rfl
      have hf : (ecs.new : ecs T).find fresh_statics U = none := by
        unfold ecs.find
        rw [if_neg hs]
      rw [iterator.has_eq, hf] at h
      simp [component_table.empty, table_index.contains, table_index.empty] at h)
  refine ⟨i1, i2, fun U id h => ?_, ?_⟩
  · obtain ⟨k1, k2⟩ := hinv U id h
    refine ⟨?_, k2⟩
    rw [i1, List.mem_range']
    exact ⟨id - 1, by omega, by omega⟩
  · obtain ⟨db2, st2, c1, -, -, -, -, c6, -⟩ := ecs.create_spec db st components r1
      (by omega) (by omega)
    refine ⟨db2, st2, c1, fun U => ⟨fun h => ?_, fun h => ?_⟩⟩
    · obtain ⟨-, ha⟩ := ecs.create_inside db st components _ db2 st2 c1
      rcases (ecs.addComponents_inside _ components _ st db2 st2 ha
        ⟨r1.1, r1.2.1, r1.2.2⟩ r2
        (by show 3 * (db.types.runningTypeIndex + components.length) < u64; omega)).2 U _ h
        with k | ⟨-, k⟩
      · have k2 : db.has st U (db.entities.m_nextId + 1) = true := k
        have := (hinv U _ k2).2
        omega
      · exact k
    · obtain ⟨⟨V, c⟩, hm, e⟩ := List.mem_map.mp h
      simp only at e
      subst e
      exact (c6 hnd V c hm).1

theorem created_id_present_only_in_supplied_tables_witness :
    ∃ (db : ecs Nat) (st : Nat → Nat) (ids : List Nat),
      (ecs.new : ecs Nat).run
        [call.create [(0, 10)], call.create [(1, 21)], call.attachToEntity 1 [(1, 11)],
          call.removeFromEntity 2 [1],
          call.for_each iterator.new [0, 1] (fun l => l.map (· + 1)), call.create []]
        fresh_statics = some (db, st, ids) ∧
      (db, ids) =
        (ecs.mk [some ⟨[0, 11], ⟨[2]⟩⟩, some ⟨[0, 12, 21, 0], ⟨[2]⟩⟩] ⟨2⟩ ⟨3⟩,
          [1, 2, 3]) ∧
      ids = List.range' 1 3 ∧ db.entities.m_nextId = 3 ∧
      (∀ U id, db.has st U id = true → id ∈ ids ∧ id ≤ db.entities.m_nextId) ∧
      ∃ db2 st2, db.create st [(2, 70), (0, 71)] = some (db.entities.m_nextId + 1, db2, st2) ∧
        ∀ U, db2.has st2 U (db.entities.m_nextId + 1) = true ↔
          U ∈ [(2, 70), (0, 71)].map Prod.fst :=
  have hd : ((ecs.new : ecs Nat).run
      [call.create [(0, 10)], call.create [(1, 21)], call.attachToEntity 1 [(1, 11)],
        call.removeFromEntity 2 [1],
        call.for_each iterator.new [0, 1] (fun l => l.map (· + 1)), call.create []]
      fresh_statics).map (fun r => (r.1, r.2.2)) =
      some (ecs.mk [some ⟨[0, 11], ⟨[2]⟩⟩, some ⟨[0, 12, 21, 0], ⟨[2]⟩⟩] ⟨2⟩ ⟨3⟩,
        [1, 2, 3]) := by decide
  match hr : (ecs.new : ecs Nat).run
      [call.create [(0, 10)], call.create [(1, 21)], call.attachToEntity 1 [(1, 11)],
        call.removeFromEntity 2 [1],
        call.for_each iterator.new [0, 1] (fun l => l.map (· + 1)), call.create []]
      fresh_statics, hd with
  | some (db, st, ids), hd =>
    ⟨db, st, ids, rfl, by simpa using hd,
      created_id_present_only_in_supplied_tables _ db st ids [(2, 70), (0, 71)] hr
        (by simp [attaches_issued]) (by decide) (by decide) (by decide)⟩

end urtela
